import Mathlib

/-!
Verification of expeval, a recursive-descent expression parser and evaluator.

A shallow embedding of `src/c/AST/Parser.h` (class `Parser`) and of
`evaluate` from `src/c/ast/evalexp.c`, followed by theorems about them.

Modelling conventions.

* The text is a `List Char`, one element for each `char` of the C string;
  reading `m_Text[i]` is `charAt text i`, which yields the terminating NUL at
  the end of the list. The cursor `m_Index` is a natural number.
* The trees hold exact rationals (`Value := ℚ`): a leaf holds the decimal
  value of its literal. `evaluate` computes in exact rational arithmetic, where
  nothing rounds and `x / 0` is `0`; it stands for the C function only where
  the `double` operations are exact, and nothing below speaks about infinities
  or NaN. `evaluateIn` is the same function over an abstract arithmetic, of
  which only the laws of the neutral elements are assumed (`x * 1 = x`,
  `1 * x = x`, `0 + q = q`); these hold of `double`, so what is proved with
  them does not depend on rounding or on the order of the operations.
* A C++ exception is the `Failure.thrown` result. Two further results have no
  counterpart among the exceptions: `Failure.bufferOverrun` (the literal copied
  by `GetNumber` does not fit its 32-byte buffer together with a terminating
  NUL, which is undefined behaviour in C++) and `Failure.outOfFuel` (the
  recursion budget of the model ran out).
* The five grammar procedures call each other recursively; in the model each
  call hands its callees a budget that is smaller by one, and `Parse` starts
  with a budget of `3 * length + 8`.
-/

namespace ExpEval

/-! ## Data model -/

/-- Modelled from the spec: `AST.h` of the C++ tree is missing; these are the
token kinds of `Token::Type` that `Parser.h` uses (spec §3). -/
inductive TokenType where
  | Error
  | Plus
  | Minus
  | Mul
  | Div
  | EndOfText
  | OpenParenthesis
  | ClosedParenthesis
  | Number
  deriving DecidableEq

/-- The numbers held by tokens and leaves: exact rationals, the decimal value
of a literal as it is written. -/
abbrev Value := ℚ

/-- Modelled from the spec: `AST.h` is missing; `Token` has the three fields
`Type` (here `Kind`), `Value`, `Symbol` that `Parser.h` assigns (compare
`struct token` in `src/c/ast/ast.h`). -/
structure Token where
  Kind : TokenType
  Value : Value
  Symbol : Char
  deriving DecidableEq

/-- Modelled from the spec: `AST.h` is missing; these are the four node types
that `CreateNode` is called with (spec §3: `Add`, `Sub`, `Mul`, `Div`). -/
inductive ASTNodeType where
  | OperatorPlus
  | OperatorMinus
  | OperatorMul
  | OperatorDiv
  deriving DecidableEq

/-- Modelled from the spec: `AST.h` is missing; a node is one of the three
shapes built by `CreateNodeNumber`, `CreateUnaryNode` and `CreateNode`
(spec §3: `NumberLiteral`, `UnaryNegate`, `BinaryOp`). -/
inductive ASTNode where
  | NumberValue (Value : Value)
  | UnaryMinus (Left : ASTNode)
  | Binary (Kind : ASTNodeType) (Left Right : ASTNode)
  deriving DecidableEq

/-- The message of a `ParserException`, kept structured. -/
inductive Message where
  /-- The message "Unexpected token 'c' at position n". -/
  | UnexpectedToken (symbol : Char)
  /-- The message "Expected token 'c' at position n". -/
  | ExpectedToken (expected : Char)
  /-- The message "Number expected but not found!". -/
  | NumberExpected
  deriving DecidableEq

/-- The exception `ParserException(message, pos)`. -/
structure ParserException where
  message : Message
  m_Pos : Nat
  deriving DecidableEq

/-- The ways in which a run of the parser does not return normally. -/
inductive Failure where
  | thrown (e : ParserException)
  | bufferOverrun
  | outOfFuel
  deriving DecidableEq

/-- The data members of `class Parser`. -/
structure Parser where
  m_crtToken : Token
  m_Text : List Char
  m_Index : Nat
  deriving DecidableEq

/-! ## Character classification and the C library -/

/-- The read `m_Text[i]`: the character at index `i`, NUL at the end of the text. -/
def charAt (text : List Char) (i : Nat) : Char :=
  text.getD i (Char.ofNat 0)

/-- The C library's `isspace` in the "C" locale: space, `\t`, `\n`, `\v`, `\f`, `\r`. -/
def isspace (c : Char) : Bool :=
  c.toNat = 32 || (9 ≤ c.toNat && c.toNat ≤ 13)

/-- The C library's `isdigit`: `'0'` to `'9'`. -/
def isdigit (c : Char) : Bool :=
  48 ≤ c.toNat && c.toNat ≤ 57

/-- The loop `while (pred(m_Text[m_Index])) m_Index++;`, run on the part of
the text that starts at the cursor `i`; it returns the new cursor. The end of
the list is the terminating NUL, which satisfies neither `isspace` nor
`isdigit`. -/
def scanWhile (pred : Char → Bool) : List Char → Nat → Nat
  | [], i => i
  | c :: cs, i => if pred c then scanWhile pred cs (i + 1) else i

/-- The value of a run of decimal digits. -/
def digitsValue (ds : List Char) : Nat :=
  ds.foldl (fun acc c => 10 * acc + (c.toNat - 48)) 0

/-- The C library's `atof` on the contents of `buffer` up to its NUL, for the
only inputs `GetNumber` passes: digits, optionally a `.` and more digits. The
result is the exact decimal value, not the nearest `double`. -/
def atof (buffer : List Char) : Value :=
  let ip := buffer.takeWhile isdigit
  match buffer.dropWhile isdigit with
  | c :: rest =>
    if c = '.' then
      let fp := rest.takeWhile isdigit
      (digitsValue ip : ℚ) + (digitsValue fp : ℚ) / (10 : ℚ) ^ fp.length
    else (digitsValue ip : ℚ)
  | [] => (digitsValue ip : ℚ)

/-! ## The evaluator (`evaluate`, `src/c/ast/evalexp.c`) -/

/-- The function `evaluate` of `evalexp.c`, computed in exact rational
arithmetic. Sums and products of rationals do not round and `x / 0` is `0`, so
a value computed here is the value the C function returns only where the
`double` operations involved are exact; what holds whatever the rounding is
stated with `evaluateIn` below. -/
def evaluate : ASTNode → Value
  | .NumberValue v => v
  | .UnaryMinus l => - evaluate l
  | .Binary t l r =>
    let v1 := evaluate l
    let v2 := evaluate r
    match t with
    | .OperatorPlus => v1 + v2
    | .OperatorMinus => v1 - v2
    | .OperatorMul => v1 * v2
    | .OperatorDiv => v1 / v2

/-- The arithmetic of `double` in which `evaluate` computes, kept abstract.
`num q` is the `double` that stands for the decimal value `q`: what `atof`
returns for a literal, and the constants `0` and `1` handed to
`CreateNodeNumber`. The other fields are the C operators `+`, `-`, `*`, `/`
and unary `-` on `double`. -/
structure Arithmetic (α : Type) where
  num : ℚ → α
  add : α → α → α
  sub : α → α → α
  mul : α → α → α
  div : α → α → α
  neg : α → α

/-- The function `evaluate` of `evalexp.c`, with the operations of `double`
taken from the arithmetic `A`. -/
def evaluateIn {α : Type} (A : Arithmetic α) : ASTNode → α
  | .NumberValue v => A.num v
  | .UnaryMinus l => A.neg (evaluateIn A l)
  | .Binary t l r =>
    let v1 := evaluateIn A l
    let v2 := evaluateIn A r
    match t with
    | .OperatorPlus => A.add v1 v2
    | .OperatorMinus => A.sub v1 v2
    | .OperatorMul => A.mul v1 v2
    | .OperatorDiv => A.div v1 v2

/-- The laws of the neutral elements that the arithmetic of IEEE 754 `double`
obeys: `x * 1.0` and `1.0 * x` are `x` for every `x`, the sign of a zero
included, and `0.0 + x` is `x` for the `double` of a decimal value that is not
negative. Nothing is assumed about the order in which sums and products are
formed, nor about division. -/
structure Arithmetic.Neutral {α : Type} (A : Arithmetic α) : Prop where
  mul_one : ∀ x : α, A.mul x (A.num 1) = x
  one_mul : ∀ x : α, A.mul (A.num 1) x = x
  zero_add : ∀ q : ℚ, 0 ≤ q → A.add (A.num 0) (A.num q) = A.num q

/-- Exact rational arithmetic, in which `evaluate` above computes. -/
def rationals : Arithmetic ℚ :=
  ⟨fun q => q, fun x y => x + y, fun x y => x - y, fun x y => x * y, fun x y => x / y,
    fun x => - x⟩

/-! ## The lexer (`Parser.h`) -/

/-- The function `Parser::CreateNode`. -/
def CreateNode (type : ASTNodeType) (left right : ASTNode) : ASTNode :=
  .Binary type left right

/-- The function `Parser::CreateUnaryNode`. -/
def CreateUnaryNode (left : ASTNode) : ASTNode :=
  .UnaryMinus left

/-- The function `Parser::CreateNodeNumber`. -/
def CreateNodeNumber (value : Value) : ASTNode :=
  .NumberValue value

/-- The function `Parser::SkipWhitespaces`. -/
def SkipWhitespaces (p : Parser) : Parser :=
  { p with m_Index := scanWhile isspace (p.m_Text.drop p.m_Index) p.m_Index }

/-- The function `Parser::GetNumber`. The copy into `char buffer[32] = {0}`
needs `m_Index - index ≤ 31` for the buffer to hold the literal and end in a
NUL that stops `atof`; longer literals are the `bufferOverrun` result. -/
def GetNumber (p : Parser) : Except Failure (Value × Parser) :=
  let p := SkipWhitespaces p
  let index := p.m_Index
  let p := { p with m_Index := scanWhile isdigit (p.m_Text.drop p.m_Index) p.m_Index }
  let p := if charAt p.m_Text p.m_Index = '.' then { p with m_Index := p.m_Index + 1 } else p
  let p := { p with m_Index := scanWhile isdigit (p.m_Text.drop p.m_Index) p.m_Index }
  if p.m_Index - index = 0 then
    .error (.thrown ⟨.NumberExpected, p.m_Index⟩)
  else if 32 ≤ p.m_Index - index then
    .error .bufferOverrun
  else
    .ok (atof ((p.m_Text.drop index).take (p.m_Index - index)), p)

/-- The `switch` of `GetNextToken` over the single-character tokens. -/
def symbolType (c : Char) : TokenType :=
  if c = '+' then .Plus
  else if c = '-' then .Minus
  else if c = '*' then .Mul
  else if c = '/' then .Div
  else if c = '(' then .OpenParenthesis
  else if c = ')' then .ClosedParenthesis
  else .Error

/-- The function `Parser::GetNextToken`. -/
def GetNextToken (p : Parser) : Except Failure Parser :=
  let p := SkipWhitespaces p
  let p := { p with m_crtToken := { p.m_crtToken with Value := 0, Symbol := Char.ofNat 0 } }
  if charAt p.m_Text p.m_Index = Char.ofNat 0 then
    .ok { p with m_crtToken := { p.m_crtToken with Kind := .EndOfText } }
  else if isdigit (charAt p.m_Text p.m_Index) then
    let p := { p with m_crtToken := { p.m_crtToken with Kind := .Number } }
    match GetNumber p with
    | .ok (v, p) => .ok { p with m_crtToken := { p.m_crtToken with Value := v } }
    | .error e => .error e
  else
    let p := { p with m_crtToken := { p.m_crtToken with Kind := symbolType (charAt p.m_Text p.m_Index) } }
    if p.m_crtToken.Kind ≠ .Error then
      .ok { p with
        m_crtToken := { p.m_crtToken with Symbol := charAt p.m_Text p.m_Index },
        m_Index := p.m_Index + 1 }
    else
      .error (.thrown ⟨.UnexpectedToken (charAt p.m_Text p.m_Index), p.m_Index⟩)

/-- The function `Parser::Match`. -/
def Match (expected : Char) (p : Parser) : Except Failure Parser :=
  if charAt p.m_Text (p.m_Index - 1) = expected then
    GetNextToken p
  else
    .error (.thrown ⟨.ExpectedToken expected, p.m_Index⟩)

/-! ## The parser (`Parser.h`) -/

mutual

/-- The function `Parser::Expression`. -/
def Expression : Nat → Parser → Except Failure (ASTNode × Parser)
  | 0, _ => .error .outOfFuel
  | fuel + 1, p => do
    let (tnode, p) ← Term fuel p
    let (e1node, p) ← Expression1 fuel p
    pure (CreateNode .OperatorPlus tnode e1node, p)

/-- The function `Parser::Expression1`. -/
def Expression1 : Nat → Parser → Except Failure (ASTNode × Parser)
  | 0, _ => .error .outOfFuel
  | fuel + 1, p =>
    match p.m_crtToken.Kind with
    | .Plus => do
      let p ← GetNextToken p
      let (tnode, p) ← Term fuel p
      let (e1node, p) ← Expression1 fuel p
      pure (CreateNode .OperatorPlus e1node tnode, p)
    | .Minus => do
      let p ← GetNextToken p
      let (tnode, p) ← Term fuel p
      let (e1node, p) ← Expression1 fuel p
      pure (CreateNode .OperatorMinus e1node tnode, p)
    | _ => pure (CreateNodeNumber 0, p)

/-- The function `Parser::Term`. -/
def Term : Nat → Parser → Except Failure (ASTNode × Parser)
  | 0, _ => .error .outOfFuel
  | fuel + 1, p => do
    let (fnode, p) ← Factor fuel p
    let (t1node, p) ← Term1 fuel p
    pure (CreateNode .OperatorMul fnode t1node, p)

/-- The function `Parser::Term1`. -/
def Term1 : Nat → Parser → Except Failure (ASTNode × Parser)
  | 0, _ => .error .outOfFuel
  | fuel + 1, p =>
    match p.m_crtToken.Kind with
    | .Mul => do
      let p ← GetNextToken p
      let (fnode, p) ← Factor fuel p
      let (t1node, p) ← Term1 fuel p
      pure (CreateNode .OperatorMul t1node fnode, p)
    | .Div => do
      let p ← GetNextToken p
      let (fnode, p) ← Factor fuel p
      let (t1node, p) ← Term1 fuel p
      pure (CreateNode .OperatorDiv t1node fnode, p)
    | _ => pure (CreateNodeNumber 1, p)

/-- The function `Parser::Factor`. -/
def Factor : Nat → Parser → Except Failure (ASTNode × Parser)
  | 0, _ => .error .outOfFuel
  | fuel + 1, p =>
    match p.m_crtToken.Kind with
    | .OpenParenthesis => do
      let p ← GetNextToken p
      let (node, p) ← Expression fuel p
      let p ← Match ')' p
      pure (node, p)
    | .Minus => do
      let p ← GetNextToken p
      let (node, p) ← Factor fuel p
      pure (CreateUnaryNode node, p)
    | .Number => do
      let value := p.m_crtToken.Value
      let p ← GetNextToken p
      pure (CreateNodeNumber value, p)
    | _ => .error (.thrown ⟨.UnexpectedToken p.m_crtToken.Symbol, p.m_Index⟩)

end

/-- The function `Parser::Parse`, run on the parser object `p` in whatever
state an earlier call left it. The recursion budget grows with the length of
the text. -/
def Parse (p : Parser) (text : List Char) : Except Failure (ASTNode × Parser) := do
  let p := { p with m_Text := text, m_Index := 0 }
  let p ← GetNextToken p
  Expression (3 * text.length + 8) p

/-- A freshly constructed `Parser` object. The class has no constructor;
`Parse` assigns `m_Text` and `m_Index`, and `GetNextToken` the token, before
any of them is read. -/
def Parser.fresh : Parser :=
  ⟨⟨.Error, 0, Char.ofNat 0⟩, [], 0⟩

/-- The tree `Parse` returns on a fresh parser, or its failure. -/
def parse (text : List Char) : Except Failure ASTNode :=
  (Parse Parser.fresh text).map Prod.fst


/-! ## Number literals and the grammar of the spec -/

/-- A number literal: a run of digits and, optionally, a `.` followed by a run
of digits. -/
structure Literal where
  intPart : List Char
  fracPart : Option (List Char)
  deriving DecidableEq

/-- The characters of a literal. -/
def Literal.text (l : Literal) : List Char :=
  match l.fracPart with
  | none => l.intPart
  | some fs => l.intPart ++ '.' :: fs

/-- The decimal value of a literal. -/
def Literal.value (l : Literal) : Value :=
  match l.fracPart with
  | none => (digitsValue l.intPart : ℚ)
  | some fs => (digitsValue l.intPart : ℚ) + (digitsValue fs : ℚ) / (10 : ℚ) ^ fs.length

/-- A literal starts with a digit and holds digits only, apart from its `.`. -/
def Literal.wf (l : Literal) : Prop :=
  l.intPart ≠ [] ∧ l.intPart.all isdigit = true ∧
    (match l.fracPart with
     | none => True
     | some fs => fs.all isdigit = true)

/-- The literal fits the buffer of `GetNumber` together with a NUL. -/
def Literal.fits (l : Literal) : Prop :=
  l.text.length ≤ 31

instance (l : Literal) : Decidable l.wf := by
  unfold Literal.wf
  cases l.fracPart <;> exact inferInstance

instance (l : Literal) : Decidable l.fits := by
  unfold Literal.fits
  exact inferInstance

mutual

/-- A derivation of `Expression := Term Expression1`. -/
inductive Exp where
  | mk (t : Trm) (e1 : Exp1)

/-- A derivation of `Expression1 := '+' Term Expression1 | '-' Term Expression1 | ε`. -/
inductive Exp1 where
  | plus (t : Trm) (e1 : Exp1)
  | minus (t : Trm) (e1 : Exp1)
  | eps

/-- A derivation of `Term := Factor Term1`. -/
inductive Trm where
  | mk (f : Fac) (t1 : Trm1)

/-- A derivation of `Term1 := '*' Factor Term1 | '/' Factor Term1 | ε`. -/
inductive Trm1 where
  | mul (f : Fac) (t1 : Trm1)
  | div (f : Fac) (t1 : Trm1)
  | eps

/-- A derivation of `Factor := '(' Expression ')' | '-' Factor | Number`. -/
inductive Fac where
  | paren (e : Exp)
  | neg (f : Fac)
  | num (l : Literal)

end

mutual

/-- The text a derivation spells out, without whitespace. -/
def Exp.print : Exp → List Char
  | .mk t e1 => t.print ++ e1.print

/-- The text of an `Expression1` derivation. -/
def Exp1.print : Exp1 → List Char
  | .plus t e1 => '+' :: (t.print ++ e1.print)
  | .minus t e1 => '-' :: (t.print ++ e1.print)
  | .eps => []

/-- The text of a `Term` derivation. -/
def Trm.print : Trm → List Char
  | .mk f t1 => f.print ++ t1.print

/-- The text of a `Term1` derivation. -/
def Trm1.print : Trm1 → List Char
  | .mul f t1 => '*' :: (f.print ++ t1.print)
  | .div f t1 => '/' :: (f.print ++ t1.print)
  | .eps => []

/-- The text of a `Factor` derivation. -/
def Fac.print : Fac → List Char
  | .paren e => '(' :: (e.print ++ [')'])
  | .neg f => '-' :: f.print
  | .num l => l.text

end

mutual

/-- The value of an expression under the conventional semantics: the terms
are combined from the left, starting with the first. -/
def Exp.value : Exp → ℚ
  | .mk t e1 => e1.value t.value

/-- The value of `acc` followed by the additive operators of the derivation,
applied from the left. -/
def Exp1.value : Exp1 → ℚ → ℚ
  | .plus t e1, acc => e1.value (acc + t.value)
  | .minus t e1, acc => e1.value (acc - t.value)
  | .eps, acc => acc

/-- The value of a term: the factors are combined from the left. -/
def Trm.value : Trm → ℚ
  | .mk f t1 => t1.value f.value

/-- The value of `acc` followed by the multiplicative operators of the
derivation, applied from the left. -/
def Trm1.value : Trm1 → ℚ → ℚ
  | .mul f t1, acc => t1.value (acc * f.value)
  | .div f t1, acc => t1.value (acc / f.value)
  | .eps, acc => acc

/-- The value of a factor. -/
def Fac.value : Fac → ℚ
  | .paren e => e.value
  | .neg f => - f.value
  | .num l => l.value

end

mutual

/-- The tree that the semantic rules in the header of `Parser.h` assign to a
derivation of `EXP`. -/
def Exp.tree : Exp → ASTNode
  | .mk t e1 => CreateNode .OperatorPlus t.tree e1.tree

/-- The tree of an `EXP1` derivation. -/
def Exp1.tree : Exp1 → ASTNode
  | .plus t e1 => CreateNode .OperatorPlus e1.tree t.tree
  | .minus t e1 => CreateNode .OperatorMinus e1.tree t.tree
  | .eps => CreateNodeNumber 0

/-- The tree of a `TERM` derivation. -/
def Trm.tree : Trm → ASTNode
  | .mk f t1 => CreateNode .OperatorMul f.tree t1.tree

/-- The tree of a `TERM1` derivation. -/
def Trm1.tree : Trm1 → ASTNode
  | .mul f t1 => CreateNode .OperatorMul t1.tree f.tree
  | .div f t1 => CreateNode .OperatorDiv t1.tree f.tree
  | .eps => CreateNodeNumber 1

/-- The tree of a `FACTOR` derivation. -/
def Fac.tree : Fac → ASTNode
  | .paren e => e.tree
  | .neg f => CreateUnaryNode f.tree
  | .num l => CreateNodeNumber l.value

end

mutual

/-- Every literal of the derivation is well formed and fits the buffer. -/
def Exp.litsOk : Exp → Prop
  | .mk t e1 => t.litsOk ∧ e1.litsOk

/-- Every literal of the derivation is well formed and fits the buffer. -/
def Exp1.litsOk : Exp1 → Prop
  | .plus t e1 => t.litsOk ∧ e1.litsOk
  | .minus t e1 => t.litsOk ∧ e1.litsOk
  | .eps => True

/-- Every literal of the derivation is well formed and fits the buffer. -/
def Trm.litsOk : Trm → Prop
  | .mk f t1 => f.litsOk ∧ t1.litsOk

/-- Every literal of the derivation is well formed and fits the buffer. -/
def Trm1.litsOk : Trm1 → Prop
  | .mul f t1 => f.litsOk ∧ t1.litsOk
  | .div f t1 => f.litsOk ∧ t1.litsOk
  | .eps => True

/-- Every literal of the derivation is well formed and fits the buffer. -/
def Fac.litsOk : Fac → Prop
  | .paren e => e.litsOk
  | .neg f => f.litsOk
  | .num l => l.wf ∧ l.fits

end

mutual

/-- The depth of the calls that parse the derivation. -/
def Exp.depth : Exp → Nat
  | .mk t e1 => 1 + max t.depth e1.depth

/-- The depth of the calls that parse the derivation. -/
def Exp1.depth : Exp1 → Nat
  | .plus t e1 => 1 + max t.depth e1.depth
  | .minus t e1 => 1 + max t.depth e1.depth
  | .eps => 1

/-- The depth of the calls that parse the derivation. -/
def Trm.depth : Trm → Nat
  | .mk f t1 => 1 + max f.depth t1.depth

/-- The depth of the calls that parse the derivation. -/
def Trm1.depth : Trm1 → Nat
  | .mul f t1 => 1 + max f.depth t1.depth
  | .div f t1 => 1 + max f.depth t1.depth
  | .eps => 1

/-- The depth of the calls that parse the derivation. -/
def Fac.depth : Fac → Nat
  | .paren e => 1 + e.depth
  | .neg f => 1 + f.depth
  | .num _ => 1

end

mutual

/-- A decision procedure for `Exp.litsOk`. -/
def Exp.decLitsOk : (e : Exp) → Decidable e.litsOk
  | .mk t e1 =>
    match Trm.decLitsOk t, Exp1.decLitsOk e1 with
    | .isTrue h1, .isTrue h2 => .isTrue (by simp only [Exp.litsOk]; exact ⟨h1, h2⟩)
    | .isFalse h1, _ => .isFalse (by simp only [Exp.litsOk]; exact fun h => h1 h.1)
    | _, .isFalse h2 => .isFalse (by simp only [Exp.litsOk]; exact fun h => h2 h.2)

/-- A decision procedure for `Exp1.litsOk`. -/
def Exp1.decLitsOk : (e1 : Exp1) → Decidable e1.litsOk
  | .plus t e1 =>
    match Trm.decLitsOk t, Exp1.decLitsOk e1 with
    | .isTrue h1, .isTrue h2 => .isTrue (by simp only [Exp1.litsOk]; exact ⟨h1, h2⟩)
    | .isFalse h1, _ => .isFalse (by simp only [Exp1.litsOk]; exact fun h => h1 h.1)
    | _, .isFalse h2 => .isFalse (by simp only [Exp1.litsOk]; exact fun h => h2 h.2)
  | .minus t e1 =>
    match Trm.decLitsOk t, Exp1.decLitsOk e1 with
    | .isTrue h1, .isTrue h2 => .isTrue (by simp only [Exp1.litsOk]; exact ⟨h1, h2⟩)
    | .isFalse h1, _ => .isFalse (by simp only [Exp1.litsOk]; exact fun h => h1 h.1)
    | _, .isFalse h2 => .isFalse (by simp only [Exp1.litsOk]; exact fun h => h2 h.2)
  | .eps => .isTrue (by simp only [Exp1.litsOk])

/-- A decision procedure for `Trm.litsOk`. -/
def Trm.decLitsOk : (t : Trm) → Decidable t.litsOk
  | .mk f t1 =>
    match Fac.decLitsOk f, Trm1.decLitsOk t1 with
    | .isTrue h1, .isTrue h2 => .isTrue (by simp only [Trm.litsOk]; exact ⟨h1, h2⟩)
    | .isFalse h1, _ => .isFalse (by simp only [Trm.litsOk]; exact fun h => h1 h.1)
    | _, .isFalse h2 => .isFalse (by simp only [Trm.litsOk]; exact fun h => h2 h.2)

/-- A decision procedure for `Trm1.litsOk`. -/
def Trm1.decLitsOk : (t1 : Trm1) → Decidable t1.litsOk
  | .mul f t1 =>
    match Fac.decLitsOk f, Trm1.decLitsOk t1 with
    | .isTrue h1, .isTrue h2 => .isTrue (by simp only [Trm1.litsOk]; exact ⟨h1, h2⟩)
    | .isFalse h1, _ => .isFalse (by simp only [Trm1.litsOk]; exact fun h => h1 h.1)
    | _, .isFalse h2 => .isFalse (by simp only [Trm1.litsOk]; exact fun h => h2 h.2)
  | .div f t1 =>
    match Fac.decLitsOk f, Trm1.decLitsOk t1 with
    | .isTrue h1, .isTrue h2 => .isTrue (by simp only [Trm1.litsOk]; exact ⟨h1, h2⟩)
    | .isFalse h1, _ => .isFalse (by simp only [Trm1.litsOk]; exact fun h => h1 h.1)
    | _, .isFalse h2 => .isFalse (by simp only [Trm1.litsOk]; exact fun h => h2 h.2)
  | .eps => .isTrue (by simp only [Trm1.litsOk])

/-- A decision procedure for `Fac.litsOk`. -/
def Fac.decLitsOk : (f : Fac) → Decidable f.litsOk
  | .paren e =>
    match Exp.decLitsOk e with
    | .isTrue h => .isTrue (by simp only [Fac.litsOk]; exact h)
    | .isFalse h => .isFalse (by simp only [Fac.litsOk]; exact h)
  | .neg f =>
    match Fac.decLitsOk f with
    | .isTrue h => .isTrue (by simp only [Fac.litsOk]; exact h)
    | .isFalse h => .isFalse (by simp only [Fac.litsOk]; exact h)
  | .num l =>
    if h : l.wf ∧ l.fits then .isTrue (by simp only [Fac.litsOk]; exact h)
    else .isFalse (by simp only [Fac.litsOk]; exact h)

end

instance (e : Exp) : Decidable e.litsOk := e.decLitsOk

/-- The token `GetNextToken` produces when the cursor is at index `i` of
`text`; the token held before plays no part (theorem `GetNextToken_eq_lex`). -/
def lex (text : List Char) (i : Nat) : Except Failure Parser :=
  GetNextToken ⟨⟨.Error, 0, Char.ofNat 0⟩, text, i⟩

/-- Procedure `X`, called once the token at index `i` has been read, returns
`tree` once the token at index `i + len` has been read; when reading one of
the two tokens fails, so does the run, with the same failure. -/
def Runs (X : Parser → Except Failure (ASTNode × Parser)) (T : List Char) (i len : Nat)
    (tree : ASTNode) : Prop :=
  (lex T i >>= X) = (fun p' => (tree, p')) <$> lex T (i + len)

/-- The next character is not one that `GetNumber` would add to a literal. -/
def Boundary (rest : List Char) : Prop :=
  ∀ c r, rest = c :: r → isdigit c = false ∧ c ≠ '.'

/-- The token at index `j` does not continue a `Term`. -/
def StopT (T : List Char) (j : Nat) : Prop :=
  ∀ p', lex T j = .ok p' → p'.m_crtToken.Kind ≠ .Mul ∧ p'.m_crtToken.Kind ≠ .Div

/-- The token at index `j` does not continue an `Expression`. -/
def StopE (T : List Char) (j : Nat) : Prop :=
  ∀ p', lex T j = .ok p' →
    (p'.m_crtToken.Kind ≠ .Plus ∧ p'.m_crtToken.Kind ≠ .Minus) ∧
    (p'.m_crtToken.Kind ≠ .Mul ∧ p'.m_crtToken.Kind ≠ .Div)


/-! ## Particular literals, texts and derivations -/

/-- The derivation of a `Term` that is a single number literal. -/
def litTerm (l : Literal) : Trm :=
  .mk (.num l) .eps

/-- The text `-n1-n2-...-nk` (empty for the empty list). -/
def minusText : List Literal → List Char
  | [] => []
  | l :: ls => '-' :: (l.text ++ minusText ls)

/-- The derivation of `-n1-n2-...-nk` as an `Expression1`. -/
def minusChain : List Literal → Exp1
  | [] => .eps
  | l :: ls => .minus (litTerm l) (minusChain ls)

/-- A literal of 37 characters: π to 35 decimal places. -/
def longLiteral : Literal :=
  ⟨['3'], some "14159265358979323846264338327950288".toList⟩

/-- The literal `1`. -/
def lit1 : Literal := ⟨['1'], none⟩

/-- The literal `2`. -/
def lit2 : Literal := ⟨['2'], none⟩

/-- The literal `3`. -/
def lit3 : Literal := ⟨['3'], none⟩

/-! ## Arithmetic expressions and their text -/

/-- An arithmetic expression built from number literals, unary minus,
parentheses and the four binary operators. -/
inductive Arith where
  | num (l : Literal)
  | neg (a : Arith)
  | paren (a : Arith)
  | add (a b : Arith)
  | sub (a b : Arith)
  | mul (a b : Arith)
  | div (a b : Arith)

/-- The value of an arithmetic expression, in exact arithmetic. -/
def Arith.value : Arith → ℚ
  | .num l => l.value
  | .neg a => - a.value
  | .paren a => a.value
  | .add a b => a.value + b.value
  | .sub a b => a.value - b.value
  | .mul a b => a.value * b.value
  | .div a b => a.value / b.value

/-- Every literal of the expression is well formed and fits the buffer. -/
def Arith.litsOk : Arith → Prop
  | .num l => l.wf ∧ l.fits
  | .neg a => a.litsOk
  | .paren a => a.litsOk
  | .add a b => a.litsOk ∧ b.litsOk
  | .sub a b => a.litsOk ∧ b.litsOk
  | .mul a b => a.litsOk ∧ b.litsOk
  | .div a b => a.litsOk ∧ b.litsOk

/-- A decision procedure for `Arith.litsOk`. -/
def Arith.decLitsOk : (a : Arith) → Decidable a.litsOk
  | .num l =>
    if h : l.wf ∧ l.fits then .isTrue (by simp only [Arith.litsOk]; exact h)
    else .isFalse (by simp only [Arith.litsOk]; exact h)
  | .neg a =>
    match Arith.decLitsOk a with
    | .isTrue h => .isTrue (by simp only [Arith.litsOk]; exact h)
    | .isFalse h => .isFalse (by simp only [Arith.litsOk]; exact h)
  | .paren a =>
    match Arith.decLitsOk a with
    | .isTrue h => .isTrue (by simp only [Arith.litsOk]; exact h)
    | .isFalse h => .isFalse (by simp only [Arith.litsOk]; exact h)
  | .add a b =>
    match Arith.decLitsOk a, Arith.decLitsOk b with
    | .isTrue h1, .isTrue h2 => .isTrue (by simp only [Arith.litsOk]; exact ⟨h1, h2⟩)
    | .isFalse h1, _ => .isFalse (by simp only [Arith.litsOk]; exact fun h => h1 h.1)
    | _, .isFalse h2 => .isFalse (by simp only [Arith.litsOk]; exact fun h => h2 h.2)
  | .sub a b =>
    match Arith.decLitsOk a, Arith.decLitsOk b with
    | .isTrue h1, .isTrue h2 => .isTrue (by simp only [Arith.litsOk]; exact ⟨h1, h2⟩)
    | .isFalse h1, _ => .isFalse (by simp only [Arith.litsOk]; exact fun h => h1 h.1)
    | _, .isFalse h2 => .isFalse (by simp only [Arith.litsOk]; exact fun h => h2 h.2)
  | .mul a b =>
    match Arith.decLitsOk a, Arith.decLitsOk b with
    | .isTrue h1, .isTrue h2 => .isTrue (by simp only [Arith.litsOk]; exact ⟨h1, h2⟩)
    | .isFalse h1, _ => .isFalse (by simp only [Arith.litsOk]; exact fun h => h1 h.1)
    | _, .isFalse h2 => .isFalse (by simp only [Arith.litsOk]; exact fun h => h2 h.2)
  | .div a b =>
    match Arith.decLitsOk a, Arith.decLitsOk b with
    | .isTrue h1, .isTrue h2 => .isTrue (by simp only [Arith.litsOk]; exact ⟨h1, h2⟩)
    | .isFalse h1, _ => .isFalse (by simp only [Arith.litsOk]; exact fun h => h1 h.1)
    | _, .isFalse h2 => .isFalse (by simp only [Arith.litsOk]; exact fun h => h2 h.2)

instance (a : Arith) : Decidable a.litsOk := a.decLitsOk

/-- The chain of additive operators `e` followed by the chain `r`. -/
def Exp1.append : Exp1 → Exp1 → Exp1
  | .plus t e, r => .plus t (e.append r)
  | .minus t e, r => .minus t (e.append r)
  | .eps, r => r

/-- The chain of multiplicative operators `t1` followed by the chain `r`. -/
def Trm1.append : Trm1 → Trm1 → Trm1
  | .mul f t1, r => .mul f (t1.append r)
  | .div f t1, r => .div f (t1.append r)
  | .eps, r => r

/-- An expression as an operand of `*` or `/`: itself when it is a single
term, and put in parentheses otherwise. -/
def Exp.asTrm : Exp → Trm
  | .mk t .eps => t
  | .mk t (.plus t2 e1) => .mk (.paren (.mk t (.plus t2 e1))) .eps
  | .mk t (.minus t2 e1) => .mk (.paren (.mk t (.minus t2 e1))) .eps

/-- A term as an operand of unary minus: itself when it is a single factor,
and put in parentheses otherwise. -/
def Trm.asFac : Trm → Fac
  | .mk f .eps => f
  | .mk f (.mul f2 t1) => .paren (.mk (.mk f (.mul f2 t1)) .eps)
  | .mk f (.div f2 t1) => .paren (.mk (.mk f (.div f2 t1)) .eps)

/-- The derivation that writes an arithmetic expression in the grammar:
operands are put in parentheses where precedence and left associativity
require it, and nowhere else. -/
def Arith.toExp : Arith → Exp
  | .num l => .mk (.mk (.num l) .eps) .eps
  | .neg a => .mk (.mk (.neg a.toExp.asTrm.asFac) .eps) .eps
  | .paren a => .mk (.mk (.paren a.toExp) .eps) .eps
  | .add a b =>
    match a.toExp with
    | .mk t e1 => .mk t (e1.append (.plus b.toExp.asTrm .eps))
  | .sub a b =>
    match a.toExp with
    | .mk t e1 => .mk t (e1.append (.minus b.toExp.asTrm .eps))
  | .mul a b =>
    match a.toExp.asTrm with
    | .mk f t1 => .mk (.mk f (t1.append (.mul b.toExp.asTrm.asFac .eps))) .eps
  | .div a b =>
    match a.toExp.asTrm with
    | .mk f t1 => .mk (.mk f (t1.append (.div b.toExp.asTrm.asFac .eps))) .eps

/-- The text of an arithmetic expression. -/
def Arith.render (a : Arith) : List Char :=
  a.toExp.print

/-! ## The calls made during a parse -/

/-- The five grammar procedures of `Parser`. -/
inductive Proc where
  | expression
  | expression1
  | term
  | term1
  | factor
  deriving DecidableEq

/-- A call of a grammar procedure: the procedure, the recursion budget it is
given, and the parser state at the call. -/
structure Call where
  proc : Proc
  fuel : Nat
  state : Parser

/-- What a call returns. -/
def Call.result (c : Call) : Except Failure (ASTNode × Parser) :=
  match c.proc with
  | .expression => Expression c.fuel c.state
  | .expression1 => Expression1 c.fuel c.state
  | .term => Term c.fuel c.state
  | .term1 => Term1 c.fuel c.state
  | .factor => Factor c.fuel c.state

/-- The relation `Invokes c d`: the body of call `c` calls `d`. There is one
rule for each call of a grammar procedure in the bodies of `Expression`,
`Expression1`, `Term`, `Term1` and `Factor`; a later call in a body is made
only when the calls before it have returned. -/
inductive Invokes : Call → Call → Prop where
  | expression_term (k : Nat) (p : Parser) :
    Invokes ⟨.expression, k + 1, p⟩ ⟨.term, k, p⟩
  | expression_expression1 (k : Nat) (p p1 : Parser) (tnode : ASTNode)
    (h : Term k p = .ok (tnode, p1)) :
    Invokes ⟨.expression, k + 1, p⟩ ⟨.expression1, k, p1⟩
  | expression1_term (k : Nat) (p p1 : Parser)
    (hk : p.m_crtToken.Kind = .Plus ∨ p.m_crtToken.Kind = .Minus)
    (h : GetNextToken p = .ok p1) :
    Invokes ⟨.expression1, k + 1, p⟩ ⟨.term, k, p1⟩
  | expression1_expression1 (k : Nat) (p p1 p2 : Parser) (tnode : ASTNode)
    (hk : p.m_crtToken.Kind = .Plus ∨ p.m_crtToken.Kind = .Minus)
    (h : GetNextToken p = .ok p1) (h1 : Term k p1 = .ok (tnode, p2)) :
    Invokes ⟨.expression1, k + 1, p⟩ ⟨.expression1, k, p2⟩
  | term_factor (k : Nat) (p : Parser) :
    Invokes ⟨.term, k + 1, p⟩ ⟨.factor, k, p⟩
  | term_term1 (k : Nat) (p p1 : Parser) (fnode : ASTNode)
    (h : Factor k p = .ok (fnode, p1)) :
    Invokes ⟨.term, k + 1, p⟩ ⟨.term1, k, p1⟩
  | term1_factor (k : Nat) (p p1 : Parser)
    (hk : p.m_crtToken.Kind = .Mul ∨ p.m_crtToken.Kind = .Div)
    (h : GetNextToken p = .ok p1) :
    Invokes ⟨.term1, k + 1, p⟩ ⟨.factor, k, p1⟩
  | term1_term1 (k : Nat) (p p1 p2 : Parser) (fnode : ASTNode)
    (hk : p.m_crtToken.Kind = .Mul ∨ p.m_crtToken.Kind = .Div)
    (h : GetNextToken p = .ok p1) (h1 : Factor k p1 = .ok (fnode, p2)) :
    Invokes ⟨.term1, k + 1, p⟩ ⟨.term1, k, p2⟩
  | factor_expression (k : Nat) (p p1 : Parser)
    (hk : p.m_crtToken.Kind = .OpenParenthesis) (h : GetNextToken p = .ok p1) :
    Invokes ⟨.factor, k + 1, p⟩ ⟨.expression, k, p1⟩
  | factor_factor (k : Nat) (p p1 : Parser)
    (hk : p.m_crtToken.Kind = .Minus) (h : GetNextToken p = .ok p1) :
    Invokes ⟨.factor, k + 1, p⟩ ⟨.factor, k, p1⟩

/-- The relation `Reads c q`: the body of call `c` calls `GetNextToken` in
state `q`, directly or, for the `)` of a parenthesised factor, through
`Match`. -/
inductive Reads : Call → Parser → Prop where
  | expression1 (k : Nat) (p : Parser)
    (hk : p.m_crtToken.Kind = .Plus ∨ p.m_crtToken.Kind = .Minus) :
    Reads ⟨.expression1, k + 1, p⟩ p
  | term1 (k : Nat) (p : Parser)
    (hk : p.m_crtToken.Kind = .Mul ∨ p.m_crtToken.Kind = .Div) :
    Reads ⟨.term1, k + 1, p⟩ p
  | factor (k : Nat) (p : Parser)
    (hk : p.m_crtToken.Kind = .OpenParenthesis ∨ p.m_crtToken.Kind = .Minus ∨
      p.m_crtToken.Kind = .Number) :
    Reads ⟨.factor, k + 1, p⟩ p
  | factor_match (k : Nat) (p p1 p2 : Parser) (node : ASTNode)
    (hk : p.m_crtToken.Kind = .OpenParenthesis) (h : GetNextToken p = .ok p1)
    (h1 : Expression k p1 = .ok (node, p2)) (hc : charAt p2.m_Text (p2.m_Index - 1) = ')') :
    Reads ⟨.factor, k + 1, p⟩ p2

/-- The call of `Expression` that `Parse` makes on `text` once the first
token has been read into state `q0`. -/
def entry (text : List Char) (q0 : Parser) : Call :=
  ⟨.expression, 3 * text.length + 8, q0⟩

/-- The relation `Reaches text q0 c`: call `c` is made, directly or through
other calls, by the call of `Expression` in `Parse`. -/
def Reaches (text : List Char) (q0 : Parser) (c : Call) : Prop :=
  Relation.ReflTransGen Invokes (entry text q0) c


/-! ## Letters, and literals that cannot be made longer -/

/-- The C library's `isalpha` in the "C" locale: `A` to `Z` and `a` to `z`. -/
def isalpha (c : Char) : Bool :=
  (65 ≤ c.toNat && c.toNat ≤ 90) || (97 ≤ c.toNat && c.toNat ≤ 122)

/-- The literal `l`, standing in front of `rest`, cannot be made longer: the
next character is not a digit, and it is not a `.` unless `l` has one. -/
def Literal.maximal (l : Literal) (rest : List Char) : Prop :=
  ∀ c r, rest = c :: r → isdigit c = false ∧ (l.fracPart = none → c ≠ '.')

/-! ## The longest literal at the head of a text -/

/-- The longest literal at the head of the text `s`, in the words of the spec:
the leading run of digits and, when a `.` follows it, that `.` and the run of
digits behind it. Theorem `Literal_scan_longest` shows that no literal at the
head of `s` is longer. -/
def Literal.scan (s : List Char) : Literal :=
  match s.dropWhile isdigit with
  | c :: r =>
    if c = '.' then ⟨s.takeWhile isdigit, some (r.takeWhile isdigit)⟩
    else ⟨s.takeWhile isdigit, none⟩
  | [] => ⟨s.takeWhile isdigit, none⟩

/-! ## The measure of a parser state -/

/-- What is left to read in state `p`: the characters from the cursor on, and
one more when the current token is not the end of input. -/
def Parser.measure (p : Parser) : Nat :=
  (p.m_Text.length - p.m_Index) + (if p.m_crtToken.Kind = .EndOfText then 0 else 1)

/-- The cursor lies inside the text or on its terminator. -/
def Parser.inText (p : Parser) : Prop :=
  p.m_Index ≤ p.m_Text.length

/-- The place of a procedure in the chain of calls that consume no token:
`Expression` calls `Term`, which calls `Factor`. -/
def Proc.level : Proc → Nat
  | .expression => 3
  | .term => 2
  | .expression1 => 1
  | .term1 => 1
  | .factor => 1

/-- The rank of a call: three times what is left to read, plus the level of
the procedure. It bounds the number of nested calls the call can make. -/
def Call.rank (c : Call) : Nat :=
  3 * c.state.measure + c.proc.level

mutual

/-- The number of calls of grammar procedures made by the call
`Expression fuel p`, itself included: a counter that every procedure
increments on entry. -/
def callsExpression : Nat → Parser → Nat
  | 0, _ => 1
  | fuel + 1, p =>
    1 + callsTerm fuel p +
      (match Term fuel p with
       | .ok (_, p) => callsExpression1 fuel p
       | .error _ => 0)

/-- The number of calls made by the call `Expression1 fuel p`, itself
included. -/
def callsExpression1 : Nat → Parser → Nat
  | 0, _ => 1
  | fuel + 1, p =>
    match p.m_crtToken.Kind with
    | .Plus | .Minus =>
      match GetNextToken p with
      | .ok p =>
        1 + callsTerm fuel p +
          (match Term fuel p with
           | .ok (_, p) => callsExpression1 fuel p
           | .error _ => 0)
      | .error _ => 1
    | _ => 1

/-- The number of calls made by the call `Term fuel p`, itself included. -/
def callsTerm : Nat → Parser → Nat
  | 0, _ => 1
  | fuel + 1, p =>
    1 + callsFactor fuel p +
      (match Factor fuel p with
       | .ok (_, p) => callsTerm1 fuel p
       | .error _ => 0)

/-- The number of calls made by the call `Term1 fuel p`, itself included. -/
def callsTerm1 : Nat → Parser → Nat
  | 0, _ => 1
  | fuel + 1, p =>
    match p.m_crtToken.Kind with
    | .Mul | .Div =>
      match GetNextToken p with
      | .ok p =>
        1 + callsFactor fuel p +
          (match Factor fuel p with
           | .ok (_, p) => callsTerm1 fuel p
           | .error _ => 0)
      | .error _ => 1
    | _ => 1

/-- The number of calls made by the call `Factor fuel p`, itself included. -/
def callsFactor : Nat → Parser → Nat
  | 0, _ => 1
  | fuel + 1, p =>
    match p.m_crtToken.Kind with
    | .OpenParenthesis =>
      match GetNextToken p with
      | .ok p => 1 + callsExpression fuel p
      | .error _ => 1
    | .Minus =>
      match GetNextToken p with
      | .ok p => 1 + callsFactor fuel p
      | .error _ => 1
    | _ => 1

end

/-- The number of calls of grammar procedures made by a call, itself
included. -/
def Call.calls (c : Call) : Nat :=
  match c.proc with
  | .expression => callsExpression c.fuel c.state
  | .expression1 => callsExpression1 c.fuel c.state
  | .term => callsTerm c.fuel c.state
  | .term1 => callsTerm1 c.fuel c.state
  | .factor => callsFactor c.fuel c.state

/-! ## Derivations spelt with whitespace -/

mutual

/-- The number of tokens of a derivation. -/
def Exp.size : Exp → Nat
  | .mk t e1 => t.size + e1.size

/-- The number of tokens of an `Expression1` derivation. -/
def Exp1.size : Exp1 → Nat
  | .plus t e1 => 1 + t.size + e1.size
  | .minus t e1 => 1 + t.size + e1.size
  | .eps => 0

/-- The number of tokens of a `Term` derivation. -/
def Trm.size : Trm → Nat
  | .mk f t1 => f.size + t1.size

/-- The number of tokens of a `Term1` derivation. -/
def Trm1.size : Trm1 → Nat
  | .mul f t1 => 1 + f.size + t1.size
  | .div f t1 => 1 + f.size + t1.size
  | .eps => 0

/-- The number of tokens of a `Factor` derivation. -/
def Fac.size : Fac → Nat
  | .paren e => 1 + e.size + 1
  | .neg f => 1 + f.size
  | .num _ => 1

end

mutual

/-- The text a derivation spells out when the characters `g m` are put in
front of its token number `m`; the first token of the derivation has number
`n`. -/
def Exp.spell (g : Nat → List Char) : Exp → Nat → List Char
  | .mk t e1, n => t.spell g n ++ e1.spell g (n + t.size)

/-- The spelling of an `Expression1` derivation. -/
def Exp1.spell (g : Nat → List Char) : Exp1 → Nat → List Char
  | .plus t e1, n => g n ++ '+' :: (t.spell g (n + 1) ++ e1.spell g (n + 1 + t.size))
  | .minus t e1, n => g n ++ '-' :: (t.spell g (n + 1) ++ e1.spell g (n + 1 + t.size))
  | .eps, _ => []

/-- The spelling of a `Term` derivation. -/
def Trm.spell (g : Nat → List Char) : Trm → Nat → List Char
  | .mk f t1, n => f.spell g n ++ t1.spell g (n + f.size)

/-- The spelling of a `Term1` derivation. -/
def Trm1.spell (g : Nat → List Char) : Trm1 → Nat → List Char
  | .mul f t1, n => g n ++ '*' :: (f.spell g (n + 1) ++ t1.spell g (n + 1 + f.size))
  | .div f t1, n => g n ++ '/' :: (f.spell g (n + 1) ++ t1.spell g (n + 1 + f.size))
  | .eps, _ => []

/-- The spelling of a `Factor` derivation. -/
def Fac.spell (g : Nat → List Char) : Fac → Nat → List Char
  | .paren e, n => g n ++ '(' :: (e.spell g (n + 1) ++ (g (n + 1 + e.size) ++ [')']))
  | .neg f, n => g n ++ '-' :: f.spell g (n + 1)
  | .num l, n => g n ++ l.text

end

/-- One blank in front of every token but the first. -/
def oneBlank (m : Nat) : List Char :=
  if m = 0 then [] else [' ']

/-! ## What `GetNumber` copies, and states within a text -/

/-- The number of characters `GetNumber` hands to `memcpy`: `m_Index - index`
once the scan of `GetNumber` has run from state `p`. -/
def copyLength (p : Parser) : Nat :=
  let p := SkipWhitespaces p
  let index := p.m_Index
  let p := { p with m_Index := scanWhile isdigit (p.m_Text.drop p.m_Index) p.m_Index }
  let p := if charAt p.m_Text p.m_Index = '.' then { p with m_Index := p.m_Index + 1 } else p
  let p := { p with m_Index := scanWhile isdigit (p.m_Text.drop p.m_Index) p.m_Index }
  p.m_Index - index

/-- The state `p` belongs to a parse of the text `T`: it holds `T`, its cursor
lies inside `T` or on its terminator, and a current token that is not the end
of input has moved the cursor past at least one character. -/
def Parser.within (T : List Char) (p : Parser) : Prop :=
  p.m_Text = T ∧ p.m_Index ≤ T.length ∧ (p.m_crtToken.Kind ≠ .EndOfText → 1 ≤ p.m_Index)

/-- Where a failure of a grammar procedure on the text `T` comes from: the
recursion budget, a call of `GetNextToken`, the `default` case of `Factor`, or
the `else` of `Match`, each in a state `q` that holds `T` and has its cursor
inside `T` or on its terminator. -/
def Failure.origin (T : List Char) (f : Failure) : Prop :=
  f = .outOfFuel ∨ ∃ q : Parser, q.m_Text = T ∧ q.m_Index ≤ T.length ∧
    (GetNextToken q = .error f
      ∨ f = .thrown ⟨.UnexpectedToken q.m_crtToken.Symbol, q.m_Index⟩
      ∨ (1 ≤ q.m_Index ∧ f = .thrown ⟨.ExpectedToken ')', q.m_Index⟩))

/-! ## The lexer on known text -/

theorem GetNextToken_eq_lex (p : Parser) : GetNextToken p = lex p.m_Text p.m_Index := by
  rfl

theorem charAt_eq_headD (T : List Char) (i : Nat) :
    charAt T i = (T.drop i).headD (Char.ofNat 0) := by
  unfold charAt
  induction T generalizing i with
  | nil => simp
  | cons a T ih =>
    cases i with
    | zero => simp
    | succ i => simp [ih i]

theorem charAt_of_drop_nil {T : List Char} {i : Nat} (h : T.drop i = []) :
    charAt T i = Char.ofNat 0 := by
  rw [charAt_eq_headD, h]; rfl

theorem charAt_of_drop_cons {T : List Char} {i : Nat} {c : Char} {r : List Char}
    (h : T.drop i = c :: r) : charAt T i = c := by
  rw [charAt_eq_headD, h]; rfl

theorem drop_shift {T : List Char} {i : Nat} {a b : List Char} (h : T.drop i = a ++ b) :
    T.drop (i + a.length) = b := by
  have : T.drop (i + a.length) = (T.drop i).drop a.length := by
    rw [List.drop_drop, Nat.add_comm]
  rw [this, h]
  simp

theorem scanWhile_append (pred : Char → Bool) (ds rest : List Char) (i : Nat)
    (hds : ds.all pred = true) (hrest : ∀ c r, rest = c :: r → pred c = false) :
    scanWhile pred (ds ++ rest) i = i + ds.length := by
  induction ds generalizing i with
  | nil =>
    cases rest with
    | nil => simp [scanWhile]
    | cons c r => simp [scanWhile, hrest c r rfl]
  | cons d ds ih =>
    simp only [List.all_cons, Bool.and_eq_true] at hds
    simp [scanWhile, hds.1, ih (i + 1) hds.2]
    omega

theorem lex_nil {T : List Char} {i : Nat} (h : T.drop i = []) :
    lex T i = .ok ⟨⟨.EndOfText, 0, Char.ofNat 0⟩, T, i⟩ := by
  simp [lex, GetNextToken, SkipWhitespaces, charAt_of_drop_nil h, h, scanWhile]

theorem lex_symbol {T : List Char} {i : Nat} {c : Char} {r : List Char}
    (h : T.drop i = c :: r) (hc : c ∈ ['+', '-', '*', '/', '(', ')']) :
    lex T i = .ok ⟨⟨symbolType c, 0, c⟩, T, i + 1⟩ := by
  have hch := charAt_of_drop_cons h
  simp only [List.mem_cons, List.mem_singleton, List.not_mem_nil, or_false] at hc
  rcases hc with rfl | rfl | rfl | rfl | rfl | rfl <;>
    simp [lex, GetNextToken, SkipWhitespaces, hch, h, scanWhile, isspace, isdigit, symbolType]

theorem isdigit_not_isspace {c : Char} (h : isdigit c = true) : isspace c = false := by
  simp only [isdigit, isspace, Bool.and_eq_true, decide_eq_true_eq, Bool.or_eq_false_iff,
    decide_eq_false_iff_not, Bool.and_eq_false_iff] at *
  omega

theorem isdigit_ne_nul {c : Char} (h : isdigit c = true) : c ≠ Char.ofNat 0 := by
  rintro rfl
  simp [isdigit] at h

theorem isdigit_ne_dot {c : Char} (h : isdigit c = true) : c ≠ '.' := by
  rintro rfl
  simp [isdigit] at h

theorem atof_text (l : Literal) (h : l.wf) : atof l.text = l.value := by
  obtain ⟨_, hip, hfp⟩ := h
  have hip' : ∀ a ∈ l.intPart, isdigit a = true := by simpa using hip
  unfold atof Literal.text Literal.value
  cases hf : l.fracPart with
  | none =>
    have h1 : l.intPart.takeWhile isdigit = l.intPart := List.takeWhile_eq_self_iff.2 hip'
    have h2 : l.intPart.dropWhile isdigit = [] := List.dropWhile_eq_nil_iff.2 hip'
    simp [h1, h2]
  | some fs =>
    rw [hf] at hfp
    have hfp' : ∀ a ∈ fs, isdigit a = true := by simpa using hfp
    have h3 : fs.takeWhile isdigit = fs := List.takeWhile_eq_self_iff.2 hfp'
    have hd : isdigit '.' = false := by decide
    simp [List.takeWhile_append_of_pos hip', List.dropWhile_append_of_pos hip', hd, h3]

theorem scanWhile_stop (pred : Char → Bool) (rest : List Char) (i : Nat)
    (hrest : ∀ c r, rest = c :: r → pred c = false) : scanWhile pred rest i = i := by
  simpa using scanWhile_append pred [] rest i (by simp) hrest

theorem Literal_text_length_pos (l : Literal) (h : l.wf) : 0 < l.text.length := by
  obtain ⟨hne, _, _⟩ := h
  have : 0 < l.intPart.length := List.length_pos.2 hne
  unfold Literal.text
  cases l.fracPart <;> simp <;> omega

theorem GetNumber_literal {T : List Char} {i : Nat} {l : Literal} {rest : List Char}
    (tok : Token) (h : T.drop i = l.text ++ rest) (hwf : l.wf) (hfit : l.fits)
    (hrest : ∀ c r, rest = c :: r → isdigit c = false ∧ c ≠ '.') :
    GetNumber ⟨tok, T, i⟩ = .ok (l.value, ⟨tok, T, i + l.text.length⟩) := by
  have hpos := Literal_text_length_pos l hwf
  have hval := atof_text l hwf
  have htake : (T.drop i).take l.text.length = l.text := by rw [h]; exact List.take_left _ _
  obtain ⟨hne, hip, hfp⟩ := hwf
  have hip' : ∀ a ∈ l.intPart, isdigit a = true := by simpa using hip
  unfold Literal.fits at hfit
  have hws : scanWhile isspace (T.drop i) i = i := by
    apply scanWhile_stop
    intro c r hcr
    apply isdigit_not_isspace
    apply hip'
    rw [h] at hcr
    unfold Literal.text at hcr
    cases hl : l.intPart with
    | nil => exact absurd hl hne
    | cons d ds =>
      rw [hl] at hcr
      cases hf : l.fracPart <;> rw [hf] at hcr <;> simp at hcr <;> simp [← hcr.1]
  have hrd : ∀ c r, rest = c :: r → isdigit c = false := fun c r hcr => (hrest c r hcr).1
  cases hf : l.fracPart with
  | none =>
    have htext : l.text = l.intPart := by simp [Literal.text, hf]
    rw [htext] at h hpos hfit htake hval
    have hdig : scanWhile isdigit (T.drop i) i = i + l.intPart.length := by
      rw [h]; exact scanWhile_append _ _ _ _ hip hrd
    have hdrop : T.drop (i + l.intPart.length) = rest := drop_shift h
    have hdot : ¬ charAt T (i + l.intPart.length) = '.' := by
      cases hr : rest with
      | nil => rw [charAt_of_drop_nil (hdrop.trans hr)]; decide
      | cons c r => rw [charAt_of_drop_cons (hdrop.trans hr)]; exact (hrest c r hr).2
    have hdig2 : scanWhile isdigit (T.drop (i + l.intPart.length)) (i + l.intPart.length)
        = i + l.intPart.length := by
      rw [hdrop]; exact scanWhile_stop _ _ _ hrd
    have hlen : i + l.intPart.length - i = l.intPart.length := by omega
    have hnz : ¬ l.intPart.length = 0 := by omega
    have hlt : ¬ 32 ≤ l.intPart.length := by omega
    simp [GetNumber, SkipWhitespaces, hws, hdig, hdot, hdig2, hlen, hnz, hlt,
      htake, hval, htext]
  | some fs =>
    rw [hf] at hfp
    have htext : l.text = l.intPart ++ '.' :: fs := by simp [Literal.text, hf]
    rw [htext] at h hpos hfit htake hval
    have h' : T.drop i = l.intPart ++ ('.' :: fs ++ rest) := by simpa using h
    have hdig : scanWhile isdigit (T.drop i) i = i + l.intPart.length := by
      rw [h']
      apply scanWhile_append _ _ _ _ hip
      intro c r hcr
      simp at hcr
      rw [← hcr.1]; decide
    have hdrop : T.drop (i + l.intPart.length) = '.' :: (fs ++ rest) := by
      simpa using drop_shift h'
    have hdot : charAt T (i + l.intPart.length) = '.' := charAt_of_drop_cons hdrop
    have hdrop2 : T.drop (i + l.intPart.length + 1) = fs ++ rest := by
      have := drop_shift (a := ['.']) (b := fs ++ rest) hdrop
      simpa using this
    have hdig2 : scanWhile isdigit (T.drop (i + l.intPart.length + 1)) (i + l.intPart.length + 1)
        = i + l.intPart.length + 1 + fs.length := by
      rw [hdrop2]; exact scanWhile_append _ _ _ _ hfp hrd
    have hlen : i + l.intPart.length + 1 + fs.length - i = (l.intPart ++ '.' :: fs).length := by
      simp; omega
    have hnz : ¬ (l.intPart ++ '.' :: fs).length = 0 := by omega
    have hlt : ¬ 32 ≤ (l.intPart ++ '.' :: fs).length := by omega
    have hidx : i + l.intPart.length + 1 + fs.length = i + (l.intPart ++ '.' :: fs).length := by
      simp; omega
    simp only [GetNumber, SkipWhitespaces, hws, hdig, hdot, hdig2, hnz, hlt,
      if_true, if_false, htake, hval, htext, hidx, Nat.add_sub_cancel_left]

theorem lex_number {T : List Char} {i : Nat} {l : Literal} {rest : List Char}
    (h : T.drop i = l.text ++ rest) (hwf : l.wf) (hfit : l.fits)
    (hrest : ∀ c r, rest = c :: r → isdigit c = false ∧ c ≠ '.') :
    lex T i = .ok ⟨⟨.Number, l.value, Char.ofNat 0⟩, T, i + l.text.length⟩ := by
  have hne := hwf.1
  have hip' : ∀ a ∈ l.intPart, isdigit a = true := by simpa using hwf.2.1
  obtain ⟨d, r', hd, hdr⟩ : ∃ d r', isdigit d = true ∧ T.drop i = d :: r' := by
    cases hl : l.intPart with
    | nil => exact absurd hl hne
    | cons d ds =>
      refine ⟨d, (l.text ++ rest).tail, hip' d (by simp [hl]), ?_⟩
      rw [h]
      unfold Literal.text
      rw [hl]
      cases l.fracPart <;> simp
  have hws : scanWhile isspace (T.drop i) i = i := by
    rw [hdr]; simp [scanWhile, isdigit_not_isspace hd]
  have hnum := GetNumber_literal ⟨.Number, 0, Char.ofNat 0⟩ h hwf hfit hrest
  have hch := charAt_of_drop_cons hdr
  simp [lex, GetNextToken, SkipWhitespaces, hws, hch, isdigit_ne_nul hd, hd, hnum]

theorem Expression_succ (k : Nat) (p : Parser) :
    Expression (k + 1) p = Term k p >>= fun r => Expression1 k r.2 >>= fun r' =>
      pure (CreateNode .OperatorPlus r.1 r'.1, r'.2) := by
  rw [Expression]

theorem Term_succ (k : Nat) (p : Parser) :
    Term (k + 1) p = Factor k p >>= fun r => Term1 k r.2 >>= fun r' =>
      pure (CreateNode .OperatorMul r.1 r'.1, r'.2) := by
  rw [Term]

theorem Expression1_Plus (k : Nat) (p : Parser) (h : p.m_crtToken.Kind = .Plus) :
    Expression1 (k + 1) p = GetNextToken p >>= fun p => Term k p >>= fun r =>
      Expression1 k r.2 >>= fun r' => pure (CreateNode .OperatorPlus r'.1 r.1, r'.2) := by
  rw [Expression1]; simp only [h]

theorem Expression1_Minus (k : Nat) (p : Parser) (h : p.m_crtToken.Kind = .Minus) :
    Expression1 (k + 1) p = GetNextToken p >>= fun p => Term k p >>= fun r =>
      Expression1 k r.2 >>= fun r' => pure (CreateNode .OperatorMinus r'.1 r.1, r'.2) := by
  rw [Expression1]; simp only [h]

theorem Expression1_other (k : Nat) (p : Parser) (h1 : p.m_crtToken.Kind ≠ .Plus)
    (h2 : p.m_crtToken.Kind ≠ .Minus) :
    Expression1 (k + 1) p = .ok (CreateNodeNumber 0, p) := by
  rw [Expression1]; split <;> first | contradiction | rfl

theorem Term1_Mul (k : Nat) (p : Parser) (h : p.m_crtToken.Kind = .Mul) :
    Term1 (k + 1) p = GetNextToken p >>= fun p => Factor k p >>= fun r =>
      Term1 k r.2 >>= fun r' => pure (CreateNode .OperatorMul r'.1 r.1, r'.2) := by
  rw [Term1]; simp only [h]

theorem Term1_Div (k : Nat) (p : Parser) (h : p.m_crtToken.Kind = .Div) :
    Term1 (k + 1) p = GetNextToken p >>= fun p => Factor k p >>= fun r =>
      Term1 k r.2 >>= fun r' => pure (CreateNode .OperatorDiv r'.1 r.1, r'.2) := by
  rw [Term1]; simp only [h]

theorem Term1_other (k : Nat) (p : Parser) (h1 : p.m_crtToken.Kind ≠ .Mul)
    (h2 : p.m_crtToken.Kind ≠ .Div) :
    Term1 (k + 1) p = .ok (CreateNodeNumber 1, p) := by
  rw [Term1]; split <;> first | contradiction | rfl

theorem Factor_OpenParenthesis (k : Nat) (p : Parser) (h : p.m_crtToken.Kind = .OpenParenthesis) :
    Factor (k + 1) p = GetNextToken p >>= fun p => Expression k p >>= fun r =>
      Match ')' r.2 >>= fun p => pure (r.1, p) := by
  rw [Factor]; simp only [h]

theorem Factor_Minus (k : Nat) (p : Parser) (h : p.m_crtToken.Kind = .Minus) :
    Factor (k + 1) p = GetNextToken p >>= fun p => Factor k p >>= fun r =>
      pure (CreateUnaryNode r.1, r.2) := by
  rw [Factor]; simp only [h]

theorem Factor_Number (k : Nat) (p : Parser) (h : p.m_crtToken.Kind = .Number) :
    Factor (k + 1) p = GetNextToken p >>= fun p' =>
      pure (CreateNodeNumber p.m_crtToken.Value, p') := by
  rw [Factor]; simp only [h]

theorem Factor_other (k : Nat) (p : Parser) (h1 : p.m_crtToken.Kind ≠ .OpenParenthesis)
    (h2 : p.m_crtToken.Kind ≠ .Minus) (h3 : p.m_crtToken.Kind ≠ .Number) :
    Factor (k + 1) p = .error (.thrown ⟨.UnexpectedToken p.m_crtToken.Symbol, p.m_Index⟩) := by
  rw [Factor]; split <;> first | contradiction | rfl

theorem Runs_seq {X Y : Parser → Except Failure (ASTNode × Parser)} {T : List Char}
    {i n m : Nat} {a b : ASTNode} (mk : ASTNode → ASTNode → ASTNode)
    (hX : Runs X T i n a) (hY : Runs Y T (i + n) m b) :
    (lex T i >>= fun p => X p >>= fun r => Y r.2 >>= fun r' => pure (mk r.1 r'.1, r'.2))
      = (fun p' => (mk a b, p')) <$> lex T (i + n + m) := by
  unfold Runs at hX hY
  have e1 : (lex T i >>= fun p => X p >>= fun r => Y r.2 >>= fun r' => pure (mk r.1 r'.1, r'.2))
      = (lex T i >>= X) >>= fun r => Y r.2 >>= fun r' => pure (mk r.1 r'.1, r'.2) :=
    (bind_assoc _ _ _).symm
  have e2 : (lex T (i + n) >>= fun p => Y p >>= fun r' => pure (mk a r'.1, r'.2))
      = (lex T (i + n) >>= Y) >>= fun r' => pure (mk a r'.1, r'.2) :=
    (bind_assoc _ _ _).symm
  rw [e1, hX, bind_map_left]
  show (lex T (i + n) >>= fun p => Y p >>= fun r' => pure (mk a r'.1, r'.2)) = _
  rw [e2, hY, bind_map_left]
  cases lex T (i + n + m) <;> rfl

theorem ok_bind {α β : Type} (a : α) (f : α → Except Failure β) :
    (Except.ok a >>= f) = f a := rfl

theorem Boundary_of_symbol {c : Char} {r : List Char} (hc : c ∈ ['+', '-', '*', '/', '(', ')']) :
    Boundary (c :: r) := by
  intro c' r' h
  cases h
  simp only [List.mem_cons, List.mem_singleton, List.not_mem_nil, or_false] at hc
  rcases hc with rfl | rfl | rfl | rfl | rfl | rfl <;> decide

theorem Exp1_boundary (e1 : Exp1) {rest : List Char} (h : Boundary rest) :
    Boundary (e1.print ++ rest) := by
  cases e1 with
  | plus t e => exact Boundary_of_symbol (by simp)
  | minus t e => exact Boundary_of_symbol (by simp)
  | eps => simpa [Exp1.print] using h

theorem Trm1_boundary (t1 : Trm1) {rest : List Char} (h : Boundary rest) :
    Boundary (t1.print ++ rest) := by
  cases t1 with
  | mul t e => exact Boundary_of_symbol (by simp)
  | div t e => exact Boundary_of_symbol (by simp)
  | eps => simpa [Trm1.print] using h

theorem StopE_of_symbol {T : List Char} {j : Nat} {c : Char} {r : List Char}
    (h : T.drop j = c :: r) (hc : c ∈ ['(', ')']) : StopE T j := by
  intro p' hp
  simp only [List.mem_cons, List.mem_singleton, List.not_mem_nil, or_false] at hc
  rw [lex_symbol h (by rcases hc with rfl | rfl <;> simp)] at hp
  cases hp
  rcases hc with rfl | rfl <;> simp [symbolType]

theorem StopE_of_nil {T : List Char} {j : Nat} (h : T.drop j = []) : StopE T j := by
  intro p' hp
  rw [lex_nil h] at hp
  cases hp
  simp

theorem StopE_toT {T : List Char} {j : Nat} (h : StopE T j) : StopT T j :=
  fun p' hp => (h p' hp).2

theorem Exp1_stopT (e1 : Exp1) {T : List Char} {j : Nat} {rest : List Char}
    (hT : T.drop j = e1.print ++ rest) (h : StopE T (j + e1.print.length)) : StopT T j := by
  cases e1 with
  | plus t e =>
    intro p' hp
    rw [lex_symbol (c := '+') (by simpa [Exp1.print] using hT) (by simp)] at hp
    cases hp
    simp [symbolType]
  | minus t e =>
    intro p' hp
    rw [lex_symbol (c := '-') (by simpa [Exp1.print] using hT) (by simp)] at hp
    cases hp
    simp [symbolType]
  | eps => simpa [Exp1.print] using StopE_toT h

mutual

theorem Expression_runs : ∀ (e : Exp) (T : List Char) (i : Nat) (rest : List Char) (fuel : Nat),
    e.litsOk → T.drop i = e.print ++ rest → Boundary rest → StopE T (i + e.print.length) →
    e.depth ≤ fuel → Runs (Expression fuel) T i e.print.length e.tree
  | .mk t e1, T, i, rest, fuel, hok, hT, hB, hS, hfuel => by
    simp only [Exp.depth] at hfuel
    obtain ⟨k, rfl⟩ : ∃ k, fuel = k + 1 := ⟨fuel - 1, by omega⟩
    simp only [Exp.litsOk] at hok
    simp only [Exp.print, List.append_assoc] at hT
    have hlen : i + (Exp.mk t e1).print.length = i + t.print.length + e1.print.length := by
      simp [Exp.print]; omega
    rw [hlen] at hS
    have h1 := Term_runs t T i (e1.print ++ rest) k hok.1 hT (Exp1_boundary e1 hB)
      (Exp1_stopT e1 (drop_shift hT) hS) (by omega)
    have h2 := Expression1_runs e1 T (i + t.print.length) rest k hok.2 (drop_shift hT) hB hS (by omega)
    have := Runs_seq (fun a b => CreateNode .OperatorPlus a b) h1 h2
    unfold Runs
    rw [hlen]
    simpa only [Expression_succ, Exp.tree] using this

theorem Expression1_runs : ∀ (e1 : Exp1) (T : List Char) (i : Nat) (rest : List Char) (fuel : Nat),
    e1.litsOk → T.drop i = e1.print ++ rest → Boundary rest → StopE T (i + e1.print.length) →
    e1.depth ≤ fuel → Runs (Expression1 fuel) T i e1.print.length e1.tree
  | .plus t e1, T, i, rest, fuel, hok, hT, hB, hS, hfuel => by
    simp only [Exp1.depth] at hfuel
    obtain ⟨k, rfl⟩ : ∃ k, fuel = k + 1 := ⟨fuel - 1, by omega⟩
    simp only [Exp1.litsOk] at hok
    simp only [Exp1.print, List.cons_append, List.append_assoc] at hT
    have hlen : i + (Exp1.plus t e1).print.length = i + 1 + t.print.length + e1.print.length := by
      simp [Exp1.print]; omega
    rw [hlen] at hS
    have h0 := lex_symbol hT (by simp)
    have hT1 : T.drop (i + 1) = t.print ++ (e1.print ++ rest) := drop_shift (a := ['+']) hT
    have h1 := Term_runs t T (i + 1) (e1.print ++ rest) k hok.1 hT1 (Exp1_boundary e1 hB)
      (Exp1_stopT e1 (drop_shift hT1) hS) (by omega)
    have h2 := Expression1_runs e1 T (i + 1 + t.print.length) rest k hok.2 (drop_shift hT1) hB hS
      (by omega)
    have := Runs_seq (fun a b => CreateNode .OperatorPlus b a) h1 h2
    unfold Runs
    rw [hlen, h0, ok_bind, Expression1_Plus k _ rfl, GetNextToken_eq_lex]
    simpa only [Exp1.tree] using this
  | .minus t e1, T, i, rest, fuel, hok, hT, hB, hS, hfuel => by
    simp only [Exp1.depth] at hfuel
    obtain ⟨k, rfl⟩ : ∃ k, fuel = k + 1 := ⟨fuel - 1, by omega⟩
    simp only [Exp1.litsOk] at hok
    simp only [Exp1.print, List.cons_append, List.append_assoc] at hT
    have hlen : i + (Exp1.minus t e1).print.length = i + 1 + t.print.length + e1.print.length := by
      simp [Exp1.print]; omega
    rw [hlen] at hS
    have h0 := lex_symbol hT (by simp)
    have hT1 : T.drop (i + 1) = t.print ++ (e1.print ++ rest) := drop_shift (a := ['-']) hT
    have h1 := Term_runs t T (i + 1) (e1.print ++ rest) k hok.1 hT1 (Exp1_boundary e1 hB)
      (Exp1_stopT e1 (drop_shift hT1) hS) (by omega)
    have h2 := Expression1_runs e1 T (i + 1 + t.print.length) rest k hok.2 (drop_shift hT1) hB hS
      (by omega)
    have := Runs_seq (fun a b => CreateNode .OperatorMinus b a) h1 h2
    unfold Runs
    rw [hlen, h0, ok_bind, Expression1_Minus k _ rfl, GetNextToken_eq_lex]
    simpa only [Exp1.tree] using this
  | .eps, T, i, rest, fuel, hok, hT, hB, hS, hfuel => by
    simp only [Exp1.depth] at hfuel
    obtain ⟨k, rfl⟩ : ∃ k, fuel = k + 1 := ⟨fuel - 1, by omega⟩
    simp only [Exp1.print, List.length_nil, Nat.add_zero] at hS
    unfold Runs
    simp only [Exp1.print, List.length_nil, Nat.add_zero, Exp1.tree]
    cases h : lex T i with
    | error e => rfl
    | ok p0 =>
      obtain ⟨⟨h1, h2⟩, -⟩ := hS p0 h
      rw [ok_bind, Expression1_other k p0 h1 h2]
      rfl

theorem Term_runs : ∀ (t : Trm) (T : List Char) (i : Nat) (rest : List Char) (fuel : Nat),
    t.litsOk → T.drop i = t.print ++ rest → Boundary rest → StopT T (i + t.print.length) →
    t.depth ≤ fuel → Runs (Term fuel) T i t.print.length t.tree
  | .mk f t1, T, i, rest, fuel, hok, hT, hB, hS, hfuel => by
    simp only [Trm.depth] at hfuel
    obtain ⟨k, rfl⟩ : ∃ k, fuel = k + 1 := ⟨fuel - 1, by omega⟩
    simp only [Trm.litsOk] at hok
    simp only [Trm.print, List.append_assoc] at hT
    have hlen : i + (Trm.mk f t1).print.length = i + f.print.length + t1.print.length := by
      simp [Trm.print]; omega
    rw [hlen] at hS
    have h1 := Factor_runs f T i (t1.print ++ rest) k hok.1 hT (Trm1_boundary t1 hB) (by omega)
    have h2 := Term1_runs t1 T (i + f.print.length) rest k hok.2 (drop_shift hT) hB hS (by omega)
    have := Runs_seq (fun a b => CreateNode .OperatorMul a b) h1 h2
    unfold Runs
    rw [hlen]
    simpa only [Term_succ, Trm.tree] using this

theorem Term1_runs : ∀ (t1 : Trm1) (T : List Char) (i : Nat) (rest : List Char) (fuel : Nat),
    t1.litsOk → T.drop i = t1.print ++ rest → Boundary rest → StopT T (i + t1.print.length) →
    t1.depth ≤ fuel → Runs (Term1 fuel) T i t1.print.length t1.tree
  | .mul f t1, T, i, rest, fuel, hok, hT, hB, hS, hfuel => by
    simp only [Trm1.depth] at hfuel
    obtain ⟨k, rfl⟩ : ∃ k, fuel = k + 1 := ⟨fuel - 1, by omega⟩
    simp only [Trm1.litsOk] at hok
    simp only [Trm1.print, List.cons_append, List.append_assoc] at hT
    have hlen : i + (Trm1.mul f t1).print.length = i + 1 + f.print.length + t1.print.length := by
      simp [Trm1.print]; omega
    rw [hlen] at hS
    have h0 := lex_symbol hT (by simp)
    have hT1 : T.drop (i + 1) = f.print ++ (t1.print ++ rest) := drop_shift (a := ['*']) hT
    have h1 := Factor_runs f T (i + 1) (t1.print ++ rest) k hok.1 hT1 (Trm1_boundary t1 hB) (by omega)
    have h2 := Term1_runs t1 T (i + 1 + f.print.length) rest k hok.2 (drop_shift hT1) hB hS
      (by omega)
    have := Runs_seq (fun a b => CreateNode .OperatorMul b a) h1 h2
    unfold Runs
    rw [hlen, h0, ok_bind, Term1_Mul k _ rfl, GetNextToken_eq_lex]
    simpa only [Trm1.tree] using this
  | .div f t1, T, i, rest, fuel, hok, hT, hB, hS, hfuel => by
    simp only [Trm1.depth] at hfuel
    obtain ⟨k, rfl⟩ : ∃ k, fuel = k + 1 := ⟨fuel - 1, by omega⟩
    simp only [Trm1.litsOk] at hok
    simp only [Trm1.print, List.cons_append, List.append_assoc] at hT
    have hlen : i + (Trm1.div f t1).print.length = i + 1 + f.print.length + t1.print.length := by
      simp [Trm1.print]; omega
    rw [hlen] at hS
    have h0 := lex_symbol hT (by simp)
    have hT1 : T.drop (i + 1) = f.print ++ (t1.print ++ rest) := drop_shift (a := ['/']) hT
    have h1 := Factor_runs f T (i + 1) (t1.print ++ rest) k hok.1 hT1 (Trm1_boundary t1 hB) (by omega)
    have h2 := Term1_runs t1 T (i + 1 + f.print.length) rest k hok.2 (drop_shift hT1) hB hS
      (by omega)
    have := Runs_seq (fun a b => CreateNode .OperatorDiv b a) h1 h2
    unfold Runs
    rw [hlen, h0, ok_bind, Term1_Div k _ rfl, GetNextToken_eq_lex]
    simpa only [Trm1.tree] using this
  | .eps, T, i, rest, fuel, hok, hT, hB, hS, hfuel => by
    simp only [Trm1.depth] at hfuel
    obtain ⟨k, rfl⟩ : ∃ k, fuel = k + 1 := ⟨fuel - 1, by omega⟩
    simp only [Trm1.print, List.length_nil, Nat.add_zero] at hS
    unfold Runs
    simp only [Trm1.print, List.length_nil, Nat.add_zero, Trm1.tree]
    cases h : lex T i with
    | error e => rfl
    | ok p0 =>
      obtain ⟨h1, h2⟩ := hS p0 h
      rw [ok_bind, Term1_other k p0 h1 h2]
      rfl

theorem Factor_runs : ∀ (f : Fac) (T : List Char) (i : Nat) (rest : List Char) (fuel : Nat),
    f.litsOk → T.drop i = f.print ++ rest → Boundary rest →
    f.depth ≤ fuel → Runs (Factor fuel) T i f.print.length f.tree
  | .paren e, T, i, rest, fuel, hok, hT, hB, hfuel => by
    simp only [Fac.depth] at hfuel
    obtain ⟨k, rfl⟩ : ∃ k, fuel = k + 1 := ⟨fuel - 1, by omega⟩
    simp only [Fac.litsOk] at hok
    simp only [Fac.print, List.cons_append, List.append_assoc, List.singleton_append] at hT
    have hlen : i + (Fac.paren e).print.length = i + 1 + e.print.length + 1 := by
      simp [Fac.print]; omega
    have h0 := lex_symbol hT (by simp)
    have hT1 : T.drop (i + 1) = e.print ++ (')' :: rest) := drop_shift (a := ['(']) hT
    have hT2 : T.drop (i + 1 + e.print.length) = ')' :: rest := drop_shift hT1
    have h1 := Expression_runs e T (i + 1) (')' :: rest) k hok hT1 (Boundary_of_symbol (by simp))
      (StopE_of_symbol hT2 (by simp)) (by omega)
    have h2 := lex_symbol hT2 (by simp)
    unfold Runs at h1 ⊢
    rw [hlen, h0, ok_bind, Factor_OpenParenthesis k _ rfl, GetNextToken_eq_lex, ← bind_assoc,
      h1, bind_map_left, h2, ok_bind]
    simp only [Match, charAt_of_drop_cons hT2, Nat.add_sub_cancel, if_true, GetNextToken_eq_lex,
      Fac.tree]
    simp [bind_pure_comp]
  | .neg f, T, i, rest, fuel, hok, hT, hB, hfuel => by
    simp only [Fac.depth] at hfuel
    obtain ⟨k, rfl⟩ : ∃ k, fuel = k + 1 := ⟨fuel - 1, by omega⟩
    simp only [Fac.litsOk] at hok
    simp only [Fac.print, List.cons_append] at hT
    have hlen : i + (Fac.neg f).print.length = i + 1 + f.print.length := by
      simp [Fac.print]; omega
    have h0 := lex_symbol hT (by simp)
    have hT1 : T.drop (i + 1) = f.print ++ rest := drop_shift (a := ['-']) hT
    have h1 := Factor_runs f T (i + 1) rest k hok hT1 hB (by omega)
    unfold Runs at h1 ⊢
    rw [hlen, h0, ok_bind, Factor_Minus k _ rfl, GetNextToken_eq_lex, ← bind_assoc, h1,
      bind_map_left]
    simp [bind_pure_comp, Fac.tree]
  | .num l, T, i, rest, fuel, hok, hT, hB, hfuel => by
    simp only [Fac.depth] at hfuel
    obtain ⟨k, rfl⟩ : ∃ k, fuel = k + 1 := ⟨fuel - 1, by omega⟩
    simp only [Fac.litsOk] at hok
    simp only [Fac.print] at hT
    have h0 := lex_number hT hok.1 hok.2 hB
    unfold Runs
    rw [h0, ok_bind, Factor_Number k _ rfl, GetNextToken_eq_lex]
    simp [bind_pure_comp, Fac.tree, Fac.print]

end

mutual

/-- In exact arithmetic the tree of a derivation evaluates to the value of the
derivation with its operators applied from the left. -/
theorem evaluate_Exp_tree : ∀ e : Exp, evaluate e.tree = e.value
  | .mk t e1 => by
    simp only [Exp.tree, Exp.value, CreateNode, evaluate]
    rw [evaluate_Trm_tree t, Exp1_value_eq e1]

theorem Exp1_value_eq : ∀ (e1 : Exp1) (acc : ℚ), e1.value acc = acc + evaluate e1.tree
  | .plus t e1, acc => by
    simp only [Exp1.tree, Exp1.value, CreateNode, evaluate]
    rw [Exp1_value_eq e1, evaluate_Trm_tree t]
    ring
  | .minus t e1, acc => by
    simp only [Exp1.tree, Exp1.value, CreateNode, evaluate]
    rw [Exp1_value_eq e1, evaluate_Trm_tree t]
    ring
  | .eps, acc => by
    simp [Exp1.tree, Exp1.value, CreateNodeNumber, evaluate]

theorem evaluate_Trm_tree : ∀ t : Trm, evaluate t.tree = t.value
  | .mk f t1 => by
    simp only [Trm.tree, Trm.value, CreateNode, evaluate]
    rw [evaluate_Fac_tree f, Trm1_value_eq t1]

theorem Trm1_value_eq : ∀ (t1 : Trm1) (acc : ℚ), t1.value acc = acc * evaluate t1.tree
  | .mul f t1, acc => by
    simp only [Trm1.tree, Trm1.value, CreateNode, evaluate]
    rw [Trm1_value_eq t1, evaluate_Fac_tree f]
    ring
  | .div f t1, acc => by
    simp only [Trm1.tree, Trm1.value, CreateNode, evaluate]
    rw [Trm1_value_eq t1, evaluate_Fac_tree f]
    simp only [div_eq_mul_inv]
    ring
  | .eps, acc => by
    simp [Trm1.tree, Trm1.value, CreateNodeNumber, evaluate]

theorem evaluate_Fac_tree : ∀ f : Fac, evaluate f.tree = f.value
  | .paren e => by
    simp only [Fac.tree, Fac.value]
    exact evaluate_Exp_tree e
  | .neg f => by
    simp only [Fac.tree, Fac.value, CreateUnaryNode, evaluate]
    rw [evaluate_Fac_tree f]
  | .num l => by
    simp [Fac.tree, Fac.value, CreateNodeNumber, evaluate]

end

theorem Fac_depth_pos (f : Fac) : 0 < f.depth := by
  cases f <;> simp [Fac.depth]

mutual

theorem Exp_depth_le : ∀ e : Exp, e.litsOk → e.depth ≤ 3 * e.print.length + 2
  | .mk t e1, hok => by
    simp only [Exp.litsOk] at hok
    have h1 := Trm_depth_le t hok.1
    have h2 := Exp1_depth_le e1 hok.2
    simp only [Exp.depth, Exp.print, List.length_append]
    omega

theorem Exp1_depth_le : ∀ e1 : Exp1, e1.litsOk → e1.depth ≤ 3 * e1.print.length + 1
  | .plus t e1, hok => by
    simp only [Exp1.litsOk] at hok
    have h1 := Trm_depth_le t hok.1
    have h2 := Exp1_depth_le e1 hok.2
    simp only [Exp1.depth, Exp1.print, List.length_append, List.length_cons]
    omega
  | .minus t e1, hok => by
    simp only [Exp1.litsOk] at hok
    have h1 := Trm_depth_le t hok.1
    have h2 := Exp1_depth_le e1 hok.2
    simp only [Exp1.depth, Exp1.print, List.length_append, List.length_cons]
    omega
  | .eps, _ => by simp [Exp1.depth]

theorem Trm_depth_le : ∀ t : Trm, t.litsOk → t.depth ≤ 3 * t.print.length + 1
  | .mk f t1, hok => by
    simp only [Trm.litsOk] at hok
    have h1 := Fac_depth_le f hok.1
    have h2 := Trm1_depth_le t1 hok.2
    have h3 := Fac_depth_pos f
    simp only [Trm.depth, Trm.print, List.length_append]
    omega

theorem Trm1_depth_le : ∀ t1 : Trm1, t1.litsOk → t1.depth ≤ 3 * t1.print.length + 1
  | .mul f t1, hok => by
    simp only [Trm1.litsOk] at hok
    have h1 := Fac_depth_le f hok.1
    have h2 := Trm1_depth_le t1 hok.2
    simp only [Trm1.depth, Trm1.print, List.length_append, List.length_cons]
    omega
  | .div f t1, hok => by
    simp only [Trm1.litsOk] at hok
    have h1 := Fac_depth_le f hok.1
    have h2 := Trm1_depth_le t1 hok.2
    simp only [Trm1.depth, Trm1.print, List.length_append, List.length_cons]
    omega
  | .eps, _ => by simp [Trm1.depth]

theorem Fac_depth_le : ∀ f : Fac, f.litsOk → f.depth ≤ 3 * f.print.length
  | .paren e, hok => by
    simp only [Fac.litsOk] at hok
    have h1 := Exp_depth_le e hok
    simp only [Fac.depth, Fac.print, List.length_append, List.length_cons, List.length_nil]
    omega
  | .neg f, hok => by
    simp only [Fac.litsOk] at hok
    have h1 := Fac_depth_le f hok
    simp only [Fac.depth, Fac.print, List.length_append, List.length_cons]
    omega
  | .num l, hok => by
    simp only [Fac.litsOk] at hok
    have := Literal_text_length_pos l hok.1
    simp only [Fac.depth, Fac.print]
    omega

end

theorem Boundary_nil : Boundary [] := by
  intro c r h
  cases h

theorem Parse_eq (p : Parser) (text : List Char) :
    Parse p text = lex text 0 >>= Expression (3 * text.length + 8) := by
  simp [Parse, GetNextToken_eq_lex]

theorem Parse_append (p : Parser) (e : Exp) (rest : List Char) (hok : e.litsOk)
    (hB : Boundary rest) (hS : StopE (e.print ++ rest) e.print.length) :
    Parse p (e.print ++ rest)
      = (fun p' => (e.tree, p')) <$> lex (e.print ++ rest) e.print.length := by
  have hd := Exp_depth_le e hok
  have h := Expression_runs e (e.print ++ rest) 0 rest (3 * (e.print ++ rest).length + 8) hok (by simp) hB
    (by simpa using hS) (by simp; omega)
  unfold Runs at h
  rw [Parse_eq, h]
  simp

theorem Parse_print (p : Parser) (e : Exp) (hok : e.litsOk) :
    Parse p e.print
      = .ok (e.tree, ⟨⟨.EndOfText, 0, Char.ofNat 0⟩, e.print, e.print.length⟩) := by
  have h := Parse_append p e [] hok Boundary_nil (StopE_of_nil (by simp))
  simp only [List.append_nil] at h
  rw [h, lex_nil (by simp)]
  rfl


/-! ## Properties of `parse` and `evaluate` -/

theorem parse_print (e : Exp) (hok : e.litsOk) : parse e.print = .ok e.tree := by
  simp [parse, Parse_print Parser.fresh e hok, Except.map]

/-- In exact arithmetic the tree of a derivation has the conventional value. -/
theorem parse_print_value (e : Exp) (hok : e.litsOk) :
    ∃ tree, parse e.print = .ok tree ∧ evaluate tree = e.value :=
  ⟨e.tree, parse_print e hok, evaluate_Exp_tree e⟩

theorem Exp1_value_append : ∀ (e r : Exp1) (acc : ℚ),
    (e.append r).value acc = r.value (e.value acc)
  | .plus t e, r, acc => by simp [Exp1.append, Exp1.value, Exp1_value_append e r]
  | .minus t e, r, acc => by simp [Exp1.append, Exp1.value, Exp1_value_append e r]
  | .eps, r, acc => by simp [Exp1.append, Exp1.value]

theorem Trm1_value_append : ∀ (t1 r : Trm1) (acc : ℚ),
    (t1.append r).value acc = r.value (t1.value acc)
  | .mul f t1, r, acc => by simp [Trm1.append, Trm1.value, Trm1_value_append t1 r]
  | .div f t1, r, acc => by simp [Trm1.append, Trm1.value, Trm1_value_append t1 r]
  | .eps, r, acc => by simp [Trm1.append, Trm1.value]

theorem Exp1_litsOk_append : ∀ (e r : Exp1), e.litsOk → r.litsOk → (e.append r).litsOk
  | .plus t e, r, he, hr => by
    simp only [Exp1.litsOk] at he
    simp [Exp1.append, Exp1.litsOk, he.1, Exp1_litsOk_append e r he.2 hr]
  | .minus t e, r, he, hr => by
    simp only [Exp1.litsOk] at he
    simp [Exp1.append, Exp1.litsOk, he.1, Exp1_litsOk_append e r he.2 hr]
  | .eps, r, _, hr => by simpa [Exp1.append] using hr

theorem Trm1_litsOk_append : ∀ (t1 r : Trm1), t1.litsOk → r.litsOk → (t1.append r).litsOk
  | .mul f t1, r, he, hr => by
    simp only [Trm1.litsOk] at he
    simp [Trm1.append, Trm1.litsOk, he.1, Trm1_litsOk_append t1 r he.2 hr]
  | .div f t1, r, he, hr => by
    simp only [Trm1.litsOk] at he
    simp [Trm1.append, Trm1.litsOk, he.1, Trm1_litsOk_append t1 r he.2 hr]
  | .eps, r, _, hr => by simpa [Trm1.append] using hr

theorem Exp_asTrm_value (e : Exp) : e.asTrm.value = e.value := by
  rcases e with ⟨t, e1⟩
  cases e1 <;> simp [Exp.asTrm, Exp.value, Exp1.value, Trm.value, Trm1.value, Fac.value]

theorem Trm_asFac_value (t : Trm) : t.asFac.value = t.value := by
  rcases t with ⟨f, t1⟩
  cases t1 <;> simp [Trm.asFac, Exp.value, Exp1.value, Trm.value, Trm1.value, Fac.value]

theorem Exp_asTrm_litsOk (e : Exp) (h : e.litsOk) : e.asTrm.litsOk := by
  rcases e with ⟨t, e1⟩
  cases e1 <;>
    simp_all [Exp.asTrm, Exp.litsOk, Exp1.litsOk, Trm.litsOk, Trm1.litsOk, Fac.litsOk]

theorem Trm_asFac_litsOk (t : Trm) (h : t.litsOk) : t.asFac.litsOk := by
  rcases t with ⟨f, t1⟩
  cases t1 <;>
    simp_all [Trm.asFac, Exp.litsOk, Exp1.litsOk, Trm.litsOk, Trm1.litsOk, Fac.litsOk]

theorem Arith_toExp_value : ∀ a : Arith, a.toExp.value = a.value
  | .num l => by simp [Arith.toExp, Arith.value, Exp.value, Exp1.value, Trm.value, Trm1.value,
      Fac.value]
  | .neg a => by
    simp [Arith.toExp, Arith.value, Exp.value, Exp1.value, Trm.value, Trm1.value, Fac.value,
      Trm_asFac_value, Exp_asTrm_value, Arith_toExp_value a]
  | .paren a => by
    simp [Arith.toExp, Arith.value, Exp.value, Exp1.value, Trm.value, Trm1.value, Fac.value,
      Arith_toExp_value a]
  | .add a b => by
    have ha := Arith_toExp_value a
    have hb := Arith_toExp_value b
    simp only [Arith.toExp, Arith.value]
    rcases hx : a.toExp with ⟨t, e1⟩
    rw [hx] at ha
    simp only [Exp.value] at ha ⊢
    rw [Exp1_value_append, ha]
    simp [Exp1.value, Exp_asTrm_value, hb]
  | .sub a b => by
    have ha := Arith_toExp_value a
    have hb := Arith_toExp_value b
    simp only [Arith.toExp, Arith.value]
    rcases hx : a.toExp with ⟨t, e1⟩
    rw [hx] at ha
    simp only [Exp.value] at ha ⊢
    rw [Exp1_value_append, ha]
    simp [Exp1.value, Exp_asTrm_value, hb]
  | .mul a b => by
    have ha := Arith_toExp_value a
    have hb := Arith_toExp_value b
    rw [← Exp_asTrm_value] at ha
    simp only [Arith.toExp, Arith.value]
    rcases hx : a.toExp.asTrm with ⟨f, t1⟩
    rw [hx] at ha
    simp only [Trm.value] at ha
    simp only [Exp.value, Exp1.value, Trm.value]
    rw [Trm1_value_append, ha]
    simp [Trm1.value, Trm_asFac_value, Exp_asTrm_value, hb]
  | .div a b => by
    have ha := Arith_toExp_value a
    have hb := Arith_toExp_value b
    rw [← Exp_asTrm_value] at ha
    simp only [Arith.toExp, Arith.value]
    rcases hx : a.toExp.asTrm with ⟨f, t1⟩
    rw [hx] at ha
    simp only [Trm.value] at ha
    simp only [Exp.value, Exp1.value, Trm.value]
    rw [Trm1_value_append, ha]
    simp [Trm1.value, Trm_asFac_value, Exp_asTrm_value, hb]

theorem Arith_toExp_litsOk : ∀ a : Arith, a.litsOk → a.toExp.litsOk
  | .num l, h => by
    simpa [Arith.toExp, Arith.litsOk, Exp.litsOk, Exp1.litsOk, Trm.litsOk, Trm1.litsOk,
      Fac.litsOk] using h
  | .neg a, h => by
    have ha := Trm_asFac_litsOk _ (Exp_asTrm_litsOk _ (Arith_toExp_litsOk a h))
    simp [Arith.toExp, Exp.litsOk, Exp1.litsOk, Trm.litsOk, Trm1.litsOk, Fac.litsOk, ha]
  | .paren a, h => by
    have ha := Arith_toExp_litsOk a h
    simp [Arith.toExp, Exp.litsOk, Exp1.litsOk, Trm.litsOk, Trm1.litsOk, Fac.litsOk, ha]
  | .add a b, h => by
    have ha := Arith_toExp_litsOk a h.1
    have hb := Exp_asTrm_litsOk _ (Arith_toExp_litsOk b h.2)
    simp only [Arith.toExp]
    rcases hx : a.toExp with ⟨t, e1⟩
    rw [hx] at ha
    simp only [Exp.litsOk] at ha ⊢
    exact ⟨ha.1, Exp1_litsOk_append _ _ ha.2 (by simp [Exp1.litsOk, hb])⟩
  | .sub a b, h => by
    have ha := Arith_toExp_litsOk a h.1
    have hb := Exp_asTrm_litsOk _ (Arith_toExp_litsOk b h.2)
    simp only [Arith.toExp]
    rcases hx : a.toExp with ⟨t, e1⟩
    rw [hx] at ha
    simp only [Exp.litsOk] at ha ⊢
    exact ⟨ha.1, Exp1_litsOk_append _ _ ha.2 (by simp [Exp1.litsOk, hb])⟩
  | .mul a b, h => by
    have ha := Exp_asTrm_litsOk _ (Arith_toExp_litsOk a h.1)
    have hb := Trm_asFac_litsOk _ (Exp_asTrm_litsOk _ (Arith_toExp_litsOk b h.2))
    simp only [Arith.toExp]
    rcases hx : a.toExp.asTrm with ⟨f, t1⟩
    rw [hx] at ha
    simp only [Trm.litsOk] at ha
    simp only [Exp.litsOk, Exp1.litsOk, Trm.litsOk, and_true]
    exact ⟨ha.1, Trm1_litsOk_append _ _ ha.2 (by simp [Trm1.litsOk, hb])⟩
  | .div a b, h => by
    have ha := Exp_asTrm_litsOk _ (Arith_toExp_litsOk a h.1)
    have hb := Trm_asFac_litsOk _ (Exp_asTrm_litsOk _ (Arith_toExp_litsOk b h.2))
    simp only [Arith.toExp]
    rcases hx : a.toExp.asTrm with ⟨f, t1⟩
    rw [hx] at ha
    simp only [Trm.litsOk] at ha
    simp only [Exp.litsOk, Exp1.litsOk, Trm.litsOk, and_true]
    exact ⟨ha.1, Trm1_litsOk_append _ _ ha.2 (by simp [Trm1.litsOk, hb])⟩

/-- In exact arithmetic the tree of an arithmetic expression has its value. -/
theorem parse_render_value (a : Arith) (hok : a.litsOk) :
    ∃ tree, parse a.render = .ok tree ∧ evaluate tree = a.value := by
  obtain ⟨tree, h1, h2⟩ := parse_print_value a.toExp (Arith_toExp_litsOk a hok)
  exact ⟨tree, h1, by rw [h2, Arith_toExp_value]⟩

/-- The text of some arithmetic expressions: parentheses appear where the
right operand of `-` is a difference and where an operand of `*` or of unary
minus is a sum or a product. -/
theorem render_examples :
    (Arith.sub (.sub (.num lit1) (.num lit2)) (.num lit3)).render = "1-2-3".toList
    ∧ (Arith.sub (.num lit1) (.sub (.num lit2) (.num lit3))).render = "1-(2-3)".toList
    ∧ (Arith.mul (.add (.num lit1) (.num lit2)) (.neg (.mul (.num lit3) (.num lit3)))).render
        = "(1+2)*-(3*3)".toList
    ∧ (Arith.add (.neg (.num lit1)) (.div (.num lit2) (.paren (.num lit3)))).render
        = "-1+2/(3)".toList := by
  refine ⟨?_, ?_, ?_, ?_⟩ <;>
    simp [Arith.render, Arith.toExp, Exp.asTrm, Trm.asFac, Exp1.append, Trm1.append, Exp.print,
      Exp1.print, Trm.print, Trm1.print, Fac.print, Literal.text, lit1, lit2, lit3]

theorem evaluate_eq_evaluateIn : ∀ t : ASTNode, evaluate t = evaluateIn rationals t
  | .NumberValue v => rfl
  | .UnaryMinus l => by simp [evaluate, evaluateIn, evaluate_eq_evaluateIn l, rationals]
  | .Binary t l r => by
    cases t <;>
      simp [evaluate, evaluateIn, evaluate_eq_evaluateIn l, evaluate_eq_evaluateIn r, rationals]

theorem rationals_Neutral : rationals.Neutral :=
  ⟨fun x => by simp [rationals], fun x => by simp [rationals], fun q _ => by simp [rationals]⟩

theorem Literal_value_nonneg (l : Literal) : 0 ≤ l.value := by
  unfold Literal.value
  cases l.fracPart <;> positivity

set_option maxRecDepth 8000 in
/-- C1: for every arithmetic expression built from number literals, the four
binary operators, unary minus and parentheses, whose literals are well formed
and at most 31 characters long, `parse` of its text succeeds and returns the
tree that the semantic rules assign to it; the same holds for every
derivation of the grammar. A node that multiplies by the leaf `1` or adds the
leaf `0` has the value of its other operand. The tests `1+2+3+4`, `1/2/3/4`
and `5/(4+3)/2` give 10, 1/24 and 5/14 in exact arithmetic; in every
arithmetic that obeys the laws of the neutral elements they are computed as
`1 + ((4 + 3) + 2)`, `((1 / 4) / 3) / 2 + 0` and
`5 * ((1 / 2) / (4 + 3)) + 0`. On the well-formed literal `longLiteral` of 37
characters `parse` does not succeed: `GetNumber` overruns its buffer. -/
theorem C1_parse_evaluate_value :
    (∀ a : Arith, a.litsOk → parse a.render = .ok a.toExp.tree)
    ∧ (∀ e : Exp, e.litsOk → parse e.print = .ok e.tree)
    ∧ (∀ t : ASTNode,
        evaluate (.Binary .OperatorMul t (.NumberValue 1)) = evaluate t
        ∧ evaluate (.Binary .OperatorMul (.NumberValue 1) t) = evaluate t
        ∧ evaluate (.Binary .OperatorPlus (.NumberValue 0) t) = evaluate t
        ∧ evaluate (.Binary .OperatorPlus t (.NumberValue 0)) = evaluate t)
    ∧ (parse "1+2+3+4".toList).map evaluate = .ok 10
    ∧ (parse "1/2/3/4".toList).map evaluate = .ok (1 / 24)
    ∧ (parse "5/(4+3)/2".toList).map evaluate = .ok (5 / 14)
    ∧ (∀ (α : Type) (A : Arithmetic α), A.Neutral →
        (parse "1+2+3+4".toList).map (evaluateIn A)
          = .ok (A.add (A.num 1) (A.add (A.add (A.num 4) (A.num 3)) (A.num 2)))
        ∧ (parse "1/2/3/4".toList).map (evaluateIn A)
          = .ok (A.add (A.div (A.div (A.div (A.num 1) (A.num 4)) (A.num 3)) (A.num 2))
              (A.num 0))
        ∧ (parse "5/(4+3)/2".toList).map (evaluateIn A)
          = .ok (A.add (A.mul (A.num 5)
              (A.div (A.div (A.num 1) (A.num 2)) (A.add (A.num 4) (A.num 3)))) (A.num 0)))
    ∧ (longLiteral.wf ∧ parse longLiteral.text = .error .bufferOverrun) := by
  have hgen : ∀ (α : Type) (A : Arithmetic α), A.Neutral →
      (parse "1+2+3+4".toList).map (evaluateIn A)
        = .ok (A.add (A.num 1) (A.add (A.add (A.num 4) (A.num 3)) (A.num 2)))
      ∧ (parse "1/2/3/4".toList).map (evaluateIn A)
        = .ok (A.add (A.div (A.div (A.div (A.num 1) (A.num 4)) (A.num 3)) (A.num 2))
            (A.num 0))
      ∧ (parse "5/(4+3)/2".toList).map (evaluateIn A)
        = .ok (A.add (A.mul (A.num 5)
            (A.div (A.div (A.num 1) (A.num 2)) (A.add (A.num 4) (A.num 3)))) (A.num 0)) := by
    intro α A hA
    have h4 := hA.zero_add 4 (by norm_num)
    have h3 := hA.zero_add 3 (by norm_num)
    refine ⟨?_, ?_, ?_⟩
    all_goals
      simp [parse, Parse, Parser.fresh, GetNextToken, SkipWhitespaces, scanWhile, isspace,
        isdigit, charAt, GetNumber, atof, digitsValue, symbolType, Expression, Expression1, Term,
        Term1, Factor, Match, CreateNode, CreateNodeNumber, CreateUnaryNode, bind, Except.bind,
        pure, Except.pure, Except.map, evaluateIn, hA.mul_one, hA.one_mul, h4, h3]
  refine ⟨fun a hok => parse_print a.toExp (Arith_toExp_litsOk a hok), parse_print,
    fun t => by simp [evaluate], ?_, ?_, ?_, hgen, ?_, ?_⟩
  · simp [parse, Parse, Parser.fresh, GetNextToken, SkipWhitespaces, scanWhile, isspace, isdigit,
      charAt, GetNumber, atof, digitsValue, symbolType, Expression, Expression1, Term, Term1,
      Factor, Match, CreateNode, CreateNodeNumber, CreateUnaryNode, bind, Except.bind, pure,
      Except.pure, Except.map, evaluate]
    norm_num
  · simp [parse, Parse, Parser.fresh, GetNextToken, SkipWhitespaces, scanWhile, isspace, isdigit,
      charAt, GetNumber, atof, digitsValue, symbolType, Expression, Expression1, Term, Term1,
      Factor, Match, CreateNode, CreateNodeNumber, CreateUnaryNode, bind, Except.bind, pure,
      Except.pure, Except.map, evaluate]
    norm_num
  · simp [parse, Parse, Parser.fresh, GetNextToken, SkipWhitespaces, scanWhile, isspace, isdigit,
      charAt, GetNumber, atof, digitsValue, symbolType, Expression, Expression1, Term, Term1,
      Factor, Match, CreateNode, CreateNodeNumber, CreateUnaryNode, bind, Except.bind, pure,
      Except.pure, Except.map, evaluate]
    norm_num
  · decide
  · simp [longLiteral, Literal.text, parse, Parse, Parser.fresh, GetNextToken, SkipWhitespaces,
      scanWhile, isspace, isdigit, charAt, GetNumber, symbolType, bind, Except.bind, Except.map]

/-- C2: for all number literals `a`, `b`, `c`, `d` that are well formed and
at most 31 characters long, `parse` of `a+b*c+d` returns the tree
`Add(Mul(a, 1), Add(Add(0, Mul(d, 1)), Mul(b, Mul(1, c))))`, in which the
product of `b` and `c` is an operand of the sums; in every arithmetic that
obeys the laws of the neutral elements the tree evaluates to
`a + (d + b * c)`. `1+2*3+4` evaluates to 11. With the literal `longLiteral`
of 37 characters for `d`, `GetNumber` overruns its buffer. -/
theorem C2_multiplication_binds_tighter :
    (∀ a b c d : Literal, a.wf ∧ a.fits → b.wf ∧ b.fits → c.wf ∧ c.fits → d.wf ∧ d.fits →
      parse (a.text ++ ['+'] ++ b.text ++ ['*'] ++ c.text ++ ['+'] ++ d.text)
        = .ok (.Binary .OperatorPlus
            (.Binary .OperatorMul (.NumberValue a.value) (.NumberValue 1))
            (.Binary .OperatorPlus
              (.Binary .OperatorPlus (.NumberValue 0)
                (.Binary .OperatorMul (.NumberValue d.value) (.NumberValue 1)))
              (.Binary .OperatorMul (.NumberValue b.value)
                (.Binary .OperatorMul (.NumberValue 1) (.NumberValue c.value)))))
      ∧ ∀ (α : Type) (A : Arithmetic α), A.Neutral →
        evaluateIn A (.Binary .OperatorPlus
            (.Binary .OperatorMul (.NumberValue a.value) (.NumberValue 1))
            (.Binary .OperatorPlus
              (.Binary .OperatorPlus (.NumberValue 0)
                (.Binary .OperatorMul (.NumberValue d.value) (.NumberValue 1)))
              (.Binary .OperatorMul (.NumberValue b.value)
                (.Binary .OperatorMul (.NumberValue 1) (.NumberValue c.value)))))
          = A.add (A.num a.value)
              (A.add (A.num d.value) (A.mul (A.num b.value) (A.num c.value))))
    ∧ (parse "1+2*3+4".toList).map evaluate = .ok 11
    ∧ parse ("1+2*3+".toList ++ longLiteral.text) = .error .bufferOverrun := by
  refine ⟨?_, ?_, ?_⟩
  · intro a b c d ha hb hc hd
    constructor
    · have h := parse_print
        (.mk (litTerm a) (.plus (.mk (.num b) (.mul (.num c) .eps)) (.plus (litTerm d) .eps)))
        (by simp [Exp.litsOk, Exp1.litsOk, Trm.litsOk, Trm1.litsOk, Fac.litsOk, litTerm, ha, hb,
          hc, hd])
      simpa [Exp.print, Exp1.print, Trm.print, Trm1.print, Fac.print, litTerm, Exp.tree,
        Exp1.tree, Trm.tree, Trm1.tree, Fac.tree, CreateNode, CreateNodeNumber] using h
    · intro α A hA
      simp only [evaluateIn]
      rw [hA.mul_one, hA.mul_one, hA.one_mul, hA.zero_add _ (Literal_value_nonneg d)]
  · simp [parse, Parse, Parser.fresh, GetNextToken, SkipWhitespaces, scanWhile, isspace, isdigit,
      charAt, GetNumber, atof, digitsValue, symbolType, Expression, Expression1, Term, Term1,
      Factor, Match, CreateNode, CreateNodeNumber, CreateUnaryNode, bind, Except.bind, pure,
      Except.pure, Except.map, evaluate]
    norm_num
  · simp [longLiteral, Literal.text, parse, Parse, Parser.fresh, GetNextToken, SkipWhitespaces,
      scanWhile, isspace, isdigit, charAt, GetNumber, atof, digitsValue, symbolType, Expression,
      Expression1, Term, Term1, Factor, Match, CreateNode, CreateNodeNumber, CreateUnaryNode,
      bind, Except.bind, pure, Except.pure, Except.map]

theorem minusChain_print (ls : List Literal) : (minusChain ls).print = minusText ls := by
  induction ls with
  | nil => rfl
  | cons l ls ih =>
    simp [minusChain, minusText, Exp1.print, Trm.print, Trm1.print, Fac.print, litTerm, ih]

/-- In exact arithmetic the chain `-n1-...-nk` subtracts its literals from the
left. -/
theorem minusChain_value (ls : List Literal) (acc : ℚ) :
    (minusChain ls).value acc = ls.foldl (fun v l => v - l.value) acc := by
  induction ls generalizing acc with
  | nil => rfl
  | cons l ls ih =>
    simp [minusChain, Exp1.value, Trm.value, Trm1.value, Fac.value, litTerm, ih]

theorem minusChain_litsOk (ls : List Literal) (h : ∀ l ∈ ls, l.wf ∧ l.fits) :
    (minusChain ls).litsOk := by
  induction ls with
  | nil => trivial
  | cons l ls ih =>
    simp only [List.mem_cons, forall_eq_or_imp] at h
    simp [minusChain, Exp1.litsOk, Trm.litsOk, Trm1.litsOk, Fac.litsOk, litTerm, h.1, ih h.2]

theorem minusChain_tree_evaluateIn {α : Type} (A : Arithmetic α) (hA : A.Neutral)
    (ns : List Literal) :
    evaluateIn A (minusChain ns).tree
      = ns.foldr (fun l acc => A.sub acc (A.num l.value)) (A.num 0) := by
  induction ns with
  | nil => rfl
  | cons l ls ih =>
    simp [minusChain, Exp1.tree, Trm.tree, Trm1.tree, Fac.tree, litTerm, CreateNode,
      CreateNodeNumber, evaluateIn, ih, hA.mul_one]

/-- C3: for every non-empty list `n1, ..., nk` of number literals that are
well formed and at most 31 characters long, `parse` of `n1-n2-...-nk`
succeeds, and in every arithmetic that obeys the laws of the neutral elements
the tree evaluates to `n1 + ((((0 - nk) - ...) - n3) - n2)`: the literals
behind the first are subtracted from `0`, the last of them first, and the
result is added to `n1`. `1-2-3-4` evaluates to -8. With the literal
`longLiteral` of 37 characters in the list, `GetNumber` overruns its
buffer. -/
theorem C3_subtraction_left_associative :
    (∀ (n1 : Literal) (ns : List Literal), (∀ l ∈ n1 :: ns, l.wf ∧ l.fits) →
      ∃ tree, parse (n1.text ++ minusText ns) = .ok tree
        ∧ ∀ (α : Type) (A : Arithmetic α), A.Neutral →
          evaluateIn A tree = A.add (A.num n1.value)
            (ns.foldr (fun l acc => A.sub acc (A.num l.value)) (A.num 0)))
    ∧ (parse "1-2-3-4".toList).map evaluate = .ok (-8)
    ∧ parse ("1-".toList ++ longLiteral.text) = .error .bufferOverrun := by
  refine ⟨?_, ?_, ?_⟩
  · intro n1 ns h
    simp only [List.mem_cons, forall_eq_or_imp] at h
    have hp := parse_print (.mk (litTerm n1) (minusChain ns))
      (by simp [Exp.litsOk, Trm.litsOk, Trm1.litsOk, Fac.litsOk, litTerm, h.1,
        minusChain_litsOk ns h.2])
    refine ⟨_, by simpa [Exp.print, Trm.print, Trm1.print, Fac.print, litTerm,
      minusChain_print] using hp, ?_⟩
    intro α A hA
    simp [Exp.tree, Trm.tree, Trm1.tree, Fac.tree, litTerm, CreateNode, CreateNodeNumber,
      evaluateIn, hA.mul_one, minusChain_tree_evaluateIn A hA]
  · simp [parse, Parse, Parser.fresh, GetNextToken, SkipWhitespaces, scanWhile, isspace, isdigit,
      charAt, GetNumber, atof, digitsValue, symbolType, Expression, Expression1, Term, Term1,
      Factor, Match, CreateNode, CreateNodeNumber, CreateUnaryNode, bind, Except.bind, pure,
      Except.pure, Except.map, evaluate]
    norm_num
  · simp [longLiteral, Literal.text, parse, Parse, Parser.fresh, GetNextToken, SkipWhitespaces,
      scanWhile, isspace, isdigit, charAt, GetNumber, atof, digitsValue, symbolType, Expression,
      Expression1, Term, Term1, Factor, Match, CreateNode, CreateNodeNumber, CreateUnaryNode,
      bind, Except.bind, pure, Except.pure, Except.map]

/-- C4: for all number literals `a`, `b`, `c`, `d` that are well formed and
at most 31 characters long, `parse` of `(a+b)*(c+d)` succeeds and the tree
evaluates to `(a + b) * (c + d)`; `(1+2)*(3+4)` evaluates to 21. With the
literal `longLiteral` of 37 characters for `d`, `GetNumber` overruns its
buffer. -/
theorem C4_parentheses_override_precedence :
    (∀ a b c d : Literal, a.wf ∧ a.fits → b.wf ∧ b.fits → c.wf ∧ c.fits → d.wf ∧ d.fits →
      ∃ tree, parse (['('] ++ a.text ++ ['+'] ++ b.text ++ [')', '*', '('] ++ c.text ++ ['+']
          ++ d.text ++ [')']) = .ok tree
        ∧ evaluate tree = (a.value + b.value) * (c.value + d.value))
    ∧ (parse "(1+2)*(3+4)".toList).map evaluate = .ok 21
    ∧ parse ("(1+2)*(3+".toList ++ longLiteral.text ++ [')']) = .error .bufferOverrun := by
  refine ⟨?_, ?_, ?_⟩
  · intro a b c d ha hb hc hd
    have h := parse_print_value
      (.mk (.mk (.paren (.mk (litTerm a) (.plus (litTerm b) .eps)))
        (.mul (.paren (.mk (litTerm c) (.plus (litTerm d) .eps))) .eps)) .eps)
      (by simp [Exp.litsOk, Exp1.litsOk, Trm.litsOk, Trm1.litsOk, Fac.litsOk, litTerm, ha, hb, hc,
        hd])
    simpa [Exp.print, Exp1.print, Trm.print, Trm1.print, Fac.print, litTerm, Exp.value,
      Exp1.value, Trm.value, Trm1.value, Fac.value] using h
  · simp [parse, Parse, Parser.fresh, GetNextToken, SkipWhitespaces, scanWhile, isspace, isdigit,
      charAt, GetNumber, atof, digitsValue, symbolType, Expression, Expression1, Term, Term1,
      Factor, Match, CreateNode, CreateNodeNumber, CreateUnaryNode, bind, Except.bind, pure,
      Except.pure, Except.map, evaluate]
    norm_num
  · simp [longLiteral, Literal.text, parse, Parse, Parser.fresh, GetNextToken, SkipWhitespaces,
      scanWhile, isspace, isdigit, charAt, GetNumber, atof, digitsValue, symbolType, Expression,
      Expression1, Term, Term1, Factor, Match, CreateNode, CreateNodeNumber, CreateUnaryNode,
      bind, Except.bind, pure, Except.pure, Except.map]

/-- C5: for all number literals `a`, `b` that are well formed and at most 31
characters long, `parse` of `-a+b` succeeds with a tree that evaluates to
`(-a) + b`, and `parse` of `-a+(-b)` with a tree that evaluates to `-a - b`;
`-1+(-2.0)` evaluates to -3 and `-1` to -1. With the literal `longLiteral` of
37 characters for `b`, `GetNumber` overruns its buffer. -/
theorem C5_unary_minus_binds_tightest :
    (∀ a b : Literal, a.wf ∧ a.fits → b.wf ∧ b.fits →
      (∃ tree, parse (['-'] ++ a.text ++ ['+'] ++ b.text) = .ok tree
        ∧ evaluate tree = (- a.value) + b.value)
      ∧ (∃ tree, parse (['-'] ++ a.text ++ ['+', '(', '-'] ++ b.text ++ [')']) = .ok tree
        ∧ evaluate tree = - a.value - b.value))
    ∧ (parse "-1+(-2.0)".toList).map evaluate = .ok (-3)
    ∧ (parse "-1".toList).map evaluate = .ok (-1)
    ∧ parse ("-1+".toList ++ longLiteral.text) = .error .bufferOverrun := by
  refine ⟨?_, ?_, ?_, ?_⟩
  · intro a b ha hb
    have h1 := parse_print_value
      (.mk (.mk (.neg (.num a)) .eps) (.plus (litTerm b) .eps))
      (by simp [Exp.litsOk, Exp1.litsOk, Trm.litsOk, Trm1.litsOk, Fac.litsOk, litTerm, ha, hb])
    have h2 := parse_print_value
      (.mk (.mk (.neg (.num a)) .eps)
        (.plus (.mk (.paren (.mk (.mk (.neg (.num b)) .eps) .eps)) .eps) .eps))
      (by simp [Exp.litsOk, Exp1.litsOk, Trm.litsOk, Trm1.litsOk, Fac.litsOk, ha, hb])
    constructor
    · simpa [Exp.print, Exp1.print, Trm.print, Trm1.print, Fac.print, litTerm, Exp.value,
        Exp1.value, Trm.value, Trm1.value, Fac.value] using h1
    · simpa [Exp.print, Exp1.print, Trm.print, Trm1.print, Fac.print, litTerm, Exp.value,
        Exp1.value, Trm.value, Trm1.value, Fac.value, sub_eq_add_neg] using h2
  · simp [parse, Parse, Parser.fresh, GetNextToken, SkipWhitespaces, scanWhile, isspace, isdigit,
      charAt, GetNumber, atof, digitsValue, symbolType, Expression, Expression1, Term, Term1,
      Factor, Match, CreateNode, CreateNodeNumber, CreateUnaryNode, bind, Except.bind, pure,
      Except.pure, Except.map, evaluate]
    norm_num
  · simp [parse, Parse, Parser.fresh, GetNextToken, SkipWhitespaces, scanWhile, isspace, isdigit,
      charAt, GetNumber, atof, digitsValue, symbolType, Expression, Expression1, Term, Term1,
      Factor, Match, CreateNode, CreateNodeNumber, CreateUnaryNode, bind, Except.bind, pure,
      Except.pure, Except.map, evaluate]
  · simp [longLiteral, Literal.text, parse, Parse, Parser.fresh, GetNextToken, SkipWhitespaces,
      scanWhile, isspace, isdigit, charAt, GetNumber, atof, digitsValue, symbolType, Expression,
      Expression1, Term, Term1, Factor, Match, CreateNode, CreateNodeNumber, CreateUnaryNode,
      bind, Except.bind, pure, Except.pure, Except.map]

/-- C6, as stated, fails: the tree `parse` returns for `1-2-3` is not
`BinaryOp(Sub, BinaryOp(Sub, 1, 2), 3)`. -/
theorem C6_counterexample :
    parse "1-2-3".toList ≠ .ok (.Binary .OperatorMinus
      (.Binary .OperatorMinus (.NumberValue 1) (.NumberValue 2)) (.NumberValue 3)) := by
  simp [parse, Parse, Parser.fresh, GetNextToken, SkipWhitespaces, scanWhile, isspace, isdigit,
    charAt, GetNumber, atof, digitsValue, symbolType, Expression, Expression1, Term, Term1,
    Factor, Match, CreateNode, CreateNodeNumber, CreateUnaryNode, bind, Except.bind, pure,
    Except.pure, Except.map]

/-- C6, amended: for all number literals `a`, `b`, `c` that are well formed
and at most 31 characters long, `parse` of `a-b-c` returns the tree
`Add(Mul(a, 1), Sub(Sub(0, Mul(c, 1)), Mul(b, 1)))`, built by the semantic
rules in the header of `Parser.h`; it is neither the tree
`Sub(Sub(a, b), c)` nor the tree `Sub(a, Sub(b, c))`. -/
theorem C6_tree_of_subtraction (a b c : Literal) (ha : a.wf ∧ a.fits) (hb : b.wf ∧ b.fits)
    (hc : c.wf ∧ c.fits) :
    parse (a.text ++ ['-'] ++ b.text ++ ['-'] ++ c.text) = .ok (.Binary .OperatorPlus
        (.Binary .OperatorMul (.NumberValue a.value) (.NumberValue 1))
        (.Binary .OperatorMinus
          (.Binary .OperatorMinus (.NumberValue 0)
            (.Binary .OperatorMul (.NumberValue c.value) (.NumberValue 1)))
          (.Binary .OperatorMul (.NumberValue b.value) (.NumberValue 1))))
    ∧ parse (a.text ++ ['-'] ++ b.text ++ ['-'] ++ c.text) ≠ .ok (.Binary .OperatorMinus
        (.Binary .OperatorMinus (.NumberValue a.value) (.NumberValue b.value))
        (.NumberValue c.value))
    ∧ parse (a.text ++ ['-'] ++ b.text ++ ['-'] ++ c.text) ≠ .ok (.Binary .OperatorMinus
        (.NumberValue a.value)
        (.Binary .OperatorMinus (.NumberValue b.value) (.NumberValue c.value))) := by
  have h := parse_print
    (.mk (litTerm a) (.minus (litTerm b) (.minus (litTerm c) .eps)))
    (by simp [Exp.litsOk, Exp1.litsOk, Trm.litsOk, Trm1.litsOk, Fac.litsOk, litTerm, ha, hb, hc])
  have htree : parse (a.text ++ ['-'] ++ b.text ++ ['-'] ++ c.text) = .ok (.Binary .OperatorPlus
        (.Binary .OperatorMul (.NumberValue a.value) (.NumberValue 1))
        (.Binary .OperatorMinus
          (.Binary .OperatorMinus (.NumberValue 0)
            (.Binary .OperatorMul (.NumberValue c.value) (.NumberValue 1)))
          (.Binary .OperatorMul (.NumberValue b.value) (.NumberValue 1)))) := by
    simpa [Exp.print, Exp1.print, Trm.print, Trm1.print, Fac.print, litTerm, Exp.tree,
      Exp1.tree, Trm.tree, Trm1.tree, Fac.tree, CreateNode, CreateNodeNumber] using h
  refine ⟨htree, ?_, ?_⟩ <;>
    (rw [htree]; intro hne; cases hne)

/-- The amended C6 at the literals `1`, `2`, `3`. -/
theorem C6_tree_of_subtraction_witness :
    (lit1.wf ∧ lit1.fits) ∧ (lit2.wf ∧ lit2.fits) ∧ (lit3.wf ∧ lit3.fits) ∧
    (parse (lit1.text ++ ['-'] ++ lit2.text ++ ['-'] ++ lit3.text) = .ok (.Binary .OperatorPlus
        (.Binary .OperatorMul (.NumberValue lit1.value) (.NumberValue 1))
        (.Binary .OperatorMinus
          (.Binary .OperatorMinus (.NumberValue 0)
            (.Binary .OperatorMul (.NumberValue lit3.value) (.NumberValue 1)))
          (.Binary .OperatorMul (.NumberValue lit2.value) (.NumberValue 1))))
    ∧ parse (lit1.text ++ ['-'] ++ lit2.text ++ ['-'] ++ lit3.text)
      ≠ .ok (.Binary .OperatorMinus
        (.Binary .OperatorMinus (.NumberValue lit1.value) (.NumberValue lit2.value))
        (.NumberValue lit3.value))
    ∧ parse (lit1.text ++ ['-'] ++ lit2.text ++ ['-'] ++ lit3.text)
      ≠ .ok (.Binary .OperatorMinus
        (.NumberValue lit1.value)
        (.Binary .OperatorMinus (.NumberValue lit2.value) (.NumberValue lit3.value)))) :=
  ⟨by decide, by decide, by decide,
    C6_tree_of_subtraction lit1 lit2 lit3 (by decide) (by decide) (by decide)⟩

theorem charAt_cons_length (c : Char) (l : List Char) (h : l ≠ []) :
    charAt (c :: l) l.length = l.getLast h := by
  unfold charAt
  obtain ⟨n, hn⟩ : ∃ n, l.length = n + 1 :=
    ⟨l.length - 1, by have := List.length_pos.2 h; omega⟩
  rw [List.getLast_eq_getElem]
  simp [hn, List.getD_eq_getElem?_getD]

mutual

theorem Exp_print_ne_nil : ∀ e : Exp, e.litsOk → e.print ≠ []
  | .mk t e1, hok => by
    simp only [Exp.litsOk] at hok
    simp [Exp.print, Trm_print_ne_nil t hok.1]

theorem Trm_print_ne_nil : ∀ t : Trm, t.litsOk → t.print ≠ []
  | .mk f t1, hok => by
    simp only [Trm.litsOk] at hok
    simp [Trm.print, Fac_print_ne_nil f hok.1]

theorem Fac_print_ne_nil : ∀ f : Fac, f.litsOk → f.print ≠ []
  | .paren e, _ => by simp [Fac.print]
  | .neg f, _ => by simp [Fac.print]
  | .num l, hok => by
    simp only [Fac.litsOk] at hok
    have := Literal_text_length_pos l hok.1
    simp only [Fac.print]
    exact List.length_pos.1 this

end

theorem Parse_open_print (p : Parser) (e : Exp) (hok : e.litsOk) :
    Parse p ('(' :: e.print) =
      if e.print.getLast? = some ')' then
        .ok (.Binary .OperatorPlus (.Binary .OperatorMul e.tree (.NumberValue 1)) (.NumberValue 0),
          ⟨⟨.EndOfText, 0, Char.ofNat 0⟩, '(' :: e.print, e.print.length + 1⟩)
      else .error (.thrown ⟨.ExpectedToken ')', e.print.length + 1⟩) := by
  have hne := Exp_print_ne_nil e hok
  have hd := Exp_depth_le e hok
  have h0 : lex ('(' :: e.print) 0 = _ := lex_symbol (c := '(') (r := e.print) (by simp) (by simp)
  have hT1 : ('(' :: e.print).drop (0 + 1) = e.print ++ [] := by simp
  have hend : ('(' :: e.print).drop (e.print.length + 1) = [] := by simp
  have hrun := Expression_runs e ('(' :: e.print) (0 + 1) [] (3 * e.print.length + 8) hok hT1
    Boundary_nil (StopE_of_nil (by simpa [Nat.add_comm] using hend)) (by omega)
  unfold Runs at hrun
  have hidx : 0 + 1 + e.print.length = e.print.length + 1 := by omega
  rw [hidx, lex_nil hend] at hrun
  have hfuel : 3 * ('(' :: e.print).length + 8 = (3 * e.print.length + 8) + 1 + 1 + 1 := by
    simp; omega
  have hch := charAt_cons_length '(' e.print hne
  have hlast : e.print.getLast? = some (e.print.getLast hne) := List.getLast?_eq_getLast _ hne
  obtain ⟨q1, hq1, hE⟩ : ∃ q1, lex ('(' :: e.print) (0 + 1) = .ok q1 ∧
      Expression (3 * e.print.length + 8) q1 = .ok (e.tree,
        ⟨⟨.EndOfText, 0, Char.ofNat 0⟩, '(' :: e.print, e.print.length + 1⟩) := by
    cases h1 : lex ('(' :: e.print) (0 + 1) with
    | error f => rw [h1] at hrun; cases hrun
    | ok q1 => rw [h1] at hrun; exact ⟨q1, rfl, hrun⟩
  rw [Parse_eq, hfuel, h0, ok_bind, Expression_succ, Term_succ, Factor_OpenParenthesis _ _ rfl,
    GetNextToken_eq_lex]
  simp only [hq1, ok_bind, hE, Match, Nat.add_sub_cancel, hch, GetNextToken_eq_lex, lex_nil hend]
  by_cases hc : e.print.getLast hne = ')'
  · have h1 : e.print.getLast? = some ')' := by rw [hlast, hc]
    simp only [h1, hc, if_true, ok_bind]
    rw [show (pure (e.tree, (⟨⟨.EndOfText, 0, Char.ofNat 0⟩, '(' :: e.print,
        e.print.length + 1⟩ : Parser)) : Except Failure (ASTNode × Parser)) = .ok _ from rfl,
      ok_bind, Term1_other _ _ (by simp) (by simp), ok_bind]
    rw [show (pure (CreateNode .OperatorMul e.tree (CreateNodeNumber 1),
        (⟨⟨.EndOfText, 0, Char.ofNat 0⟩, '(' :: e.print, e.print.length + 1⟩ : Parser))
        : Except Failure (ASTNode × Parser)) = .ok _ from rfl,
      ok_bind, Expression1_other _ _ (by simp) (by simp), ok_bind]
    rfl
  · have h1 : ¬ e.print.getLast? = some ')' := by rw [hlast]; simpa using hc
    simp only [h1, hc, if_false]
    rfl

set_option maxRecDepth 8000 in
/-- C7: `parse` accepts `((1)`, whose first parenthesis is never closed, and
returns a tree; `(1+2` is rejected with `ExpectedToken(')')` at position 4.
In general, for a complete expression `e` whose literals are well formed and
at most 31 characters long, `parse` of `(` followed by `e` is rejected with
`ExpectedToken(')')` only when `e` does not end in `)`; when it does, `parse`
succeeds with the tree of `e` wrapped in the neutral nodes. -/
theorem C7_unclosed_parenthesis :
    parse "((1)".toList = .ok (.Binary .OperatorPlus
        (.Binary .OperatorMul
          (.Binary .OperatorPlus
            (.Binary .OperatorMul
              (.Binary .OperatorPlus (.Binary .OperatorMul (.NumberValue 1) (.NumberValue 1))
                (.NumberValue 0))
              (.NumberValue 1))
            (.NumberValue 0))
          (.NumberValue 1))
        (.NumberValue 0))
    ∧ parse "(1+2".toList = .error (.thrown ⟨.ExpectedToken ')', 4⟩)
    ∧ (∀ e : Exp, e.litsOk →
        parse ('(' :: e.print) =
          if e.print.getLast? = some ')' then
            .ok (.Binary .OperatorPlus (.Binary .OperatorMul e.tree (.NumberValue 1))
              (.NumberValue 0))
          else .error (.thrown ⟨.ExpectedToken ')', e.print.length + 1⟩)) := by
  refine ⟨?_, ?_, ?_⟩
  · simp [parse, Parse, Parser.fresh, GetNextToken, SkipWhitespaces, scanWhile, isspace, isdigit,
      charAt, GetNumber, atof, digitsValue, symbolType, Expression, Expression1, Term, Term1,
      Factor, Match, CreateNode, CreateNodeNumber, CreateUnaryNode, bind, Except.bind, pure,
      Except.pure, Except.map]
  · simp [parse, Parse, Parser.fresh, GetNextToken, SkipWhitespaces, scanWhile, isspace, isdigit,
      charAt, GetNumber, atof, digitsValue, symbolType, Expression, Expression1, Term, Term1,
      Factor, Match, CreateNode, CreateNodeNumber, CreateUnaryNode, bind, Except.bind, pure,
      Except.pure, Except.map]
  · intro e hok
    rw [parse, Parse_open_print Parser.fresh e hok]
    split <;> rfl


/-! ## Propagation of failures -/

theorem error_bind {α β : Type} (e : Failure) (f : α → Except Failure β) :
    (Except.error e >>= f) = .error e := rfl

theorem Invokes_error {c d : Call} (h : Invokes c d) {e : Failure} (hd : d.result = .error e) :
    c.result = .error e := by
  cases h with
  | expression_term k p =>
    simp only [Call.result] at hd ⊢
    rw [Expression_succ, hd, error_bind]
  | expression_expression1 k p p1 tnode h =>
    simp only [Call.result] at hd ⊢
    rw [Expression_succ, h, ok_bind, hd, error_bind]
  | expression1_term k p p1 hk h =>
    simp only [Call.result] at hd ⊢
    rcases hk with hk | hk
    · rw [Expression1_Plus k p hk, h, ok_bind, hd, error_bind]
    · rw [Expression1_Minus k p hk, h, ok_bind, hd, error_bind]
  | expression1_expression1 k p p1 p2 tnode hk h h1 =>
    simp only [Call.result] at hd ⊢
    rcases hk with hk | hk
    · rw [Expression1_Plus k p hk, h, ok_bind, h1, ok_bind, hd, error_bind]
    · rw [Expression1_Minus k p hk, h, ok_bind, h1, ok_bind, hd, error_bind]
  | term_factor k p =>
    simp only [Call.result] at hd ⊢
    rw [Term_succ, hd, error_bind]
  | term_term1 k p p1 fnode h =>
    simp only [Call.result] at hd ⊢
    rw [Term_succ, h, ok_bind, hd, error_bind]
  | term1_factor k p p1 hk h =>
    simp only [Call.result] at hd ⊢
    rcases hk with hk | hk
    · rw [Term1_Mul k p hk, h, ok_bind, hd, error_bind]
    · rw [Term1_Div k p hk, h, ok_bind, hd, error_bind]
  | term1_term1 k p p1 p2 fnode hk h h1 =>
    simp only [Call.result] at hd ⊢
    rcases hk with hk | hk
    · rw [Term1_Mul k p hk, h, ok_bind, h1, ok_bind, hd, error_bind]
    · rw [Term1_Div k p hk, h, ok_bind, h1, ok_bind, hd, error_bind]
  | factor_expression k p p1 hk h =>
    simp only [Call.result] at hd ⊢
    rw [Factor_OpenParenthesis k p hk, h, ok_bind, hd, error_bind]
  | factor_factor k p p1 hk h =>
    simp only [Call.result] at hd ⊢
    rw [Factor_Minus k p hk, h, ok_bind, hd, error_bind]

theorem Reads_error {c : Call} {q : Parser} (h : Reads c q) {e : Failure}
    (hq : GetNextToken q = .error e) : c.result = .error e := by
  cases h with
  | expression1 k p hk =>
    simp only [Call.result]
    rcases hk with hk | hk
    · rw [Expression1_Plus k _ hk, hq, error_bind]
    · rw [Expression1_Minus k _ hk, hq, error_bind]
  | term1 k p hk =>
    simp only [Call.result]
    rcases hk with hk | hk
    · rw [Term1_Mul k _ hk, hq, error_bind]
    · rw [Term1_Div k _ hk, hq, error_bind]
  | factor k p hk =>
    simp only [Call.result]
    rcases hk with hk | hk | hk
    · rw [Factor_OpenParenthesis k _ hk, hq, error_bind]
    · rw [Factor_Minus k _ hk, hq, error_bind]
    · rw [Factor_Number k _ hk, hq, error_bind]
  | factor_match k p p1 p2 node hk h h1 hc =>
    simp only [Call.result]
    rw [Factor_OpenParenthesis k p hk, h, ok_bind, h1, ok_bind]
    simp only [Match, hc, if_true, hq, error_bind]

theorem Reaches_error {text : List Char} {q0 : Parser} {c : Call} (h : Reaches text q0 c)
    {e : Failure} (hc : c.result = .error e) : (entry text q0).result = .error e := by
  unfold Reaches at h
  induction h with
  | refl => exact hc
  | tail _ hstep ih => exact ih (Invokes_error hstep hc)

theorem Parse_of_entry (p0 : Parser) (text : List Char) (q0 : Parser)
    (h0 : GetNextToken { p0 with m_Text := text, m_Index := 0 } = .ok q0) :
    Parse p0 text = (entry text q0).result := by
  simp only [Parse, h0, entry, Call.result]
  rfl

theorem GetNextToken_unexpected (q : Parser)
    (hnul : charAt q.m_Text (SkipWhitespaces q).m_Index ≠ Char.ofNat 0)
    (hdig : isdigit (charAt q.m_Text (SkipWhitespaces q).m_Index) = false)
    (hsym : charAt q.m_Text (SkipWhitespaces q).m_Index ∉ ['+', '-', '*', '/', '(', ')']) :
    GetNextToken q = .error (.thrown
      ⟨.UnexpectedToken (charAt q.m_Text (SkipWhitespaces q).m_Index),
        (SkipWhitespaces q).m_Index⟩) := by
  have htext : (SkipWhitespaces q).m_Text = q.m_Text := rfl
  simp only [List.mem_cons, List.mem_singleton, List.not_mem_nil, or_false, not_or] at hsym
  obtain ⟨h1, h2, h3, h4, h5, h6⟩ := hsym
  have hty : symbolType (charAt q.m_Text (SkipWhitespaces q).m_Index) = .Error := by
    simp [symbolType, h1, h2, h3, h4, h5, h6]
  simp only [GetNextToken, htext, hnul, if_false, hdig, hty]
  simp

theorem Parse_first_error (p0 : Parser) (q : Parser) (hq : q.m_Index = 0) (e : Failure)
    (h : GetNextToken q = .error e) : Parse p0 q.m_Text = .error e := by
  rw [GetNextToken_eq_lex, hq] at h
  rw [Parse_eq, h, error_bind]

theorem Parse_reads_error (p0 : Parser) (text : List Char) (q0 : Parser) (c : Call)
    (q : Parser) (e : Failure)
    (h0 : GetNextToken { p0 with m_Text := text, m_Index := 0 } = .ok q0)
    (hreach : Reaches text q0 c) (hreads : Reads c q) (h : GetNextToken q = .error e) :
    Parse p0 text = .error e := by
  rw [Parse_of_entry p0 text q0 h0]
  exact Reaches_error hreach (Reads_error hreads h)

set_option maxRecDepth 8000 in
/-- C8: when the character the lexer stands on after skipping whitespace is
neither the end of the text, nor a digit, nor one of `+ - * / ( )`, then
`GetNextToken` fails with `UnexpectedToken` carrying that character and its
index; `Parse` fails with the same error when this is its own first call of
`GetNextToken`, and when it is a call of `GetNextToken` made by a grammar
procedure that the parse reaches. In particular `1*2,5` fails with
`UnexpectedToken` on `,` at index 3. -/
theorem C8_unexpected_character :
    (∀ q : Parser,
      charAt q.m_Text (SkipWhitespaces q).m_Index ≠ Char.ofNat 0 →
      isdigit (charAt q.m_Text (SkipWhitespaces q).m_Index) = false →
      charAt q.m_Text (SkipWhitespaces q).m_Index ∉ ['+', '-', '*', '/', '(', ')'] →
      GetNextToken q = .error (.thrown
          ⟨.UnexpectedToken (charAt q.m_Text (SkipWhitespaces q).m_Index),
            (SkipWhitespaces q).m_Index⟩)
      ∧ (∀ p0 : Parser, q.m_Index = 0 →
          Parse p0 q.m_Text = .error (.thrown
            ⟨.UnexpectedToken (charAt q.m_Text (SkipWhitespaces q).m_Index),
              (SkipWhitespaces q).m_Index⟩))
      ∧ (∀ (p0 q0 : Parser) (c : Call),
          GetNextToken { p0 with m_Text := q.m_Text, m_Index := 0 } = .ok q0 →
          Reaches q.m_Text q0 c → Reads c q →
          Parse p0 q.m_Text = .error (.thrown
            ⟨.UnexpectedToken (charAt q.m_Text (SkipWhitespaces q).m_Index),
              (SkipWhitespaces q).m_Index⟩)))
    ∧ parse "1*2,5".toList = .error (.thrown ⟨.UnexpectedToken ',', 3⟩) := by
  refine ⟨?_, ?_⟩
  · intro q hnul hdig hsym
    have h := GetNextToken_unexpected q hnul hdig hsym
    exact ⟨h, fun p0 hq => Parse_first_error p0 q hq _ h,
      fun p0 q0 c h0 hreach hreads => Parse_reads_error p0 _ q0 c q _ h0 hreach hreads h⟩
  · simp [parse, Parse, Parser.fresh, GetNextToken, SkipWhitespaces, scanWhile, isspace, isdigit,
      charAt, GetNumber, atof, digitsValue, symbolType, Expression, Expression1, Term, Term1,
      Factor, Match, CreateNode, CreateNodeNumber, CreateUnaryNode, bind, Except.bind, pure,
      Except.pure, Except.map]
theorem lex_nil_ws {T : List Char} {i : Nat} {ws : List Char} (h : T.drop i = ws)
    (hws : ws.all isspace = true) :
    lex T i = .ok ⟨⟨.EndOfText, 0, Char.ofNat 0⟩, T, i + ws.length⟩ := by
  have hscan : scanWhile isspace (T.drop i) i = i + ws.length := by
    rw [h]
    simpa using scanWhile_append isspace ws [] i hws (by simp)
  have hdrop : T.drop (i + ws.length) = [] := drop_shift (b := []) (by simpa using h)
  simp [lex, GetNextToken, SkipWhitespaces, hscan, charAt_of_drop_nil hdrop]

theorem lex_symbol_ws {T : List Char} {i : Nat} {ws : List Char} {c : Char} {r : List Char}
    (h : T.drop i = ws ++ c :: r) (hws : ws.all isspace = true)
    (hc : c ∈ ['+', '-', '*', '/', '(', ')']) :
    lex T i = .ok ⟨⟨symbolType c, 0, c⟩, T, i + ws.length + 1⟩ := by
  have hsp : isspace c = false := by
    simp only [List.mem_cons, List.mem_singleton, List.not_mem_nil, or_false] at hc
    rcases hc with rfl | rfl | rfl | rfl | rfl | rfl <;> decide
  have hscan : scanWhile isspace (T.drop i) i = i + ws.length := by
    rw [h]
    exact scanWhile_append isspace ws (c :: r) i hws (by intro c' r' h'; cases h'; exact hsp)
  have hch := charAt_of_drop_cons (drop_shift h)
  simp only [List.mem_cons, List.mem_singleton, List.not_mem_nil, or_false] at hc
  rcases hc with rfl | rfl | rfl | rfl | rfl | rfl <;>
    simp [lex, GetNextToken, SkipWhitespaces, hscan, hch, isdigit, symbolType]

set_option maxRecDepth 8000 in
/-- C8 at the text `1*2,5`: the call of `GetNextToken` that `Factor` makes
after the number `2` stands on `,` at index 3, and `Parse` fails there. -/
theorem C8_unexpected_character_witness :
    Parse Parser.fresh ['1', '*', '2', ',', '5']
      = .error (.thrown ⟨.UnexpectedToken ',', 3⟩) := by
  have h0 : GetNextToken { Parser.fresh with m_Text := ['1', '*', '2', ',', '5'], m_Index := 0 }
      = .ok ⟨⟨.Number, 1, Char.ofNat 0⟩, ['1', '*', '2', ',', '5'], 1⟩ := by
    simp [Parser.fresh, GetNextToken, SkipWhitespaces, scanWhile, isspace, isdigit, charAt,
      GetNumber, atof, digitsValue]
  have hF : Factor 21 ⟨⟨.Number, 1, Char.ofNat 0⟩, ['1', '*', '2', ',', '5'], 1⟩
      = .ok (.NumberValue 1, ⟨⟨.Mul, 0, '*'⟩, ['1', '*', '2', ',', '5'], 2⟩) := by
    simp [Factor, GetNextToken, SkipWhitespaces, scanWhile, isspace, isdigit, charAt, symbolType,
      CreateNodeNumber, bind, Except.bind, pure, Except.pure]
  have hG : GetNextToken ⟨⟨.Mul, 0, '*'⟩, ['1', '*', '2', ',', '5'], 2⟩
      = .ok ⟨⟨.Number, 2, Char.ofNat 0⟩, ['1', '*', '2', ',', '5'], 3⟩ := by
    simp [GetNextToken, SkipWhitespaces, scanWhile, isspace, isdigit, charAt, GetNumber, atof,
      digitsValue]
  have hreach : Reaches ['1', '*', '2', ',', '5']
      ⟨⟨.Number, 1, Char.ofNat 0⟩, ['1', '*', '2', ',', '5'], 1⟩
      ⟨.factor, 20, ⟨⟨.Number, 2, Char.ofNat 0⟩, ['1', '*', '2', ',', '5'], 3⟩⟩ :=
    ((Relation.ReflTransGen.refl.tail (Invokes.expression_term 22 _)).tail
      (Invokes.term_term1 21 _ _ _ hF)).tail (Invokes.term1_factor 20 _ _ (Or.inl rfl) hG)
  have h := (C8_unexpected_character.1
    ⟨⟨.Number, 2, Char.ofNat 0⟩, ['1', '*', '2', ',', '5'], 3⟩
    (by simp [SkipWhitespaces, scanWhile, isspace, charAt])
    (by simp [SkipWhitespaces, scanWhile, isspace, isdigit, charAt])
    (by simp [SkipWhitespaces, scanWhile, isspace, charAt])).2.2 Parser.fresh _ _ h0 hreach
    (Reads.factor 19 _ (Or.inr (Or.inr rfl)))
  simpa [SkipWhitespaces, scanWhile, isspace, charAt] using h

theorem Parse_reject_first (p0 : Parser) (q0 : Parser) (text : List Char)
    (h0 : lex text 0 = .ok q0) (h1 : q0.m_crtToken.Kind ≠ .OpenParenthesis)
    (h2 : q0.m_crtToken.Kind ≠ .Minus) (h3 : q0.m_crtToken.Kind ≠ .Number) :
    Parse p0 text = .error (.thrown ⟨.UnexpectedToken q0.m_crtToken.Symbol, q0.m_Index⟩) := by
  have hfuel : 3 * text.length + 8 = (3 * text.length + 5) + 1 + 1 + 1 := by omega
  rw [Parse_eq, h0, ok_bind, hfuel, Expression_succ, Term_succ, Factor_other _ _ h1 h2 h3]
  rfl

/-- C9, as stated, fails: the position carried by the error for `*1/2.5` is
not 0. -/
theorem C9_counterexample :
    parse "*1/2.5".toList ≠ .error (.thrown ⟨.UnexpectedToken '*', 0⟩) := by
  simp [parse, Parse, Parser.fresh, GetNextToken, SkipWhitespaces, scanWhile, isspace, isdigit,
    charAt, symbolType, Expression, Term, Factor, bind, Except.bind, Except.map]

/-- C9, amended: `parse` of `*1/2.5` fails with `UnexpectedToken` at position
1. When `Factor` rejects the first token of the text, the position carried by
the error is the cursor, which stands just behind that token: when the first
token is `+`, `*`, `/` or `)` the position is the index of the token plus 1,
and when the text holds no token (it is empty or all whitespace) the position
is the length of the text. -/
theorem C9_leading_operator_position :
    parse "*1/2.5".toList = .error (.thrown ⟨.UnexpectedToken '*', 1⟩)
    ∧ (∀ (ws : List Char) (c : Char) (rest : List Char), ws.all isspace = true →
        c ∈ ['+', '*', '/', ')'] →
        parse (ws ++ c :: rest) = .error (.thrown ⟨.UnexpectedToken c, ws.length + 1⟩))
    ∧ (∀ ws : List Char, ws.all isspace = true →
        parse ws = .error (.thrown ⟨.UnexpectedToken (Char.ofNat 0), ws.length⟩)) := by
  have hgen : ∀ (ws : List Char) (c : Char) (rest : List Char), ws.all isspace = true →
      c ∈ ['+', '*', '/', ')'] →
      parse (ws ++ c :: rest) = .error (.thrown ⟨.UnexpectedToken c, ws.length + 1⟩) := by
    intro ws c rest hws hc
    have h0 : lex (ws ++ c :: rest) 0 = _ :=
      lex_symbol_ws (c := c) (r := rest) (by simp) hws (by simp at hc ⊢; tauto)
    simp only [List.mem_cons, List.mem_singleton, List.not_mem_nil, or_false] at hc
    rw [parse, Parse_reject_first Parser.fresh _ _ h0
      (by rcases hc with rfl | rfl | rfl | rfl <;> simp [symbolType])
      (by rcases hc with rfl | rfl | rfl | rfl <;> simp [symbolType])
      (by rcases hc with rfl | rfl | rfl | rfl <;> simp [symbolType])]
    simp [Except.map]
  refine ⟨by simpa using hgen [] '*' "1/2.5".toList (by simp) (by simp), hgen, ?_⟩
  intro ws hws
  rw [parse, Parse_reject_first Parser.fresh _ ws (lex_nil_ws (by simp) hws) (by simp) (by simp)
    (by simp)]
  simp [Except.map]

/-- The amended C9 at the text ` )`, a blank and a closing parenthesis. -/
theorem C9_leading_operator_position_witness :
    ([' '].all isspace = true ∧ ')' ∈ ['+', '*', '/', ')']) ∧
      parse ([' '] ++ [')']) = .error (.thrown ⟨.UnexpectedToken ')', [' '].length + 1⟩) :=
  ⟨⟨by decide, by decide⟩,
    C9_leading_operator_position.2.1 [' '] ')' [] (by decide) (by decide)⟩

set_option maxRecDepth 8000 in
/-- C10: `Factor`, called on a token that is not `(`, `-` or a number, fails
with `UnexpectedToken` carrying the symbol of the token and the cursor, and so
does `Parse` whenever the parse reaches such a call of `Factor`. In particular
`1**2.5`, `1+`, `()`, `-*1` and the empty text all fail with
`UnexpectedToken`. -/
theorem C10_Factor_rejects :
    (∀ (k : Nat) (p : Parser), p.m_crtToken.Kind ≠ .OpenParenthesis →
      p.m_crtToken.Kind ≠ .Minus → p.m_crtToken.Kind ≠ .Number →
      Factor (k + 1) p = .error (.thrown ⟨.UnexpectedToken p.m_crtToken.Symbol, p.m_Index⟩)
      ∧ (∀ (p0 q0 : Parser) (text : List Char),
          GetNextToken { p0 with m_Text := text, m_Index := 0 } = .ok q0 →
          Reaches text q0 ⟨.factor, k + 1, p⟩ →
          Parse p0 text = .error (.thrown ⟨.UnexpectedToken p.m_crtToken.Symbol, p.m_Index⟩)))
    ∧ parse "1**2.5".toList = .error (.thrown ⟨.UnexpectedToken '*', 3⟩)
    ∧ parse "1+".toList = .error (.thrown ⟨.UnexpectedToken (Char.ofNat 0), 2⟩)
    ∧ parse "()".toList = .error (.thrown ⟨.UnexpectedToken ')', 2⟩)
    ∧ parse "-*1".toList = .error (.thrown ⟨.UnexpectedToken '*', 2⟩)
    ∧ parse "".toList = .error (.thrown ⟨.UnexpectedToken (Char.ofNat 0), 0⟩) := by
  refine ⟨?_, ?_, ?_, ?_, ?_, ?_⟩
  · intro k p h1 h2 h3
    have h := Factor_other k p h1 h2 h3
    refine ⟨h, fun p0 q0 text h0 hreach => ?_⟩
    rw [Parse_of_entry p0 text q0 h0]
    exact Reaches_error hreach h
  all_goals
    simp [parse, Parse, Parser.fresh, GetNextToken, SkipWhitespaces, scanWhile, isspace, isdigit,
      charAt, GetNumber, atof, digitsValue, symbolType, Expression, Expression1, Term, Term1,
      Factor, Match, CreateNode, CreateNodeNumber, CreateUnaryNode, bind, Except.bind, pure,
      Except.pure, Except.map]

set_option maxRecDepth 8000 in
/-- C10 at the text `1+`: the parse reaches a call of `Factor` on the end of
input, behind the `+`, and fails there. -/
theorem C10_Factor_rejects_witness :
    Parse Parser.fresh ['1', '+'] = .error (.thrown ⟨.UnexpectedToken (Char.ofNat 0), 2⟩) := by
  have h0 : GetNextToken { Parser.fresh with m_Text := ['1', '+'], m_Index := 0 }
      = .ok ⟨⟨.Number, 1, Char.ofNat 0⟩, ['1', '+'], 1⟩ := by
    simp [Parser.fresh, GetNextToken, SkipWhitespaces, scanWhile, isspace, isdigit, charAt,
      GetNumber, atof, digitsValue]
  have hT : Term 13 ⟨⟨.Number, 1, Char.ofNat 0⟩, ['1', '+'], 1⟩
      = .ok (.Binary .OperatorMul (.NumberValue 1) (.NumberValue 1),
        ⟨⟨.Plus, 0, '+'⟩, ['1', '+'], 2⟩) := by
    simp [Term, Term1, Factor, GetNextToken, SkipWhitespaces, scanWhile, isspace, isdigit,
      charAt, symbolType, CreateNode, CreateNodeNumber, bind, Except.bind, pure, Except.pure]
  have hG : GetNextToken ⟨⟨.Plus, 0, '+'⟩, ['1', '+'], 2⟩
      = .ok ⟨⟨.EndOfText, 0, Char.ofNat 0⟩, ['1', '+'], 2⟩ := by
    simp [GetNextToken, SkipWhitespaces, scanWhile, charAt]
  have hreach : Reaches ['1', '+'] ⟨⟨.Number, 1, Char.ofNat 0⟩, ['1', '+'], 1⟩
      ⟨.factor, 10 + 1, ⟨⟨.EndOfText, 0, Char.ofNat 0⟩, ['1', '+'], 2⟩⟩ :=
    ((Relation.ReflTransGen.refl.tail (Invokes.expression_expression1 13 _ _ _ hT)).tail
      (Invokes.expression1_term 12 _ _ (Or.inl rfl) hG)).tail (Invokes.term_factor 11 _)
  exact (C10_Factor_rejects.1 10 ⟨⟨.EndOfText, 0, Char.ofNat 0⟩, ['1', '+'], 2⟩
    (by simp) (by simp) (by simp)).2 Parser.fresh _ _ h0 hreach

/-! ## The lexer on any literal -/

theorem GetNumber_scan {T : List Char} {i : Nat} {l : Literal} {rest : List Char}
    (tok : Token) (h : T.drop i = l.text ++ rest) (hwf : l.wf) (hmax : l.maximal rest) :
    GetNumber ⟨tok, T, i⟩ =
      if 32 ≤ l.text.length then .error .bufferOverrun
      else .ok (l.value, ⟨tok, T, i + l.text.length⟩) := by
  have hpos := Literal_text_length_pos l hwf
  have hval := atof_text l hwf
  have htake : (T.drop i).take l.text.length = l.text := by rw [h]; exact List.take_left _ _
  obtain ⟨hne, hip, hfp⟩ := hwf
  have hip' : ∀ a ∈ l.intPart, isdigit a = true := by simpa using hip
  have hws : scanWhile isspace (T.drop i) i = i := by
    apply scanWhile_stop
    intro c r hcr
    apply isdigit_not_isspace
    apply hip'
    rw [h] at hcr
    unfold Literal.text at hcr
    cases hl : l.intPart with
    | nil => exact absurd hl hne
    | cons d ds =>
      rw [hl] at hcr
      cases hf : l.fracPart <;> rw [hf] at hcr <;> simp at hcr <;> simp [← hcr.1]
  have hrd : ∀ c r, rest = c :: r → isdigit c = false := fun c r hcr => (hmax c r hcr).1
  cases hf : l.fracPart with
  | none =>
    have htext : l.text = l.intPart := by simp [Literal.text, hf]
    rw [htext] at h hpos htake hval
    have hdig : scanWhile isdigit (T.drop i) i = i + l.intPart.length := by
      rw [h]; exact scanWhile_append _ _ _ _ hip hrd
    have hdrop : T.drop (i + l.intPart.length) = rest := drop_shift h
    have hdot : ¬ charAt T (i + l.intPart.length) = '.' := by
      cases hr : rest with
      | nil => rw [charAt_of_drop_nil (hdrop.trans hr)]; decide
      | cons c r => rw [charAt_of_drop_cons (hdrop.trans hr)]; exact (hmax c r hr).2 hf
    have hdig2 : scanWhile isdigit (T.drop (i + l.intPart.length)) (i + l.intPart.length)
        = i + l.intPart.length := by
      rw [hdrop]; exact scanWhile_stop _ _ _ hrd
    have hlen : i + l.intPart.length - i = l.intPart.length := by omega
    have hnz : ¬ l.intPart.length = 0 := by omega
    simp [GetNumber, SkipWhitespaces, hws, hdig, hdot, hdig2, hlen, hnz,
      htake, hval, htext]
  | some fs =>
    rw [hf] at hfp
    have htext : l.text = l.intPart ++ '.' :: fs := by simp [Literal.text, hf]
    rw [htext] at h hpos htake hval
    have h' : T.drop i = l.intPart ++ ('.' :: fs ++ rest) := by simpa using h
    have hdig : scanWhile isdigit (T.drop i) i = i + l.intPart.length := by
      rw [h']
      apply scanWhile_append _ _ _ _ hip
      intro c r hcr
      simp at hcr
      rw [← hcr.1]; decide
    have hdrop : T.drop (i + l.intPart.length) = '.' :: (fs ++ rest) := by
      simpa using drop_shift h'
    have hdot : charAt T (i + l.intPart.length) = '.' := charAt_of_drop_cons hdrop
    have hdrop2 : T.drop (i + l.intPart.length + 1) = fs ++ rest := by
      have := drop_shift (a := ['.']) (b := fs ++ rest) hdrop
      simpa using this
    have hdig2 : scanWhile isdigit (T.drop (i + l.intPart.length + 1)) (i + l.intPart.length + 1)
        = i + l.intPart.length + 1 + fs.length := by
      rw [hdrop2]; exact scanWhile_append _ _ _ _ hfp hrd
    have hlen : i + l.intPart.length + 1 + fs.length - i = (l.intPart ++ '.' :: fs).length := by
      simp; omega
    have hnz : ¬ (l.intPart ++ '.' :: fs).length = 0 := by omega
    have hidx : i + l.intPart.length + 1 + fs.length = i + (l.intPart ++ '.' :: fs).length := by
      simp; omega
    simp only [GetNumber, SkipWhitespaces, hws, hdig, hdot, hdig2, hnz,
      if_true, if_false, htake, hval, htext, hidx, Nat.add_sub_cancel_left]

theorem lex_scan {T : List Char} {i : Nat} {ws : List Char} {l : Literal} {rest : List Char}
    (h : T.drop i = ws ++ (l.text ++ rest)) (hws : ws.all isspace = true) (hwf : l.wf)
    (hmax : l.maximal rest) :
    lex T i =
      if 32 ≤ l.text.length then .error .bufferOverrun
      else .ok ⟨⟨.Number, l.value, Char.ofNat 0⟩, T, i + ws.length + l.text.length⟩ := by
  have hne := hwf.1
  have hip' : ∀ a ∈ l.intPart, isdigit a = true := by simpa using hwf.2.1
  have hj : T.drop (i + ws.length) = l.text ++ rest := drop_shift h
  obtain ⟨d, r', hd, hdr⟩ : ∃ d r', isdigit d = true ∧ l.text ++ rest = d :: r' := by
    cases hl : l.intPart with
    | nil => exact absurd hl hne
    | cons d ds =>
      refine ⟨d, (l.text ++ rest).tail, hip' d (by simp [hl]), ?_⟩
      unfold Literal.text
      rw [hl]
      cases l.fracPart <;> simp
  have hscan : scanWhile isspace (T.drop i) i = i + ws.length := by
    rw [h, hdr]
    exact scanWhile_append isspace ws (d :: r') i hws
      (by intro c' r'' h'; cases h'; exact isdigit_not_isspace hd)
  have hnum := GetNumber_scan ⟨.Number, 0, Char.ofNat 0⟩ hj hwf hmax
  have hch := charAt_of_drop_cons (hj.trans hdr)
  by_cases h32 : 32 ≤ l.text.length
  · simp [lex, GetNextToken, SkipWhitespaces, hscan, hch, isdigit_ne_nul hd, hd, hnum, h32]
  · simp [lex, GetNextToken, SkipWhitespaces, hscan, hch, isdigit_ne_nul hd, hd, hnum, h32]

theorem isalpha_props {c : Char} (h : isalpha c = true) :
    c ≠ Char.ofNat 0 ∧ isdigit c = false ∧ isspace c = false ∧ c ≠ '.' ∧
      c ∉ ['+', '-', '*', '/', '(', ')'] := by
  refine ⟨?_, ?_, ?_, ?_, ?_⟩
  · rintro rfl; simp [isalpha] at h
  · simp only [isalpha, isdigit, Bool.and_eq_true, decide_eq_true_eq, Bool.or_eq_true,
      Bool.and_eq_false_iff, decide_eq_false_iff_not] at *
    omega
  · simp only [isalpha, isspace, Bool.and_eq_true, decide_eq_true_eq, Bool.or_eq_true,
      Bool.or_eq_false_iff, Bool.and_eq_false_iff, decide_eq_false_iff_not] at *
    omega
  · rintro rfl; simp [isalpha] at h
  · simp only [List.mem_cons, List.mem_singleton, List.not_mem_nil, or_false]
    rintro (rfl | rfl | rfl | rfl | rfl | rfl) <;> simp [isalpha] at h

/-! ## Stray characters behind a literal -/

theorem SkipWhitespaces_stay (q : Parser) (h : isspace (charAt q.m_Text q.m_Index) = false) :
    (SkipWhitespaces q).m_Index = q.m_Index := by
  rw [charAt_eq_headD] at h
  unfold SkipWhitespaces
  cases hd : q.m_Text.drop q.m_Index with
  | nil => simp [scanWhile]
  | cons c r =>
    rw [hd] at h
    simp only [List.headD_cons] at h
    simp [scanWhile, h]

theorem GetNextToken_stray (q : Parser) {c : Char} (hc : charAt q.m_Text q.m_Index = c)
    (h : isalpha c = true ∨ c = '.') :
    GetNextToken q = .error (.thrown ⟨.UnexpectedToken c, q.m_Index⟩) := by
  have hp : c ≠ Char.ofNat 0 ∧ isdigit c = false ∧ isspace c = false ∧
      c ∉ ['+', '-', '*', '/', '(', ')'] := by
    rcases h with h | rfl
    · obtain ⟨h1, h2, h3, _, h5⟩ := isalpha_props h
      exact ⟨h1, h2, h3, h5⟩
    · exact ⟨by decide, by decide, by decide, by decide⟩
  obtain ⟨h1, h2, h3, h4⟩ := hp
  have hs := SkipWhitespaces_stay q (by rw [hc]; exact h3)
  have := GetNextToken_unexpected q (by rw [hs, hc]; exact h1) (by rw [hs, hc]; exact h2)
    (by rw [hs, hc]; exact h4)
  rw [hs, hc] at this
  exact this

set_option maxRecDepth 8000 in
/-- C11: when `Factor` consumes a number token and the character at the cursor,
right behind the literal, is a letter or a `.`, then `Factor` fails with
`UnexpectedToken` carrying that character and its index, and so does `Parse`
whenever the parse reaches this call of `Factor`. The lexer leaves the cursor
on such a character: a literal of at most 31 characters followed by a letter,
or by a `.` when the literal has one already, is read as a number token with
the cursor right behind the literal. Hence a text that is a complete expression
followed by a letter, and a text that is a literal with a `.` followed by
another `.`, fail at that character; in particular `1*2.5e2` fails with
`UnexpectedToken` on `e` at index 5 and `1*2.5.6` on the second `.` at
index 5. -/
theorem C11_literal_single_dot_no_exponent :
    (∀ (k : Nat) (p : Parser) (c : Char), p.m_crtToken.Kind = .Number →
      charAt p.m_Text p.m_Index = c → (isalpha c = true ∨ c = '.') →
      Factor (k + 1) p = .error (.thrown ⟨.UnexpectedToken c, p.m_Index⟩)
      ∧ (∀ (p0 q0 : Parser) (text : List Char),
          GetNextToken { p0 with m_Text := text, m_Index := 0 } = .ok q0 →
          Reaches text q0 ⟨.factor, k + 1, p⟩ →
          Parse p0 text = .error (.thrown ⟨.UnexpectedToken c, p.m_Index⟩)))
    ∧ (∀ (T : List Char) (i : Nat) (l : Literal) (c : Char) (rest : List Char),
        l.wf → l.fits → T.drop i = l.text ++ c :: rest →
        (isalpha c = true ∨ (c = '.' ∧ l.fracPart ≠ none)) →
        GetNextToken ⟨⟨.Error, 0, Char.ofNat 0⟩, T, i⟩
            = .ok ⟨⟨.Number, l.value, Char.ofNat 0⟩, T, i + l.text.length⟩
          ∧ charAt T (i + l.text.length) = c)
    ∧ (∀ (e : Exp) (c : Char) (rest : List Char), e.litsOk → isalpha c = true →
        parse (e.print ++ c :: rest)
          = .error (.thrown ⟨.UnexpectedToken c, e.print.length⟩))
    ∧ (∀ (l : Literal) (rest : List Char), l.wf → l.fits → l.fracPart ≠ none →
        parse (l.text ++ '.' :: rest)
          = .error (.thrown ⟨.UnexpectedToken '.', l.text.length⟩))
    ∧ parse "1*2.5e2".toList = .error (.thrown ⟨.UnexpectedToken 'e', 5⟩)
    ∧ parse "1*2.5.6".toList = .error (.thrown ⟨.UnexpectedToken '.', 5⟩) := by
  have hlexer : ∀ (T : List Char) (i : Nat) (l : Literal) (c : Char) (rest : List Char),
      l.wf → l.fits → T.drop i = l.text ++ c :: rest →
      (isalpha c = true ∨ (c = '.' ∧ l.fracPart ≠ none)) →
      lex T i = .ok ⟨⟨.Number, l.value, Char.ofNat 0⟩, T, i + l.text.length⟩
        ∧ charAt T (i + l.text.length) = c := by
    intro T i l c rest hwf hfit hT hc
    have hmax : l.maximal (c :: rest) := by
      intro c' r' h'
      cases h'
      rcases hc with hc | ⟨rfl, hf⟩
      · exact ⟨(isalpha_props hc).2.1, fun _ => (isalpha_props hc).2.2.2.1⟩
      · exact ⟨by decide, fun h => absurd h hf⟩
    have h := lex_scan (by simpa using hT : T.drop i = [] ++ (l.text ++ c :: rest)) (by simp)
      hwf hmax
    have h32 : ¬ 32 ≤ l.text.length := by unfold Literal.fits at hfit; omega
    simp only [h32, if_false, List.length_nil, Nat.add_zero] at h
    exact ⟨h, charAt_of_drop_cons (drop_shift hT)⟩
  refine ⟨?_, hlexer, ?_, ?_, ?_, ?_⟩
  · intro k p c hk hc hcl
    have hG := GetNextToken_stray p hc hcl
    have h : Factor (k + 1) p = .error (.thrown ⟨.UnexpectedToken c, p.m_Index⟩) := by
      rw [Factor_Number k p hk, hG, error_bind]
    refine ⟨h, fun p0 q0 text h0 hreach => ?_⟩
    rw [Parse_of_entry p0 text q0 h0]
    exact Reaches_error hreach h
  · intro e c rest hok hc
    obtain ⟨h1, h2, h3, h4, h5⟩ := isalpha_props hc
    have hB : Boundary (c :: rest) := by
      intro c' r' h'; cases h'; exact ⟨h2, h4⟩
    have hlex : lex (e.print ++ c :: rest) e.print.length
        = .error (.thrown ⟨.UnexpectedToken c, e.print.length⟩) := by
      have := GetNextToken_stray ⟨⟨.Error, 0, Char.ofNat 0⟩, e.print ++ c :: rest, e.print.length⟩
        (c := c) (charAt_of_drop_cons (r := rest) (by simp)) (Or.inl hc)
      exact this
    have hS : StopE (e.print ++ c :: rest) e.print.length := by
      intro p' hp; rw [hlex] at hp; cases hp
    rw [parse, Parse_append Parser.fresh e (c :: rest) hok hB hS, hlex]
    rfl
  · intro l rest hwf hfit hf
    obtain ⟨h0, hch⟩ := hlexer (l.text ++ '.' :: rest) 0 l '.' rest hwf hfit (by simp)
      (Or.inr ⟨rfl, hf⟩)
    have hfuel : 3 * (l.text ++ '.' :: rest).length + 8
        = (3 * (l.text ++ '.' :: rest).length + 5) + 1 + 1 + 1 := by omega
    have hG := GetNextToken_stray
      ⟨⟨.Number, l.value, Char.ofNat 0⟩, l.text ++ '.' :: rest, 0 + l.text.length⟩ hch
      (Or.inr rfl)
    rw [parse, Parse_eq, h0, ok_bind, hfuel, Expression_succ, Term_succ,
      Factor_Number _ _ rfl, hG]
    simp [error_bind, Except.map]
  all_goals
    simp [parse, Parse, Parser.fresh, GetNextToken, SkipWhitespaces, scanWhile, isspace, isdigit,
      charAt, GetNumber, atof, digitsValue, symbolType, Expression, Expression1, Term, Term1,
      Factor, Match, CreateNode, CreateNodeNumber, CreateUnaryNode, bind, Except.bind, pure,
      Except.pure, Except.map]

set_option maxRecDepth 8000 in
/-- C11 at the text `1*2.5e2`: the parse reaches the call of `Factor` on the
number `2.5` with the cursor on `e` at index 5, and fails there. -/
theorem C11_literal_single_dot_no_exponent_witness :
    Parse Parser.fresh ['1', '*', '2', '.', '5', 'e', '2']
      = .error (.thrown ⟨.UnexpectedToken 'e', 5⟩) := by
  have h0 : GetNextToken
      { Parser.fresh with m_Text := ['1', '*', '2', '.', '5', 'e', '2'], m_Index := 0 }
      = .ok ⟨⟨.Number, 1, Char.ofNat 0⟩, ['1', '*', '2', '.', '5', 'e', '2'], 1⟩ := by
    simp [Parser.fresh, GetNextToken, SkipWhitespaces, scanWhile, isspace, isdigit, charAt,
      GetNumber, atof, digitsValue]
  have hF : Factor 27 ⟨⟨.Number, 1, Char.ofNat 0⟩, ['1', '*', '2', '.', '5', 'e', '2'], 1⟩
      = .ok (.NumberValue 1, ⟨⟨.Mul, 0, '*'⟩, ['1', '*', '2', '.', '5', 'e', '2'], 2⟩) := by
    simp [Factor, GetNextToken, SkipWhitespaces, scanWhile, isspace, isdigit, charAt, symbolType,
      CreateNodeNumber, bind, Except.bind, pure, Except.pure]
  have hG : GetNextToken ⟨⟨.Mul, 0, '*'⟩, ['1', '*', '2', '.', '5', 'e', '2'], 2⟩
      = .ok ⟨⟨.Number, 5 / 2, Char.ofNat 0⟩, ['1', '*', '2', '.', '5', 'e', '2'], 5⟩ := by
    simp [GetNextToken, SkipWhitespaces, scanWhile, isspace, isdigit, charAt, GetNumber, atof,
      digitsValue]
    norm_num
  have hreach : Reaches ['1', '*', '2', '.', '5', 'e', '2']
      ⟨⟨.Number, 1, Char.ofNat 0⟩, ['1', '*', '2', '.', '5', 'e', '2'], 1⟩
      ⟨.factor, 25 + 1, ⟨⟨.Number, 5 / 2, Char.ofNat 0⟩, ['1', '*', '2', '.', '5', 'e', '2'], 5⟩⟩ :=
    ((Relation.ReflTransGen.refl.tail (Invokes.expression_term 28 _)).tail
      (Invokes.term_term1 27 _ _ _ hF)).tail (Invokes.term1_factor 26 _ _ (Or.inl rfl) hG)
  exact (C11_literal_single_dot_no_exponent.1 25
    ⟨⟨.Number, 5 / 2, Char.ofNat 0⟩, ['1', '*', '2', '.', '5', 'e', '2'], 5⟩ 'e' rfl
    (by simp [charAt]) (Or.inl (by decide))).2 Parser.fresh _ _ h0 hreach

/-! ## Text behind a complete expression -/

/-- C12, as stated, fails: `parse` of `1+2 garbage` does not succeed with the
tree of `1+2`. -/
theorem C12_counterexample :
    ¬ ∃ tree, parse "1+2 garbage".toList = .ok tree ∧ parse "1+2".toList = .ok tree := by
  simp [parse, Parse, Parser.fresh, GetNextToken, SkipWhitespaces, scanWhile, isspace, isdigit,
    charAt, GetNumber, atof, digitsValue, symbolType, Expression, Expression1, Term, Term1,
    Factor, Match, CreateNode, CreateNodeNumber, CreateUnaryNode, bind, Except.bind, pure,
    Except.pure, Except.map]

set_option maxRecDepth 8000 in
/-- C12, amended: `parse` does not require the end of input behind a complete
expression, but it reads one token beyond the expression. Let `e` be a complete
expression whose literals are well formed and at most 31 characters long,
followed by text `rest` that does not start with a digit or a `.`. When
reading the token at the start of `rest` fails, `parse` fails with the same
failure; when it yields a token that is not `+`, `-`, `*` or `/` (a number,
`(`, `)` or the end of input), `parse` succeeds with the tree of `e` and
ignores `rest`. So `1+2 3`, `1+2 )` and `1+2 (garbage` are parsed to the tree
of `1+2`, while `1+2 garbage` fails with `UnexpectedToken` on `g` at
index 4. -/
theorem C12_trailing_text :
    (∀ (e : Exp) (rest : List Char), e.litsOk → Boundary rest →
      (∀ f : Failure,
        GetNextToken ⟨⟨.Error, 0, Char.ofNat 0⟩, e.print ++ rest, e.print.length⟩ = .error f →
        parse (e.print ++ rest) = .error f)
      ∧ (∀ p' : Parser,
        GetNextToken ⟨⟨.Error, 0, Char.ofNat 0⟩, e.print ++ rest, e.print.length⟩ = .ok p' →
        p'.m_crtToken.Kind ∉ [TokenType.Plus, TokenType.Minus, TokenType.Mul, TokenType.Div] →
        parse (e.print ++ rest) = .ok e.tree ∧ parse (e.print ++ rest) = parse e.print))
    ∧ parse "1+2 garbage".toList = .error (.thrown ⟨.UnexpectedToken 'g', 4⟩)
    ∧ parse "1+2 3".toList = parse "1+2".toList
    ∧ parse "1+2 )".toList = parse "1+2".toList
    ∧ parse "1+2 (garbage".toList = parse "1+2".toList
    ∧ parse "1+2".toList = .ok (.Binary .OperatorPlus
        (.Binary .OperatorMul (.NumberValue 1) (.NumberValue 1))
        (.Binary .OperatorPlus (.NumberValue 0)
          (.Binary .OperatorMul (.NumberValue 2) (.NumberValue 1)))) := by
  refine ⟨?_, ?_, ?_, ?_, ?_, ?_⟩
  · intro e rest hok hB
    constructor
    · intro f hf
      have hlex : lex (e.print ++ rest) e.print.length = .error f := hf
      have hS : StopE (e.print ++ rest) e.print.length := by
        intro p' hp; rw [hlex] at hp; cases hp
      rw [parse, Parse_append Parser.fresh e rest hok hB hS, hlex]
      rfl
    · intro p' hp hk
      have hlex : lex (e.print ++ rest) e.print.length = .ok p' := hp
      simp only [List.mem_cons, List.mem_singleton, List.not_mem_nil, or_false, not_or] at hk
      have hS : StopE (e.print ++ rest) e.print.length := by
        intro p'' hp'
        rw [hlex] at hp'
        cases hp'
        exact ⟨⟨hk.1, hk.2.1⟩, hk.2.2.1, hk.2.2.2⟩
      have h : parse (e.print ++ rest) = .ok e.tree := by
        rw [parse, Parse_append Parser.fresh e rest hok hB hS, hlex]
        rfl
      exact ⟨h, by rw [h, parse_print e hok]⟩
  all_goals
    simp [parse, Parse, Parser.fresh, GetNextToken, SkipWhitespaces, scanWhile, isspace, isdigit,
      charAt, GetNumber, atof, digitsValue, symbolType, Expression, Expression1, Term, Term1,
      Factor, Match, CreateNode, CreateNodeNumber, CreateUnaryNode, bind, Except.bind, pure,
      Except.pure, Except.map]

/-- The amended C12 at the expression `1+2` followed by ` 3`. -/
theorem C12_trailing_text_witness :
    (Exp.mk (litTerm lit1) (.plus (litTerm lit2) .eps)).litsOk ∧ Boundary [' ', '3'] ∧
    parse ((Exp.mk (litTerm lit1) (.plus (litTerm lit2) .eps)).print ++ [' ', '3'])
      = .ok (Exp.mk (litTerm lit1) (.plus (litTerm lit2) .eps)).tree := by
  have hok : (Exp.mk (litTerm lit1) (.plus (litTerm lit2) .eps)).litsOk := by
    simp [Exp.litsOk, Exp1.litsOk, Trm.litsOk, Trm1.litsOk, Fac.litsOk, litTerm, lit1, lit2,
      Literal.wf, Literal.fits, Literal.text, isdigit]
  have hB : Boundary [' ', '3'] := by
    intro c r h; cases h; decide
  refine ⟨hok, hB, ?_⟩
  exact ((C12_trailing_text.1 _ [' ', '3'] hok hB).2
    ⟨⟨.Number, 3, Char.ofNat 0⟩, ['1', '+', '2', ' ', '3'], 5⟩
    (by simp [Exp.print, Exp1.print, Trm.print, Trm1.print, Fac.print, litTerm, lit1, lit2,
      Literal.text, GetNextToken, SkipWhitespaces, scanWhile, isspace, isdigit, charAt,
      GetNumber, atof, digitsValue])
    (by simp)).1

/-! ## Division by zero -/

set_option maxRecDepth 8000 in
theorem parse_five_div_zero :
    parse "5/0".toList = .ok (.Binary .OperatorPlus
      (.Binary .OperatorMul (.NumberValue 5)
        (.Binary .OperatorDiv (.NumberValue 1) (.NumberValue 0)))
      (.NumberValue 0)) := by
  simp [parse, Parse, Parser.fresh, GetNextToken, SkipWhitespaces, scanWhile, isspace, isdigit,
    charAt, GetNumber, atof, digitsValue, symbolType, Expression, Expression1, Term, Term1,
    Factor, Match, CreateNode, CreateNodeNumber, CreateUnaryNode, bind, Except.bind, pure,
    Except.pure, Except.map]

/-! ## Independence of the state before `Parse` -/

/-- C14: for every parser state `p` and every text, `Parse` started from `p`
returns what it returns on a fresh parser: the same tree and final state, or
the same failure. In particular the tree or error of `Parse` on any state is
that of `parse`. -/
theorem C14_no_state_crosses_Parse :
    (∀ (p : Parser) (text : List Char), Parse p text = Parse Parser.fresh text)
    ∧ (∀ (p : Parser) (text : List Char), (Parse p text).map Prod.fst = parse text) := by
  have h : ∀ (p : Parser) (text : List Char), Parse p text = Parse Parser.fresh text := by
    intro p text
    rw [Parse_eq, Parse_eq]
  exact ⟨h, fun p text => by rw [parse, h p text]⟩

/-! ## The failures of the lexer, and `Match` -/

theorem GetNumber_error (p : Parser) (f : Failure) (h : GetNumber p = .error f) :
    f = .bufferOverrun ∨ ∃ i, f = .thrown ⟨.NumberExpected, i⟩ := by
  unfold GetNumber at h
  simp only at h
  split_ifs at h <;> first
    | (cases h; exact Or.inr ⟨_, rfl⟩)
    | (cases h; exact Or.inl rfl)

theorem GetNextToken_error (p : Parser) (f : Failure) (h : GetNextToken p = .error f) :
    f = .bufferOverrun ∨ (∃ i, f = .thrown ⟨.NumberExpected, i⟩) ∨
      ∃ c i, f = .thrown ⟨.UnexpectedToken c, i⟩ := by
  unfold GetNextToken at h
  simp only at h
  split at h
  · cases h
  · split at h
    · split at h
      · cases h
      · rename_i e he
        cases h
        rcases GetNumber_error _ _ he with h1 | h1
        · exact Or.inl h1
        · exact Or.inr (Or.inl h1)
    · split at h
      · cases h
      · cases h; exact Or.inr (Or.inr ⟨_, _, rfl⟩)

/-- C16, as stated, fails: in the state `Parse` is in when `Factor` calls
`Match` on the text `(1)x`, the character before the cursor is `)`, and
`Match` raises `UnexpectedToken`. -/
theorem C16_counterexample :
    charAt "(1)x".toList (3 - 1) = ')'
    ∧ Match ')' ⟨⟨.ClosedParenthesis, 0, ')'⟩, "(1)x".toList, 3⟩
        = .error (.thrown ⟨.UnexpectedToken 'x', 3⟩)
    ∧ parse "(1)x".toList = .error (.thrown ⟨.UnexpectedToken 'x', 3⟩) := by
  refine ⟨?_, ?_, ?_⟩ <;>
    simp [parse, Parse, Parser.fresh, GetNextToken, SkipWhitespaces, scanWhile, isspace, isdigit,
      charAt, GetNumber, atof, digitsValue, symbolType, Expression, Expression1, Term, Term1,
      Factor, Match, CreateNode, CreateNodeNumber, CreateUnaryNode, bind, Except.bind, pure,
      Except.pure, Except.map]

/-- C16, amended: with the cursor behind at least one character, `Match(')')`
raises `ExpectedToken(')')` carrying the cursor position exactly when the
character immediately before the cursor is not `)`; when that character is
`)`, `Match` is the call of `GetNextToken`: it advances to the next token, or
fails as `GetNextToken` fails, and never with `ExpectedToken`. At cursor 0
the source reads the byte in front of the text, so the statement is made for
a cursor of at least 1, as in every call `Factor` makes. -/
theorem C16_Match_closing_parenthesis (p : Parser) (_hpos : 0 < p.m_Index) :
    (Match ')' p = .error (.thrown ⟨.ExpectedToken ')', p.m_Index⟩)
      ↔ charAt p.m_Text (p.m_Index - 1) ≠ ')')
    ∧ (charAt p.m_Text (p.m_Index - 1) = ')' → Match ')' p = GetNextToken p)
    ∧ (∀ (c : Char) (i : Nat), Match ')' p = .error (.thrown ⟨.ExpectedToken c, i⟩) →
        c = ')' ∧ i = p.m_Index ∧ charAt p.m_Text (p.m_Index - 1) ≠ ')') := by
  have hG : ∀ (c : Char) (i : Nat), GetNextToken p ≠ .error (.thrown ⟨.ExpectedToken c, i⟩) := by
    intro c i h
    rcases GetNextToken_error p _ h with h1 | ⟨j, h1⟩ | ⟨d, j, h1⟩ <;> cases h1
  by_cases hc : charAt p.m_Text (p.m_Index - 1) = ')'
  · have hM : Match ')' p = GetNextToken p := by simp [Match, hc]
    refine ⟨⟨fun h => absurd (hM ▸ h) (hG _ _), fun h => absurd hc h⟩, fun _ => hM, ?_⟩
    intro c i h
    exact absurd (hM ▸ h) (hG _ _)
  · have hM : Match ')' p = .error (.thrown ⟨.ExpectedToken ')', p.m_Index⟩) := by
      simp [Match, hc]
    refine ⟨⟨fun _ => hc, fun _ => hM⟩, fun h => absurd h hc, ?_⟩
    intro c i h
    rw [hM] at h
    cases h
    exact ⟨rfl, rfl, hc⟩

/-- The amended C16 in the state `Parse` is in when `Factor` calls `Match` on
the text `(1 2`: the character before the cursor is `2`. -/
theorem C16_Match_closing_parenthesis_witness :
    0 < (⟨⟨.Number, 2, Char.ofNat 0⟩, ['(', '1', ' ', '2'], 4⟩ : Parser).m_Index
    ∧ Match ')' ⟨⟨.Number, 2, Char.ofNat 0⟩, ['(', '1', ' ', '2'], 4⟩
        = .error (.thrown ⟨.ExpectedToken ')', 4⟩) :=
  ⟨by decide, (C16_Match_closing_parenthesis
    ⟨⟨.Number, 2, Char.ofNat 0⟩, ['(', '1', ' ', '2'], 4⟩ (by decide)).1.2
      (by simp [charAt])⟩

/-! ## The semantic rules -/

theorem bind_eq_ok {α β : Type} (x : Except Failure α) (f : α → Except Failure β) (b : β) :
    (x >>= f) = .ok b ↔ ∃ a, x = .ok a ∧ f a = .ok b := by
  cases x with
  | error e => simp [error_bind]
  | ok a => simp [ok_bind]

theorem pure_eq_ok {α : Type} (a b : α) :
    (pure a : Except Failure α) = .ok b ↔ a = b := by
  show (Except.ok a : Except Failure α) = .ok b ↔ a = b
  constructor
  · intro h; cases h; rfl
  · intro h; rw [h]

theorem Expression_ok_iff (k : Nat) (p p2 : Parser) (t : ASTNode) :
    Expression (k + 1) p = .ok (t, p2) ↔
      ∃ tnode p1 e1node, Term k p = .ok (tnode, p1) ∧ Expression1 k p1 = .ok (e1node, p2) ∧
        t = .Binary .OperatorPlus tnode e1node := by
  rw [Expression_succ]
  simp only [bind_eq_ok, pure_eq_ok, Prod.exists, Prod.mk.injEq, CreateNode]
  constructor
  · rintro ⟨tnode, p1, h1, e1node, p2', h2, rfl, rfl⟩
    exact ⟨tnode, p1, e1node, h1, h2, rfl⟩
  · rintro ⟨tnode, p1, e1node, h1, h2, rfl⟩
    exact ⟨tnode, p1, h1, e1node, p2, h2, rfl, rfl⟩

theorem Expression1_ok_iff (k : Nat) (p p3 : Parser) (t : ASTNode) :
    Expression1 (k + 1) p = .ok (t, p3) ↔
      (p.m_crtToken.Kind = .Plus ∧ ∃ p1 tnode p2 e1node, GetNextToken p = .ok p1 ∧
        Term k p1 = .ok (tnode, p2) ∧ Expression1 k p2 = .ok (e1node, p3) ∧
        t = .Binary .OperatorPlus e1node tnode)
      ∨ (p.m_crtToken.Kind = .Minus ∧ ∃ p1 tnode p2 e1node, GetNextToken p = .ok p1 ∧
        Term k p1 = .ok (tnode, p2) ∧ Expression1 k p2 = .ok (e1node, p3) ∧
        t = .Binary .OperatorMinus e1node tnode)
      ∨ (p.m_crtToken.Kind ≠ .Plus ∧ p.m_crtToken.Kind ≠ .Minus ∧
        t = .NumberValue 0 ∧ p3 = p) := by
  by_cases hP : p.m_crtToken.Kind = .Plus
  · rw [Expression1_Plus k p hP]
    simp only [bind_eq_ok, pure_eq_ok, Prod.exists, Prod.mk.injEq, CreateNode, hP]
    constructor
    · rintro ⟨p1, h0, tnode, p2, h1, e1node, p3', h2, rfl, rfl⟩
      exact Or.inl ⟨trivial, p1, tnode, p2, e1node, h0, h1, h2, rfl⟩
    · rintro (⟨-, p1, tnode, p2, e1node, h0, h1, h2, rfl⟩ | ⟨h, -⟩ | ⟨h, -⟩)
      · exact ⟨p1, h0, tnode, p2, h1, e1node, p3, h2, rfl, rfl⟩
      · cases h
      · exact absurd rfl h
  · by_cases hM : p.m_crtToken.Kind = .Minus
    · rw [Expression1_Minus k p hM]
      simp only [bind_eq_ok, pure_eq_ok, Prod.exists, Prod.mk.injEq, CreateNode, hM]
      constructor
      · rintro ⟨p1, h0, tnode, p2, h1, e1node, p3', h2, rfl, rfl⟩
        exact Or.inr (Or.inl ⟨trivial, p1, tnode, p2, e1node, h0, h1, h2, rfl⟩)
      · rintro (⟨h, -⟩ | ⟨-, p1, tnode, p2, e1node, h0, h1, h2, rfl⟩ | ⟨-, h, -⟩)
        · cases h
        · exact ⟨p1, h0, tnode, p2, h1, e1node, p3, h2, rfl, rfl⟩
        · exact absurd rfl h
    · rw [Expression1_other k p hP hM]
      simp only [hP, hM, false_and, false_or, not_false_eq_true, true_and, CreateNodeNumber]
      constructor
      · intro h; cases h; exact ⟨hP, hM, rfl, rfl⟩
      · rintro ⟨-, -, rfl, rfl⟩; rfl

theorem Term_ok_iff (k : Nat) (p p2 : Parser) (t : ASTNode) :
    Term (k + 1) p = .ok (t, p2) ↔
      ∃ fnode p1 t1node, Factor k p = .ok (fnode, p1) ∧ Term1 k p1 = .ok (t1node, p2) ∧
        t = .Binary .OperatorMul fnode t1node := by
  rw [Term_succ]
  simp only [bind_eq_ok, pure_eq_ok, Prod.exists, Prod.mk.injEq, CreateNode]
  constructor
  · rintro ⟨fnode, p1, h1, t1node, p2', h2, rfl, rfl⟩
    exact ⟨fnode, p1, t1node, h1, h2, rfl⟩
  · rintro ⟨fnode, p1, t1node, h1, h2, rfl⟩
    exact ⟨fnode, p1, h1, t1node, p2, h2, rfl, rfl⟩

theorem Term1_ok_iff (k : Nat) (p p3 : Parser) (t : ASTNode) :
    Term1 (k + 1) p = .ok (t, p3) ↔
      (p.m_crtToken.Kind = .Mul ∧ ∃ p1 fnode p2 t1node, GetNextToken p = .ok p1 ∧
        Factor k p1 = .ok (fnode, p2) ∧ Term1 k p2 = .ok (t1node, p3) ∧
        t = .Binary .OperatorMul t1node fnode)
      ∨ (p.m_crtToken.Kind = .Div ∧ ∃ p1 fnode p2 t1node, GetNextToken p = .ok p1 ∧
        Factor k p1 = .ok (fnode, p2) ∧ Term1 k p2 = .ok (t1node, p3) ∧
        t = .Binary .OperatorDiv t1node fnode)
      ∨ (p.m_crtToken.Kind ≠ .Mul ∧ p.m_crtToken.Kind ≠ .Div ∧
        t = .NumberValue 1 ∧ p3 = p) := by
  by_cases hP : p.m_crtToken.Kind = .Mul
  · rw [Term1_Mul k p hP]
    simp only [bind_eq_ok, pure_eq_ok, Prod.exists, Prod.mk.injEq, CreateNode, hP]
    constructor
    · rintro ⟨p1, h0, fnode, p2, h1, t1node, p3', h2, rfl, rfl⟩
      exact Or.inl ⟨trivial, p1, fnode, p2, t1node, h0, h1, h2, rfl⟩
    · rintro (⟨-, p1, fnode, p2, t1node, h0, h1, h2, rfl⟩ | ⟨h, -⟩ | ⟨h, -⟩)
      · exact ⟨p1, h0, fnode, p2, h1, t1node, p3, h2, rfl, rfl⟩
      · cases h
      · exact absurd rfl h
  · by_cases hM : p.m_crtToken.Kind = .Div
    · rw [Term1_Div k p hM]
      simp only [bind_eq_ok, pure_eq_ok, Prod.exists, Prod.mk.injEq, CreateNode, hM]
      constructor
      · rintro ⟨p1, h0, fnode, p2, h1, t1node, p3', h2, rfl, rfl⟩
        exact Or.inr (Or.inl ⟨trivial, p1, fnode, p2, t1node, h0, h1, h2, rfl⟩)
      · rintro (⟨h, -⟩ | ⟨-, p1, fnode, p2, t1node, h0, h1, h2, rfl⟩ | ⟨-, h, -⟩)
        · cases h
        · exact ⟨p1, h0, fnode, p2, h1, t1node, p3, h2, rfl, rfl⟩
        · exact absurd rfl h
    · rw [Term1_other k p hP hM]
      simp only [hP, hM, false_and, false_or, not_false_eq_true, true_and, CreateNodeNumber]
      constructor
      · intro h; cases h; exact ⟨hP, hM, rfl, rfl⟩
      · rintro ⟨-, -, rfl, rfl⟩; rfl

theorem Factor_ok_iff (k : Nat) (p p3 : Parser) (t : ASTNode) :
    Factor (k + 1) p = .ok (t, p3) ↔
      (p.m_crtToken.Kind = .OpenParenthesis ∧ ∃ p1 p2, GetNextToken p = .ok p1 ∧
        Expression k p1 = .ok (t, p2) ∧ Match ')' p2 = .ok p3)
      ∨ (p.m_crtToken.Kind = .Minus ∧ ∃ p1 node, GetNextToken p = .ok p1 ∧
        Factor k p1 = .ok (node, p3) ∧ t = .UnaryMinus node)
      ∨ (p.m_crtToken.Kind = .Number ∧ GetNextToken p = .ok p3 ∧
        t = .NumberValue p.m_crtToken.Value) := by
  by_cases hO : p.m_crtToken.Kind = .OpenParenthesis
  · rw [Factor_OpenParenthesis k p hO]
    simp only [bind_eq_ok, pure_eq_ok, Prod.exists, Prod.mk.injEq, hO]
    constructor
    · rintro ⟨p1, h0, node, p2, h1, p3', h2, rfl, rfl⟩
      exact Or.inl ⟨trivial, p1, p2, h0, h1, h2⟩
    · rintro (⟨-, p1, p2, h0, h1, h2⟩ | ⟨h, -⟩ | ⟨h, -⟩)
      · exact ⟨p1, h0, t, p2, h1, p3, h2, rfl, rfl⟩
      · cases h
      · cases h
  · by_cases hM : p.m_crtToken.Kind = .Minus
    · rw [Factor_Minus k p hM]
      simp only [bind_eq_ok, pure_eq_ok, Prod.exists, Prod.mk.injEq, CreateUnaryNode, hM]
      constructor
      · rintro ⟨p1, h0, node, p3', h1, rfl, rfl⟩
        exact Or.inr (Or.inl ⟨trivial, p1, node, h0, h1, rfl⟩)
      · rintro (⟨h, -⟩ | ⟨-, p1, node, h0, h1, rfl⟩ | ⟨h, -⟩)
        · cases h
        · exact ⟨p1, h0, node, p3, h1, rfl, rfl⟩
        · cases h
    · by_cases hN : p.m_crtToken.Kind = .Number
      · rw [Factor_Number k p hN]
        simp only [bind_eq_ok, pure_eq_ok, Prod.mk.injEq, CreateNodeNumber, hN]
        constructor
        · rintro ⟨p1, h0, rfl, rfl⟩
          exact Or.inr (Or.inr ⟨trivial, h0, rfl⟩)
        · rintro (⟨h, -⟩ | ⟨h, -⟩ | ⟨-, h0, rfl⟩)
          · cases h
          · cases h
          · exact ⟨p3, h0, rfl, rfl⟩
      · rw [Factor_other k p hO hM hN]
        simp [hO, hM, hN]

set_option maxRecDepth 8000 in
/-- C17: the trees the grammar procedures return follow the semantic rules.
`Expression` returns a tree exactly when `Term` and then `Expression1` return
trees, and its tree is `Add(Term, Expression1)`. `Expression1` on `+` (on `-`)
reads the next token, calls `Term` and `Expression1` and returns
`Add(rest, Term)` (`Sub(rest, Term)`), the continuation being the left child;
on any other token it returns `NumberLiteral(0)` in the unchanged state.
`Term` returns `Mul(Factor, Term1)`; `Term1` on `*` (on `/`) returns
`Mul(rest, Factor)` (`Div(rest, Factor)`) and otherwise `NumberLiteral(1)` in
the unchanged state. On the text of a derivation of the grammar whose literals
are well formed and at most 31 characters long, `parse` returns the tree the
rules assign to the derivation. `125` gives `Add(Mul(125, 1), 0)` and `1+2`
gives `Add(Mul(1, 1), Add(0, Mul(2, 1)))`. -/
theorem C17_tree_follows_semantic_rules :
    (∀ (k : Nat) (p p2 : Parser) (t : ASTNode),
      Expression (k + 1) p = .ok (t, p2) ↔
        ∃ tnode p1 e1node, Term k p = .ok (tnode, p1) ∧ Expression1 k p1 = .ok (e1node, p2) ∧
          t = .Binary .OperatorPlus tnode e1node)
    ∧ (∀ (k : Nat) (p p3 : Parser) (t : ASTNode),
      Expression1 (k + 1) p = .ok (t, p3) ↔
        (p.m_crtToken.Kind = .Plus ∧ ∃ p1 tnode p2 e1node, GetNextToken p = .ok p1 ∧
          Term k p1 = .ok (tnode, p2) ∧ Expression1 k p2 = .ok (e1node, p3) ∧
          t = .Binary .OperatorPlus e1node tnode)
        ∨ (p.m_crtToken.Kind = .Minus ∧ ∃ p1 tnode p2 e1node, GetNextToken p = .ok p1 ∧
          Term k p1 = .ok (tnode, p2) ∧ Expression1 k p2 = .ok (e1node, p3) ∧
          t = .Binary .OperatorMinus e1node tnode)
        ∨ (p.m_crtToken.Kind ≠ .Plus ∧ p.m_crtToken.Kind ≠ .Minus ∧
          t = .NumberValue 0 ∧ p3 = p))
    ∧ (∀ (k : Nat) (p p2 : Parser) (t : ASTNode),
      Term (k + 1) p = .ok (t, p2) ↔
        ∃ fnode p1 t1node, Factor k p = .ok (fnode, p1) ∧ Term1 k p1 = .ok (t1node, p2) ∧
          t = .Binary .OperatorMul fnode t1node)
    ∧ (∀ (k : Nat) (p p3 : Parser) (t : ASTNode),
      Term1 (k + 1) p = .ok (t, p3) ↔
        (p.m_crtToken.Kind = .Mul ∧ ∃ p1 fnode p2 t1node, GetNextToken p = .ok p1 ∧
          Factor k p1 = .ok (fnode, p2) ∧ Term1 k p2 = .ok (t1node, p3) ∧
          t = .Binary .OperatorMul t1node fnode)
        ∨ (p.m_crtToken.Kind = .Div ∧ ∃ p1 fnode p2 t1node, GetNextToken p = .ok p1 ∧
          Factor k p1 = .ok (fnode, p2) ∧ Term1 k p2 = .ok (t1node, p3) ∧
          t = .Binary .OperatorDiv t1node fnode)
        ∨ (p.m_crtToken.Kind ≠ .Mul ∧ p.m_crtToken.Kind ≠ .Div ∧
          t = .NumberValue 1 ∧ p3 = p))
    ∧ (∀ e : Exp, e.litsOk → parse e.print = .ok e.tree)
    ∧ (∀ (t : Trm) (e1 : Exp1), (Exp.mk t e1).tree = .Binary .OperatorPlus t.tree e1.tree)
    ∧ (∀ (t : Trm) (e1 : Exp1), (Exp1.plus t e1).tree = .Binary .OperatorPlus e1.tree t.tree)
    ∧ (∀ (t : Trm) (e1 : Exp1), (Exp1.minus t e1).tree = .Binary .OperatorMinus e1.tree t.tree)
    ∧ Exp1.eps.tree = .NumberValue 0
    ∧ (∀ (f : Fac) (t1 : Trm1), (Trm.mk f t1).tree = .Binary .OperatorMul f.tree t1.tree)
    ∧ (∀ (f : Fac) (t1 : Trm1), (Trm1.mul f t1).tree = .Binary .OperatorMul t1.tree f.tree)
    ∧ (∀ (f : Fac) (t1 : Trm1), (Trm1.div f t1).tree = .Binary .OperatorDiv t1.tree f.tree)
    ∧ Trm1.eps.tree = .NumberValue 1
    ∧ parse "125".toList = .ok (.Binary .OperatorPlus
        (.Binary .OperatorMul (.NumberValue 125) (.NumberValue 1)) (.NumberValue 0))
    ∧ parse "1+2".toList = .ok (.Binary .OperatorPlus
        (.Binary .OperatorMul (.NumberValue 1) (.NumberValue 1))
        (.Binary .OperatorPlus (.NumberValue 0)
          (.Binary .OperatorMul (.NumberValue 2) (.NumberValue 1)))) := by
  refine ⟨Expression_ok_iff, Expression1_ok_iff, Term_ok_iff, Term1_ok_iff, parse_print,
    ?_, ?_, ?_, ?_, ?_, ?_, ?_, ?_, ?_, ?_⟩
  · intro t e1; simp [Exp.tree, CreateNode]
  · intro t e1; simp [Exp1.tree, CreateNode]
  · intro t e1; simp [Exp1.tree, CreateNode]
  · simp [Exp1.tree, CreateNodeNumber]
  · intro f t1; simp [Trm.tree, CreateNode]
  · intro f t1; simp [Trm1.tree, CreateNode]
  · intro f t1; simp [Trm1.tree, CreateNode]
  · simp [Trm1.tree, CreateNodeNumber]
  all_goals
    simp [parse, Parse, Parser.fresh, GetNextToken, SkipWhitespaces, scanWhile, isspace, isdigit,
      charAt, GetNumber, atof, digitsValue, symbolType, Expression, Expression1, Term, Term1,
      Factor, Match, CreateNode, CreateNodeNumber, CreateUnaryNode, bind, Except.bind, pure,
      Except.pure, Except.map]

/-- C17 at the derivation of `1+2`. -/
theorem C17_tree_follows_semantic_rules_witness :
    (Exp.mk (litTerm lit1) (.plus (litTerm lit2) .eps)).litsOk ∧
    parse (Exp.mk (litTerm lit1) (.plus (litTerm lit2) .eps)).print
      = .ok (Exp.mk (litTerm lit1) (.plus (litTerm lit2) .eps)).tree :=
  ⟨by simp [Exp.litsOk, Exp1.litsOk, Trm.litsOk, Trm1.litsOk, Fac.litsOk, litTerm, lit1, lit2,
      Literal.wf, Literal.fits, Literal.text, isdigit],
    C17_tree_follows_semantic_rules.2.2.2.2.1 _
      (by simp [Exp.litsOk, Exp1.litsOk, Trm.litsOk, Trm1.litsOk, Fac.litsOk, litTerm, lit1, lit2,
        Literal.wf, Literal.fits, Literal.text, isdigit])⟩

/-! ## Maximal munch -/

theorem scanWhile_eq_takeWhile (pred : Char → Bool) (s : List Char) (i : Nat) :
    scanWhile pred s i = i + (s.takeWhile pred).length := by
  induction s generalizing i with
  | nil => simp [scanWhile]
  | cons c s ih =>
    by_cases h : pred c = true
    · simp [scanWhile, List.takeWhile, h, ih]; omega
    · simp [scanWhile, List.takeWhile, h]

theorem dropWhile_head_false (pred : Char → Bool) (s : List Char) (c : Char) (r : List Char)
    (h : s.dropWhile pred = c :: r) : pred c = false := by
  induction s with
  | nil => simp at h
  | cons a s ih =>
    by_cases ha : pred a = true
    · simp only [List.dropWhile, ha] at h
      exact ih h
    · simp only [List.dropWhile, ha] at h
      cases h
      simpa using ha

theorem all_takeWhile (pred : Char → Bool) (s : List Char) :
    (s.takeWhile pred).all pred = true := by
  induction s with
  | nil => simp
  | cons a s ih =>
    by_cases ha : pred a = true
    · simp [List.takeWhile, ha, ih]
    · simp [List.takeWhile, ha]

theorem Literal_scan_spec (c : Char) (r : List Char) (hc : isdigit c = true) :
    (Literal.scan (c :: r)).wf ∧ ∃ rest, c :: r = (Literal.scan (c :: r)).text ++ rest ∧
      (Literal.scan (c :: r)).maximal rest := by
  have hsplit : (c :: r) = (c :: r).takeWhile isdigit ++ (c :: r).dropWhile isdigit :=
    (List.takeWhile_append_dropWhile _ _).symm
  have hne : (c :: r).takeWhile isdigit ≠ [] := by simp [List.takeWhile, hc]
  have hall := all_takeWhile isdigit (c :: r)
  unfold Literal.scan
  cases hd : (c :: r).dropWhile isdigit with
  | nil =>
    refine ⟨⟨hne, hall, trivial⟩, [], ?_, ?_⟩
    · rw [hd] at hsplit
      simpa [Literal.text] using hsplit
    · intro c' r' h'; cases h'
  | cons d r2 =>
    have hdd := dropWhile_head_false isdigit _ d r2 hd
    rw [hd] at hsplit
    by_cases hdot : d = '.'
    · subst hdot
      simp only [if_true]
      have hsplit2 : r2 = r2.takeWhile isdigit ++ r2.dropWhile isdigit :=
        (List.takeWhile_append_dropWhile _ _).symm
      refine ⟨⟨hne, hall, all_takeWhile isdigit r2⟩, r2.dropWhile isdigit, ?_, ?_⟩
      · simp only [Literal.text, List.append_assoc, List.cons_append]
        rw [← hsplit2]
        exact hsplit
      · intro c' r' h'
        exact ⟨dropWhile_head_false isdigit _ c' r' h', fun h => by cases h⟩
    · simp only [hdot, if_false]
      refine ⟨⟨hne, hall, trivial⟩, d :: r2, ?_, ?_⟩
      · simpa [Literal.text] using hsplit
      · intro c' r' h'
        cases h'
        exact ⟨hdd, fun _ => hdot⟩

theorem Literal_text_chars (l : Literal) (h : l.wf) :
    ∀ c ∈ l.text, isdigit c = true ∨ c = '.' := by
  obtain ⟨_, hip, hfp⟩ := h
  have hip' : ∀ a ∈ l.intPart, isdigit a = true := by simpa using hip
  intro c hc
  unfold Literal.text at hc
  cases hf : l.fracPart with
  | none =>
    rw [hf] at hc
    exact Or.inl (hip' c hc)
  | some fs =>
    rw [hf] at hc hfp
    have hfp' : ∀ a ∈ fs, isdigit a = true := by simpa using hfp
    simp only [List.mem_append, List.mem_cons] at hc
    rcases hc with hc | rfl | hc
    · exact Or.inl (hip' c hc)
    · exact Or.inr rfl
    · exact Or.inl (hfp' c hc)

theorem count_dot_digits (ds : List Char) (h : ds.all isdigit = true) :
    ds.count '.' = 0 := by
  rw [List.count_eq_zero]
  intro hmem
  have hall : ∀ a ∈ ds, isdigit a = true := by simpa using h
  exact absurd (hall '.' hmem) (by decide)

theorem Literal_count_dot (l : Literal) (h : l.wf) :
    l.text.count '.' = if l.fracPart = none then 0 else 1 := by
  obtain ⟨_, hip, hfp⟩ := h
  unfold Literal.text
  cases hf : l.fracPart with
  | none => simp [count_dot_digits _ hip]
  | some fs =>
    rw [hf] at hfp
    simp [List.count_append, List.count_cons, count_dot_digits _ hip, count_dot_digits _ hfp]

theorem Literal_scan_longest {s rest : List Char} {l l' : Literal} (hl : l.wf)
    (hs : s = l.text ++ rest) (hmax : l.maximal rest) (hl' : l'.wf) (hpre : l'.text <+: s) :
    l'.text.length ≤ l.text.length := by
  by_contra hlt
  push_neg at hlt
  obtain ⟨r', hr'⟩ := hpre
  rw [hs] at hr'
  rcases List.append_eq_append_iff.1 hr' with ⟨a, ha, _⟩ | ⟨a, ha, hb⟩
  · have := congrArg List.length ha
    simp at this
    omega
  · cases a with
    | nil =>
      have := congrArg List.length ha
      simp at this
      omega
    | cons c m =>
      have hrest : rest = c :: (m ++ r') := by simpa using hb
      obtain ⟨hcd, hcdot⟩ := hmax c _ hrest
      have hc : c = '.' := by
        rcases Literal_text_chars l' hl' c (by rw [ha]; simp) with h | h
        · rw [h] at hcd; cases hcd
        · exact h
      subst hc
      have hf : l.fracPart ≠ none := fun h => hcdot h rfl
      have h1 : l.text.count '.' = 1 := by rw [Literal_count_dot l hl]; simp [hf]
      have h2 : l'.text.count '.' ≤ 1 := by rw [Literal_count_dot l' hl']; split <;> omega
      rw [ha, List.count_append, h1, List.count_cons_self] at h2
      omega

theorem lex_digit (T : List Char) (i j : Nat) (l : Literal)
    (hj : j = scanWhile isspace (T.drop i) i) (hd : isdigit (charAt T j) = true)
    (hl : l = Literal.scan (T.drop j)) :
    l.wf ∧ l.text <+: T.drop j
    ∧ (∀ l' : Literal, l'.wf → l'.text <+: T.drop j → l'.text.length ≤ l.text.length)
    ∧ isdigit (charAt T (j + l.text.length)) = false
    ∧ (charAt T (j + l.text.length) = '.' → l.fracPart ≠ none)
    ∧ lex T i = (if 32 ≤ l.text.length then .error .bufferOverrun
        else .ok ⟨⟨.Number, l.value, Char.ofNat 0⟩, T, j + l.text.length⟩) := by
  obtain ⟨c, r, hcr⟩ : ∃ c r, T.drop j = c :: r := by
    cases h : T.drop j with
    | nil => rw [charAt_of_drop_nil h] at hd; cases hd
    | cons c r => exact ⟨c, r, rfl⟩
  have hc : isdigit c = true := by rw [charAt_of_drop_cons hcr] at hd; exact hd
  obtain ⟨hwf, rest, hsplit, hmax⟩ := Literal_scan_spec c r hc
  rw [← hcr, ← hl] at hwf hsplit hmax
  have hdrop : T.drop (j + l.text.length) = rest := drop_shift hsplit
  have hws : T.drop i = (T.drop i).takeWhile isspace ++ (l.text ++ rest) := by
    have h1 : (T.drop i) = (T.drop i).takeWhile isspace ++ (T.drop i).dropWhile isspace :=
      (List.takeWhile_append_dropWhile _ _).symm
    have h2 : T.drop j = (T.drop i).dropWhile isspace := by
      have := drop_shift h1
      rw [hj, scanWhile_eq_takeWhile]
      exact this
    rw [← hsplit, h2]
    exact h1
  have hlex := lex_scan hws (all_takeWhile isspace _) hwf hmax
  rw [← scanWhile_eq_takeWhile, ← hj] at hlex
  refine ⟨hwf, ⟨rest, hsplit.symm⟩, ?_, ?_, ?_, hlex⟩
  · intro l' hl' hpre
    exact Literal_scan_longest hwf hsplit hmax hl' hpre
  · cases hr : rest with
    | nil => rw [charAt_of_drop_nil (hdrop.trans hr)]; decide
    | cons d r2 => rw [charAt_of_drop_cons (hdrop.trans hr)]; exact (hmax d r2 hr).1
  · intro hdot hf
    cases hr : rest with
    | nil => rw [charAt_of_drop_nil (hdrop.trans hr)] at hdot; cases hdot
    | cons d r2 =>
      rw [charAt_of_drop_cons (hdrop.trans hr)] at hdot
      exact (hmax d r2 hr).2 hf hdot

set_option maxRecDepth 8000 in
/-- C18: let the cursor of `GetNextToken`, after whitespace, stand at index
`j` on a digit, and let `l` be the literal `Literal.scan` finds at `j`: the
digits at `j` and, when a `.` follows them, the `.` and the digits behind it.
Then `l` is a well-formed literal at `j`, no literal at `j` is longer, the
character behind `l` is not a digit, and it is a `.` only when `l` has one.
When `l` has at most 31 characters, `GetNextToken` returns the number token
with the decimal value of `l` and the cursor right behind `l`; when `l` has 32
characters or more, `GetNumber` overruns its buffer and no token is returned.
The tokens of `125`, `2.5` and `5.` have the values 125, 5/2 and 5; on the
literal `longLiteral` of 37 characters the buffer is overrun. -/
theorem C18_number_maximal_munch :
    (∀ (p : Parser) (j : Nat) (l : Literal), j = (SkipWhitespaces p).m_Index →
      isdigit (charAt p.m_Text j) = true → l = Literal.scan (p.m_Text.drop j) →
      l.wf ∧ l.text <+: p.m_Text.drop j
      ∧ (∀ l' : Literal, l'.wf → l'.text <+: p.m_Text.drop j →
          l'.text.length ≤ l.text.length)
      ∧ isdigit (charAt p.m_Text (j + l.text.length)) = false
      ∧ (charAt p.m_Text (j + l.text.length) = '.' → l.fracPart ≠ none)
      ∧ GetNextToken p = (if 32 ≤ l.text.length then .error .bufferOverrun
          else .ok ⟨⟨.Number, l.value, Char.ofNat 0⟩, p.m_Text, j + l.text.length⟩))
    ∧ GetNextToken ⟨⟨.Error, 0, Char.ofNat 0⟩, "125".toList, 0⟩
        = .ok ⟨⟨.Number, 125, Char.ofNat 0⟩, "125".toList, 3⟩
    ∧ GetNextToken ⟨⟨.Error, 0, Char.ofNat 0⟩, "1 + 2.5".toList, 3⟩
        = .ok ⟨⟨.Number, 5 / 2, Char.ofNat 0⟩, "1 + 2.5".toList, 7⟩
    ∧ GetNextToken ⟨⟨.Error, 0, Char.ofNat 0⟩, "5.".toList, 0⟩
        = .ok ⟨⟨.Number, 5, Char.ofNat 0⟩, "5.".toList, 2⟩
    ∧ GetNextToken ⟨⟨.Error, 0, Char.ofNat 0⟩, "12.5.6".toList, 0⟩
        = .ok ⟨⟨.Number, 25 / 2, Char.ofNat 0⟩, "12.5.6".toList, 4⟩
    ∧ (longLiteral.wf ∧ longLiteral.text.length = 37 ∧
        GetNextToken ⟨⟨.Error, 0, Char.ofNat 0⟩, longLiteral.text, 0⟩
          = .error .bufferOverrun) := by
  refine ⟨?_, ?_, ?_, ?_, ?_, ?_, ?_, ?_⟩
  · intro p j l hj hd hl
    have h := lex_digit p.m_Text p.m_Index j l hj hd hl
    rw [← GetNextToken_eq_lex] at h
    exact h
  · simp [GetNextToken, SkipWhitespaces, scanWhile, isspace, isdigit, charAt, GetNumber, atof,
      digitsValue]
  · simp [GetNextToken, SkipWhitespaces, scanWhile, isspace, isdigit, charAt, GetNumber, atof,
      digitsValue]
    norm_num
  · simp [GetNextToken, SkipWhitespaces, scanWhile, isspace, isdigit, charAt, GetNumber, atof,
      digitsValue]
  · simp [GetNextToken, SkipWhitespaces, scanWhile, isspace, isdigit, charAt, GetNumber, atof,
      digitsValue]
    norm_num
  · decide
  · simp [longLiteral, Literal.text]
  · simp [longLiteral, Literal.text, GetNextToken, SkipWhitespaces, scanWhile, isspace, isdigit,
      charAt, GetNumber]

/-! ## Termination -/

theorem scanWhile_inText (pred : Char → Bool) (T : List Char) (i : Nat) (h : i ≤ T.length) :
    i ≤ scanWhile pred (T.drop i) i ∧ scanWhile pred (T.drop i) i ≤ T.length := by
  rw [scanWhile_eq_takeWhile]
  have h1 : ((T.drop i).takeWhile pred).length ≤ (T.drop i).length :=
    (List.takeWhile_sublist pred).length_le
  simp only [List.length_drop] at h1
  omega

theorem charAt_lt (T : List Char) (j : Nat) (h : charAt T j ≠ Char.ofNat 0) : j < T.length := by
  by_contra hge
  exact h (charAt_of_drop_nil (List.drop_eq_nil_of_le (by omega)))

theorem GetNumber_eq (p : Parser) (j k k' n : Nat)
    (hj : j = scanWhile isspace (p.m_Text.drop p.m_Index) p.m_Index)
    (hk : k = scanWhile isdigit (p.m_Text.drop j) j)
    (hk' : k' = if charAt p.m_Text k = '.' then k + 1 else k)
    (hn : n = scanWhile isdigit (p.m_Text.drop k') k') :
    GetNumber p =
      if n - j = 0 then .error (.thrown ⟨.NumberExpected, n⟩)
      else if 32 ≤ n - j then .error .bufferOverrun
      else .ok (atof ((p.m_Text.drop j).take (n - j)), ⟨p.m_crtToken, p.m_Text, n⟩) := by
  subst hj hk
  by_cases hdot : charAt p.m_Text
      (scanWhile isdigit (p.m_Text.drop (scanWhile isspace (p.m_Text.drop p.m_Index) p.m_Index))
        (scanWhile isspace (p.m_Text.drop p.m_Index) p.m_Index)) = '.'
  · simp only [hdot, if_true] at hk'
    subst hk' hn
    simp [GetNumber, SkipWhitespaces, hdot]
  · simp only [hdot, if_false] at hk'
    subst hk' hn
    simp [GetNumber, SkipWhitespaces, hdot]

theorem GetNumber_advance (p : Parser) (v : Value) (p2 : Parser)
    (h : GetNumber p = .ok (v, p2)) (hin : p.m_Index ≤ p.m_Text.length) :
    p2.m_crtToken = p.m_crtToken ∧ p2.m_Text = p.m_Text ∧ p.m_Index < p2.m_Index ∧
      p2.m_Index ≤ p2.m_Text.length := by
  obtain ⟨j, hj⟩ : ∃ j, j = scanWhile isspace (p.m_Text.drop p.m_Index) p.m_Index := ⟨_, rfl⟩
  obtain ⟨k, hk⟩ : ∃ k, k = scanWhile isdigit (p.m_Text.drop j) j := ⟨_, rfl⟩
  obtain ⟨k', hk'⟩ : ∃ k', k' = if charAt p.m_Text k = '.' then k + 1 else k := ⟨_, rfl⟩
  obtain ⟨n, hn⟩ : ∃ n, n = scanWhile isdigit (p.m_Text.drop k') k' := ⟨_, rfl⟩
  have b1 := scanWhile_inText isspace p.m_Text p.m_Index hin
  rw [← hj] at b1
  have b2 := scanWhile_inText isdigit p.m_Text j b1.2
  rw [← hk] at b2
  have b3 : k ≤ k' ∧ k' ≤ p.m_Text.length := by
    rw [hk']
    split
    · rename_i hdot
      have := charAt_lt p.m_Text k (by rw [hdot]; decide)
      omega
    · exact ⟨le_refl _, b2.2⟩
  have b4 := scanWhile_inText isdigit p.m_Text k' b3.2
  rw [← hn] at b4
  rw [GetNumber_eq p j k k' n hj hk hk' hn] at h
  split_ifs at h with h1 h2
  cases h
  refine ⟨rfl, rfl, ?_, b4.2⟩
  show p.m_Index < n
  omega

theorem GetNextToken_advance (p p1 : Parser) (h : GetNextToken p = .ok p1)
    (hin : p.m_Index ≤ p.m_Text.length) :
    p1.m_Text = p.m_Text ∧ p.m_Index ≤ p1.m_Index ∧ p1.m_Index ≤ p1.m_Text.length ∧
      (p1.m_crtToken.Kind ≠ .EndOfText → p.m_Index < p1.m_Index) := by
  obtain ⟨j, hj⟩ : ∃ j, j = scanWhile isspace (p.m_Text.drop p.m_Index) p.m_Index := ⟨_, rfl⟩
  have b1 := scanWhile_inText isspace p.m_Text p.m_Index hin
  rw [← hj] at b1
  unfold GetNextToken at h
  simp only [SkipWhitespaces, ← hj] at h
  split_ifs at h with hnul hdig hsym
  · cases h
    exact ⟨rfl, b1.1, b1.2, fun hk => absurd rfl hk⟩
  · split at h
    · rename_i v p2 hnum
      cases h
      obtain ⟨_, h2, h3, h4⟩ := GetNumber_advance _ _ _ hnum b1.2
      have h3' : j < p2.m_Index := h3
      refine ⟨h2, ?_, h4, fun _ => ?_⟩
      · show p.m_Index ≤ p2.m_Index; omega
      · show p.m_Index < p2.m_Index; omega
    · cases h
  · cases h
    have := charAt_lt p.m_Text j hnul
    refine ⟨rfl, ?_, ?_, fun _ => ?_⟩
    · show p.m_Index ≤ j + 1; omega
    · show j + 1 ≤ p.m_Text.length; omega
    · show p.m_Index < j + 1; omega

theorem GetNextToken_measure (p p1 : Parser) (h : GetNextToken p = .ok p1) (hin : p.inText) :
    p1.inText ∧ p1.measure ≤ p.m_Text.length - p.m_Index := by
  obtain ⟨h1, h2, h3, h4⟩ := GetNextToken_advance p p1 h hin
  refine ⟨h3, ?_⟩
  unfold Parser.measure
  rw [h1]
  rw [h1] at h3
  split
  · omega
  · rename_i hk
    have := h4 hk
    omega

theorem GetNextToken_measure_token (p p1 : Parser) (h : GetNextToken p = .ok p1) (hin : p.inText)
    (hk : p.m_crtToken.Kind ≠ .EndOfText) : p1.inText ∧ p1.measure + 1 ≤ p.measure := by
  obtain ⟨h1, h2⟩ := GetNextToken_measure p p1 h hin
  refine ⟨h1, ?_⟩
  unfold Parser.measure at h2 ⊢
  simp only [hk, if_false]
  omega

theorem GetNextToken_measure_le (p p1 : Parser) (h : GetNextToken p = .ok p1) (hin : p.inText) :
    p1.inText ∧ p1.measure ≤ p.measure := by
  obtain ⟨h1, h2⟩ := GetNextToken_measure p p1 h hin
  refine ⟨h1, ?_⟩
  unfold Parser.measure at h2 ⊢
  omega

theorem Match_measure_le (c : Char) (p p1 : Parser) (h : Match c p = .ok p1) (hin : p.inText) :
    p1.inText ∧ p1.measure ≤ p.measure := by
  unfold Match at h
  split_ifs at h
  exact GetNextToken_measure_le p p1 h hin

theorem Expression_zero (p : Parser) : Expression 0 p = .error .outOfFuel := by
  rw [Expression]

theorem Expression1_zero (p : Parser) : Expression1 0 p = .error .outOfFuel := by
  rw [Expression1]

theorem Term_zero (p : Parser) : Term 0 p = .error .outOfFuel := by
  rw [Term]

theorem Term1_zero (p : Parser) : Term1 0 p = .error .outOfFuel := by
  rw [Term1]

theorem Factor_zero (p : Parser) : Factor 0 p = .error .outOfFuel := by
  rw [Factor]

theorem procs_measure : ∀ (k : Nat) (p p' : Parser) (t : ASTNode), p.inText →
    (Expression k p = .ok (t, p') → p'.inText ∧ p'.measure + 1 ≤ p.measure) ∧
    (Expression1 k p = .ok (t, p') → p'.inText ∧ p'.measure ≤ p.measure) ∧
    (Term k p = .ok (t, p') → p'.inText ∧ p'.measure + 1 ≤ p.measure) ∧
    (Term1 k p = .ok (t, p') → p'.inText ∧ p'.measure ≤ p.measure) ∧
    (Factor k p = .ok (t, p') → p'.inText ∧ p'.measure + 1 ≤ p.measure) := by
  intro k
  induction k with
  | zero =>
    intro p p' t _
    simp [Expression_zero, Expression1_zero, Term_zero, Term1_zero, Factor_zero]
  | succ k ih =>
    intro p p' t hin
    refine ⟨?_, ?_, ?_, ?_, ?_⟩
    · intro h
      obtain ⟨tnode, p1, e1node, h1, h2, -⟩ := (Expression_ok_iff k p p' t).1 h
      obtain ⟨i1, m1⟩ := (ih p p1 tnode hin).2.2.1 h1
      obtain ⟨i2, m2⟩ := (ih p1 p' e1node i1).2.1 h2
      exact ⟨i2, by omega⟩
    · intro h
      rcases (Expression1_ok_iff k p p' t).1 h with
        ⟨hk, p1, tnode, p2, e1node, h0, h1, h2, -⟩ | ⟨hk, p1, tnode, p2, e1node, h0, h1, h2, -⟩ |
        ⟨-, -, -, rfl⟩
      · obtain ⟨i0, m0⟩ := GetNextToken_measure_token p p1 h0 hin (by rw [hk]; simp)
        obtain ⟨i1, m1⟩ := (ih p1 p2 tnode i0).2.2.1 h1
        obtain ⟨i2, m2⟩ := (ih p2 p' e1node i1).2.1 h2
        exact ⟨i2, by omega⟩
      · obtain ⟨i0, m0⟩ := GetNextToken_measure_token p p1 h0 hin (by rw [hk]; simp)
        obtain ⟨i1, m1⟩ := (ih p1 p2 tnode i0).2.2.1 h1
        obtain ⟨i2, m2⟩ := (ih p2 p' e1node i1).2.1 h2
        exact ⟨i2, by omega⟩
      · exact ⟨hin, le_refl _⟩
    · intro h
      obtain ⟨fnode, p1, t1node, h1, h2, -⟩ := (Term_ok_iff k p p' t).1 h
      obtain ⟨i1, m1⟩ := (ih p p1 fnode hin).2.2.2.2 h1
      obtain ⟨i2, m2⟩ := (ih p1 p' t1node i1).2.2.2.1 h2
      exact ⟨i2, by omega⟩
    · intro h
      rcases (Term1_ok_iff k p p' t).1 h with
        ⟨hk, p1, fnode, p2, t1node, h0, h1, h2, -⟩ | ⟨hk, p1, fnode, p2, t1node, h0, h1, h2, -⟩ |
        ⟨-, -, -, rfl⟩
      · obtain ⟨i0, m0⟩ := GetNextToken_measure_token p p1 h0 hin (by rw [hk]; simp)
        obtain ⟨i1, m1⟩ := (ih p1 p2 fnode i0).2.2.2.2 h1
        obtain ⟨i2, m2⟩ := (ih p2 p' t1node i1).2.2.2.1 h2
        exact ⟨i2, by omega⟩
      · obtain ⟨i0, m0⟩ := GetNextToken_measure_token p p1 h0 hin (by rw [hk]; simp)
        obtain ⟨i1, m1⟩ := (ih p1 p2 fnode i0).2.2.2.2 h1
        obtain ⟨i2, m2⟩ := (ih p2 p' t1node i1).2.2.2.1 h2
        exact ⟨i2, by omega⟩
      · exact ⟨hin, le_refl _⟩
    · intro h
      rcases (Factor_ok_iff k p p' t).1 h with
        ⟨hk, p1, p2, h0, h1, h2⟩ | ⟨hk, p1, node, h0, h1, -⟩ | ⟨hk, h0, -⟩
      · obtain ⟨i0, m0⟩ := GetNextToken_measure_token p p1 h0 hin (by rw [hk]; simp)
        obtain ⟨i1, m1⟩ := (ih p1 p2 t i0).1 h1
        obtain ⟨i2, m2⟩ := Match_measure_le ')' p2 p' h2 i1
        exact ⟨i2, by omega⟩
      · obtain ⟨i0, m0⟩ := GetNextToken_measure_token p p1 h0 hin (by rw [hk]; simp)
        obtain ⟨i1, m1⟩ := (ih p1 p' node i0).2.2.2.2 h1
        exact ⟨i1, by omega⟩
      · obtain ⟨i0, m0⟩ := GetNextToken_measure_token p p' h0 hin (by rw [hk]; simp)
        exact ⟨i0, m0⟩

theorem bind_ne_outOfFuel {α β : Type} (x : Except Failure α) (f : α → Except Failure β)
    (hx : x ≠ .error .outOfFuel) (hf : ∀ a, x = .ok a → f a ≠ .error .outOfFuel) :
    (x >>= f) ≠ .error .outOfFuel := by
  cases x with
  | error e =>
    rw [error_bind]
    intro h
    cases h
    exact hx rfl
  | ok a =>
    rw [ok_bind]
    exact hf a rfl

theorem pure_ne_outOfFuel {α : Type} (a : α) :
    (pure a : Except Failure α) ≠ .error .outOfFuel := by
  intro h
  cases h

theorem GetNextToken_ne_outOfFuel (p : Parser) : GetNextToken p ≠ .error .outOfFuel := by
  intro h
  rcases GetNextToken_error p _ h with h1 | ⟨i, h1⟩ | ⟨c, i, h1⟩ <;> cases h1

theorem Match_ne_outOfFuel (c : Char) (p : Parser) : Match c p ≠ .error .outOfFuel := by
  unfold Match
  split
  · exact GetNextToken_ne_outOfFuel p
  · intro h; cases h

theorem procs_fuel_enough : ∀ (k : Nat) (p : Parser), p.inText →
    (3 * p.measure + 3 ≤ k → Expression k p ≠ .error .outOfFuel) ∧
    (3 * p.measure + 1 ≤ k → Expression1 k p ≠ .error .outOfFuel) ∧
    (3 * p.measure + 2 ≤ k → Term k p ≠ .error .outOfFuel) ∧
    (3 * p.measure + 1 ≤ k → Term1 k p ≠ .error .outOfFuel) ∧
    (3 * p.measure + 1 ≤ k → Factor k p ≠ .error .outOfFuel) := by
  intro k
  induction k with
  | zero =>
    intro p _
    refine ⟨?_, ?_, ?_, ?_, ?_⟩ <;> intro h <;> omega
  | succ k ih =>
    intro p hin
    refine ⟨?_, ?_, ?_, ?_, ?_⟩
    · intro hk
      rw [Expression_succ]
      refine bind_ne_outOfFuel _ _ ((ih p hin).2.2.1 (by omega)) ?_
      rintro ⟨tnode, p1⟩ h1
      obtain ⟨i1, m1⟩ := (procs_measure k p p1 tnode hin).2.2.1 h1
      refine bind_ne_outOfFuel _ _ ((ih p1 i1).2.1 (by show 3 * p1.measure + 1 ≤ k; omega)) ?_
      intro r _
      exact pure_ne_outOfFuel _
    · intro hk
      have hstep : ∀ (op : ASTNodeType), p.m_crtToken.Kind ≠ .EndOfText →
          (GetNextToken p >>= fun p => Term k p >>= fun r =>
            Expression1 k r.2 >>= fun r' => pure (CreateNode op r'.1 r.1, r'.2))
            ≠ .error .outOfFuel := by
        intro op hne
        refine bind_ne_outOfFuel _ _ (GetNextToken_ne_outOfFuel p) ?_
        intro p1 h0
        obtain ⟨i0, m0⟩ := GetNextToken_measure_token p p1 h0 hin hne
        refine bind_ne_outOfFuel _ _ ((ih p1 i0).2.2.1 (by omega)) ?_
        rintro ⟨tnode, p2⟩ h1
        obtain ⟨i1, m1⟩ := (procs_measure k p1 p2 tnode i0).2.2.1 h1
        refine bind_ne_outOfFuel _ _
          ((ih p2 i1).2.1 (by show 3 * p2.measure + 1 ≤ k; omega)) ?_
        intro r _
        exact pure_ne_outOfFuel _
      by_cases hP : p.m_crtToken.Kind = .Plus
      · rw [Expression1_Plus k p hP]
        exact hstep _ (by rw [hP]; simp)
      · by_cases hM : p.m_crtToken.Kind = .Minus
        · rw [Expression1_Minus k p hM]
          exact hstep _ (by rw [hM]; simp)
        · rw [Expression1_other k p hP hM]
          intro h; cases h
    · intro hk
      rw [Term_succ]
      refine bind_ne_outOfFuel _ _ ((ih p hin).2.2.2.2 (by omega)) ?_
      rintro ⟨fnode, p1⟩ h1
      obtain ⟨i1, m1⟩ := (procs_measure k p p1 fnode hin).2.2.2.2 h1
      refine bind_ne_outOfFuel _ _
        ((ih p1 i1).2.2.2.1 (by show 3 * p1.measure + 1 ≤ k; omega)) ?_
      intro r _
      exact pure_ne_outOfFuel _
    · intro hk
      have hstep : ∀ (op : ASTNodeType), p.m_crtToken.Kind ≠ .EndOfText →
          (GetNextToken p >>= fun p => Factor k p >>= fun r =>
            Term1 k r.2 >>= fun r' => pure (CreateNode op r'.1 r.1, r'.2))
            ≠ .error .outOfFuel := by
        intro op hne
        refine bind_ne_outOfFuel _ _ (GetNextToken_ne_outOfFuel p) ?_
        intro p1 h0
        obtain ⟨i0, m0⟩ := GetNextToken_measure_token p p1 h0 hin hne
        refine bind_ne_outOfFuel _ _ ((ih p1 i0).2.2.2.2 (by omega)) ?_
        rintro ⟨fnode, p2⟩ h1
        obtain ⟨i1, m1⟩ := (procs_measure k p1 p2 fnode i0).2.2.2.2 h1
        refine bind_ne_outOfFuel _ _
          ((ih p2 i1).2.2.2.1 (by show 3 * p2.measure + 1 ≤ k; omega)) ?_
        intro r _
        exact pure_ne_outOfFuel _
      by_cases hP : p.m_crtToken.Kind = .Mul
      · rw [Term1_Mul k p hP]
        exact hstep _ (by rw [hP]; simp)
      · by_cases hM : p.m_crtToken.Kind = .Div
        · rw [Term1_Div k p hM]
          exact hstep _ (by rw [hM]; simp)
        · rw [Term1_other k p hP hM]
          intro h; cases h
    · intro hk
      by_cases hO : p.m_crtToken.Kind = .OpenParenthesis
      · rw [Factor_OpenParenthesis k p hO]
        refine bind_ne_outOfFuel _ _ (GetNextToken_ne_outOfFuel p) ?_
        intro p1 h0
        obtain ⟨i0, m0⟩ := GetNextToken_measure_token p p1 h0 hin (by rw [hO]; simp)
        refine bind_ne_outOfFuel _ _ ((ih p1 i0).1 (by omega)) ?_
        rintro ⟨node, p2⟩ _
        refine bind_ne_outOfFuel _ _ (Match_ne_outOfFuel _ _) ?_
        intro r _
        exact pure_ne_outOfFuel _
      · by_cases hM : p.m_crtToken.Kind = .Minus
        · rw [Factor_Minus k p hM]
          refine bind_ne_outOfFuel _ _ (GetNextToken_ne_outOfFuel p) ?_
          intro p1 h0
          obtain ⟨i0, m0⟩ := GetNextToken_measure_token p p1 h0 hin (by rw [hM]; simp)
          refine bind_ne_outOfFuel _ _ ((ih p1 i0).2.2.2.2 (by omega)) ?_
          intro r _
          exact pure_ne_outOfFuel _
        · by_cases hN : p.m_crtToken.Kind = .Number
          · rw [Factor_Number k p hN]
            refine bind_ne_outOfFuel _ _ (GetNextToken_ne_outOfFuel p) ?_
            intro r _
            exact pure_ne_outOfFuel _
          · rw [Factor_other k p hO hM hN]
            intro h; cases h

theorem bind_stable {α β : Type} (x x' : Except Failure α) (f f' : α → Except Failure β)
    (hx : x ≠ .error .outOfFuel → x' = x)
    (hf : ∀ a, x = .ok a → f a ≠ .error .outOfFuel → f' a = f a)
    (h : (x >>= f) ≠ .error .outOfFuel) : (x' >>= f') = (x >>= f) := by
  cases x with
  | error e =>
    rw [error_bind] at h
    have he : e ≠ .outOfFuel := fun he => h (by rw [he])
    rw [hx (fun h' => he (by cases h'; rfl))]
    rfl
  | ok a =>
    rw [ok_bind] at h
    rw [hx (by intro h'; cases h'), ok_bind, ok_bind]
    exact hf a rfl h

theorem procs_fuel_succ : ∀ (k : Nat) (p : Parser),
    (Expression k p ≠ .error .outOfFuel → Expression (k + 1) p = Expression k p) ∧
    (Expression1 k p ≠ .error .outOfFuel → Expression1 (k + 1) p = Expression1 k p) ∧
    (Term k p ≠ .error .outOfFuel → Term (k + 1) p = Term k p) ∧
    (Term1 k p ≠ .error .outOfFuel → Term1 (k + 1) p = Term1 k p) ∧
    (Factor k p ≠ .error .outOfFuel → Factor (k + 1) p = Factor k p) := by
  intro k
  induction k with
  | zero =>
    intro p
    simp [Expression_zero, Expression1_zero, Term_zero, Term1_zero, Factor_zero]
  | succ k ih =>
    intro p
    refine ⟨?_, ?_, ?_, ?_, ?_⟩
    · intro h
      rw [Expression_succ k p] at h
      rw [Expression_succ (k + 1) p, Expression_succ k p]
      refine bind_stable _ _ _ _ (ih p).2.2.1 ?_ h
      rintro ⟨tnode, p1⟩ _ h1
      refine bind_stable _ _ _ _ (ih p1).2.1 ?_ h1
      intro r _ _
      rfl
    · intro h
      have hstep : ∀ (op : ASTNodeType),
          (GetNextToken p >>= fun p => Term k p >>= fun r =>
            Expression1 k r.2 >>= fun r' => pure (CreateNode op r'.1 r.1, r'.2))
            ≠ .error .outOfFuel →
          (GetNextToken p >>= fun p => Term (k + 1) p >>= fun r =>
            Expression1 (k + 1) r.2 >>= fun r' => pure (CreateNode op r'.1 r.1, r'.2))
          = (GetNextToken p >>= fun p => Term k p >>= fun r =>
            Expression1 k r.2 >>= fun r' => pure (CreateNode op r'.1 r.1, r'.2)) := by
        intro op h
        refine bind_stable _ _ _ _ (fun _ => rfl) ?_ h
        intro p1 _ h0
        refine bind_stable _ _ _ _ (ih p1).2.2.1 ?_ h0
        rintro ⟨tnode, p2⟩ _ h1
        refine bind_stable _ _ _ _ (ih p2).2.1 ?_ h1
        intro r _ _
        rfl
      by_cases hP : p.m_crtToken.Kind = .Plus
      · rw [Expression1_Plus k p hP] at h
        rw [Expression1_Plus (k + 1) p hP, Expression1_Plus k p hP]
        exact hstep _ h
      · by_cases hM : p.m_crtToken.Kind = .Minus
        · rw [Expression1_Minus k p hM] at h
          rw [Expression1_Minus (k + 1) p hM, Expression1_Minus k p hM]
          exact hstep _ h
        · rw [Expression1_other (k + 1) p hP hM, Expression1_other k p hP hM]
    · intro h
      rw [Term_succ k p] at h
      rw [Term_succ (k + 1) p, Term_succ k p]
      refine bind_stable _ _ _ _ (ih p).2.2.2.2 ?_ h
      rintro ⟨fnode, p1⟩ _ h1
      refine bind_stable _ _ _ _ (ih p1).2.2.2.1 ?_ h1
      intro r _ _
      rfl
    · intro h
      have hstep : ∀ (op : ASTNodeType),
          (GetNextToken p >>= fun p => Factor k p >>= fun r =>
            Term1 k r.2 >>= fun r' => pure (CreateNode op r'.1 r.1, r'.2))
            ≠ .error .outOfFuel →
          (GetNextToken p >>= fun p => Factor (k + 1) p >>= fun r =>
            Term1 (k + 1) r.2 >>= fun r' => pure (CreateNode op r'.1 r.1, r'.2))
          = (GetNextToken p >>= fun p => Factor k p >>= fun r =>
            Term1 k r.2 >>= fun r' => pure (CreateNode op r'.1 r.1, r'.2)) := by
        intro op h
        refine bind_stable _ _ _ _ (fun _ => rfl) ?_ h
        intro p1 _ h0
        refine bind_stable _ _ _ _ (ih p1).2.2.2.2 ?_ h0
        rintro ⟨fnode, p2⟩ _ h1
        refine bind_stable _ _ _ _ (ih p2).2.2.2.1 ?_ h1
        intro r _ _
        rfl
      by_cases hP : p.m_crtToken.Kind = .Mul
      · rw [Term1_Mul k p hP] at h
        rw [Term1_Mul (k + 1) p hP, Term1_Mul k p hP]
        exact hstep _ h
      · by_cases hM : p.m_crtToken.Kind = .Div
        · rw [Term1_Div k p hM] at h
          rw [Term1_Div (k + 1) p hM, Term1_Div k p hM]
          exact hstep _ h
        · rw [Term1_other (k + 1) p hP hM, Term1_other k p hP hM]
    · intro h
      by_cases hO : p.m_crtToken.Kind = .OpenParenthesis
      · rw [Factor_OpenParenthesis k p hO] at h
        rw [Factor_OpenParenthesis (k + 1) p hO, Factor_OpenParenthesis k p hO]
        refine bind_stable _ _ _ _ (fun _ => rfl) ?_ h
        intro p1 _ h0
        refine bind_stable _ _ _ _ (ih p1).1 ?_ h0
        intro r _ _
        rfl
      · by_cases hM : p.m_crtToken.Kind = .Minus
        · rw [Factor_Minus k p hM] at h
          rw [Factor_Minus (k + 1) p hM, Factor_Minus k p hM]
          refine bind_stable _ _ _ _ (fun _ => rfl) ?_ h
          intro p1 _ h0
          refine bind_stable _ _ _ _ (ih p1).2.2.2.2 ?_ h0
          intro r _ _
          rfl
        · by_cases hN : p.m_crtToken.Kind = .Number
          · rw [Factor_Number (k + 1) p hN, Factor_Number k p hN]
          · rw [Factor_other (k + 1) p hO hM hN, Factor_other k p hO hM hN]

theorem Expression_fuel_stable (k n : Nat) (p : Parser)
    (h : Expression k p ≠ .error .outOfFuel) : Expression (k + n) p = Expression k p := by
  induction n with
  | zero => rfl
  | succ n ih =>
    rw [← Nat.add_assoc, (procs_fuel_succ (k + n) p).1 (by rw [ih]; exact h), ih]

theorem lex_inText (text : List Char) (q0 : Parser) (h : lex text 0 = .ok q0) :
    q0.inText ∧ q0.measure ≤ text.length := by
  have := GetNextToken_measure ⟨⟨.Error, 0, Char.ofNat 0⟩, text, 0⟩ q0 h (Nat.zero_le _)
  simpa using this

theorem Parse_ne_outOfFuel (text : List Char) (n : Nat) :
    (lex text 0 >>= Expression (3 * text.length + 8 + n)) ≠ .error .outOfFuel := by
  refine bind_ne_outOfFuel _ _ (GetNextToken_ne_outOfFuel _) ?_
  intro q0 h0
  obtain ⟨hin, hm⟩ := lex_inText text q0 h0
  exact (procs_fuel_enough _ q0 hin).1 (by omega)

theorem Invokes_rank {c d : Call} (h : Invokes c d) (hin : c.state.inText) :
    d.state.inText ∧ d.rank < c.rank ∧ d.fuel + 1 = c.fuel := by
  cases h with
  | expression_term k p => exact ⟨hin, by simp [Call.rank, Proc.level], rfl⟩
  | expression_expression1 k p p1 tnode h =>
    obtain ⟨i1, m1⟩ := (procs_measure k p p1 tnode hin).2.2.1 h
    exact ⟨i1, by simp only [Call.rank, Proc.level]; omega, rfl⟩
  | expression1_term k p p1 hk h =>
    obtain ⟨i0, m0⟩ := GetNextToken_measure_token p p1 h hin
      (by rcases hk with hk | hk <;> rw [hk] <;> simp)
    exact ⟨i0, by simp only [Call.rank, Proc.level]; omega, rfl⟩
  | expression1_expression1 k p p1 p2 tnode hk h h1 =>
    obtain ⟨i0, m0⟩ := GetNextToken_measure_token p p1 h hin
      (by rcases hk with hk | hk <;> rw [hk] <;> simp)
    obtain ⟨i1, m1⟩ := (procs_measure k p1 p2 tnode i0).2.2.1 h1
    exact ⟨i1, by simp only [Call.rank, Proc.level]; omega, rfl⟩
  | term_factor k p => exact ⟨hin, by simp [Call.rank, Proc.level], rfl⟩
  | term_term1 k p p1 fnode h =>
    obtain ⟨i1, m1⟩ := (procs_measure k p p1 fnode hin).2.2.2.2 h
    exact ⟨i1, by simp only [Call.rank, Proc.level]; omega, rfl⟩
  | term1_factor k p p1 hk h =>
    obtain ⟨i0, m0⟩ := GetNextToken_measure_token p p1 h hin
      (by rcases hk with hk | hk <;> rw [hk] <;> simp)
    exact ⟨i0, by simp only [Call.rank, Proc.level]; omega, rfl⟩
  | term1_term1 k p p1 p2 fnode hk h h1 =>
    obtain ⟨i0, m0⟩ := GetNextToken_measure_token p p1 h hin
      (by rcases hk with hk | hk <;> rw [hk] <;> simp)
    obtain ⟨i1, m1⟩ := (procs_measure k p1 p2 fnode i0).2.2.2.2 h1
    exact ⟨i1, by simp only [Call.rank, Proc.level]; omega, rfl⟩
  | factor_expression k p p1 hk h =>
    obtain ⟨i0, m0⟩ := GetNextToken_measure_token p p1 h hin (by rw [hk]; simp)
    exact ⟨i0, by simp only [Call.rank, Proc.level]; omega, rfl⟩
  | factor_factor k p p1 hk h =>
    obtain ⟨i0, m0⟩ := GetNextToken_measure_token p p1 h hin (by rw [hk]; simp)
    exact ⟨i0, by simp only [Call.rank, Proc.level]; omega, rfl⟩

theorem Reaches_rank {text : List Char} {q0 : Parser} {c : Call} (h : Reaches text q0 c)
    (h0 : lex text 0 = .ok q0) : c.state.inText ∧ c.rank + 5 ≤ c.fuel := by
  obtain ⟨hin, hm⟩ := lex_inText text q0 h0
  unfold Reaches at h
  induction h with
  | refl =>
    refine ⟨hin, ?_⟩
    simp only [entry, Call.rank, Proc.level]
    omega
  | tail _ hstep ih =>
    obtain ⟨i1, r1, f1⟩ := Invokes_rank hstep ih.1
    exact ⟨i1, by omega⟩

theorem callsExpression_succ (k : Nat) (p : Parser) :
    callsExpression (k + 1) p = 1 + callsTerm k p +
      (match Term k p with
       | .ok (_, p) => callsExpression1 k p
       | .error _ => 0) := by
  rw [callsExpression]

theorem callsTerm_succ (k : Nat) (p : Parser) :
    callsTerm (k + 1) p = 1 + callsFactor k p +
      (match Factor k p with
       | .ok (_, p) => callsTerm1 k p
       | .error _ => 0) := by
  rw [callsTerm]

theorem callsExpression1_op (k : Nat) (p : Parser)
    (h : p.m_crtToken.Kind = .Plus ∨ p.m_crtToken.Kind = .Minus) :
    callsExpression1 (k + 1) p =
      match GetNextToken p with
      | .ok p =>
        1 + callsTerm k p +
          (match Term k p with
           | .ok (_, p) => callsExpression1 k p
           | .error _ => 0)
      | .error _ => 1 := by
  rw [callsExpression1]
  rcases h with h | h <;> simp only [h]

theorem callsExpression1_other (k : Nat) (p : Parser) (h1 : p.m_crtToken.Kind ≠ .Plus)
    (h2 : p.m_crtToken.Kind ≠ .Minus) : callsExpression1 (k + 1) p = 1 := by
  rw [callsExpression1]; split <;> first | contradiction | rfl

theorem callsTerm1_op (k : Nat) (p : Parser)
    (h : p.m_crtToken.Kind = .Mul ∨ p.m_crtToken.Kind = .Div) :
    callsTerm1 (k + 1) p =
      match GetNextToken p with
      | .ok p =>
        1 + callsFactor k p +
          (match Factor k p with
           | .ok (_, p) => callsTerm1 k p
           | .error _ => 0)
      | .error _ => 1 := by
  rw [callsTerm1]
  rcases h with h | h <;> simp only [h]

theorem callsTerm1_other (k : Nat) (p : Parser) (h1 : p.m_crtToken.Kind ≠ .Mul)
    (h2 : p.m_crtToken.Kind ≠ .Div) : callsTerm1 (k + 1) p = 1 := by
  rw [callsTerm1]; split <;> first | contradiction | rfl

theorem callsFactor_OpenParenthesis (k : Nat) (p : Parser)
    (h : p.m_crtToken.Kind = .OpenParenthesis) :
    callsFactor (k + 1) p =
      match GetNextToken p with
      | .ok p => 1 + callsExpression k p
      | .error _ => 1 := by
  rw [callsFactor]; simp only [h]

theorem callsFactor_Minus (k : Nat) (p : Parser) (h : p.m_crtToken.Kind = .Minus) :
    callsFactor (k + 1) p =
      match GetNextToken p with
      | .ok p => 1 + callsFactor k p
      | .error _ => 1 := by
  rw [callsFactor]; simp only [h]

theorem callsFactor_other (k : Nat) (p : Parser) (h1 : p.m_crtToken.Kind ≠ .OpenParenthesis)
    (h2 : p.m_crtToken.Kind ≠ .Minus) : callsFactor (k + 1) p = 1 := by
  rw [callsFactor]; split <;> first | contradiction | rfl

theorem callsExpression1_op_ok (k : Nat) (p p1 : Parser)
    (h : p.m_crtToken.Kind = .Plus ∨ p.m_crtToken.Kind = .Minus)
    (h0 : GetNextToken p = .ok p1) :
    callsExpression1 (k + 1) p = 1 + callsTerm k p1 +
      (match Term k p1 with
       | .ok (_, p) => callsExpression1 k p
       | .error _ => 0) := by
  rw [callsExpression1_op k p h, h0]

theorem callsExpression1_op_error (k : Nat) (p : Parser) (e : Failure)
    (h : p.m_crtToken.Kind = .Plus ∨ p.m_crtToken.Kind = .Minus)
    (h0 : GetNextToken p = .error e) : callsExpression1 (k + 1) p = 1 := by
  rw [callsExpression1_op k p h, h0]

theorem callsTerm1_op_ok (k : Nat) (p p1 : Parser)
    (h : p.m_crtToken.Kind = .Mul ∨ p.m_crtToken.Kind = .Div)
    (h0 : GetNextToken p = .ok p1) :
    callsTerm1 (k + 1) p = 1 + callsFactor k p1 +
      (match Factor k p1 with
       | .ok (_, p) => callsTerm1 k p
       | .error _ => 0) := by
  rw [callsTerm1_op k p h, h0]

theorem callsTerm1_op_error (k : Nat) (p : Parser) (e : Failure)
    (h : p.m_crtToken.Kind = .Mul ∨ p.m_crtToken.Kind = .Div)
    (h0 : GetNextToken p = .error e) : callsTerm1 (k + 1) p = 1 := by
  rw [callsTerm1_op k p h, h0]

theorem callsFactor_nested (k : Nat) (p : Parser) :
    (∀ p1, p.m_crtToken.Kind = .OpenParenthesis → GetNextToken p = .ok p1 →
      callsFactor (k + 1) p = 1 + callsExpression k p1)
    ∧ (∀ p1, p.m_crtToken.Kind = .Minus → GetNextToken p = .ok p1 →
      callsFactor (k + 1) p = 1 + callsFactor k p1)
    ∧ (∀ e, GetNextToken p = .error e → callsFactor (k + 1) p = 1) := by
  refine ⟨?_, ?_, ?_⟩
  · intro p1 h h0
    rw [callsFactor_OpenParenthesis k p h, h0]
  · intro p1 h h0
    rw [callsFactor_Minus k p h, h0]
  · intro e h0
    by_cases hO : p.m_crtToken.Kind = .OpenParenthesis
    · rw [callsFactor_OpenParenthesis k p hO, h0]
    · by_cases hM : p.m_crtToken.Kind = .Minus
      · rw [callsFactor_Minus k p hM, h0]
      · exact callsFactor_other k p hO hM

theorem calls_bound : ∀ (k : Nat) (p : Parser), p.inText →
    (callsExpression k p ≤ 5 * p.measure + 3 ∧
      ∀ t p', Expression k p = .ok (t, p') → callsExpression k p + 5 * p'.measure ≤ 5 * p.measure) ∧
    (callsExpression1 k p ≤ 5 * p.measure + 1 ∧
      ∀ t p', Expression1 k p = .ok (t, p') →
        callsExpression1 k p + 5 * p'.measure ≤ 5 * p.measure + 1) ∧
    (callsTerm k p ≤ 5 * p.measure + 2 ∧
      ∀ t p', Term k p = .ok (t, p') → callsTerm k p + 5 * p'.measure + 2 ≤ 5 * p.measure) ∧
    (callsTerm1 k p ≤ 5 * p.measure + 1 ∧
      ∀ t p', Term1 k p = .ok (t, p') → callsTerm1 k p + 5 * p'.measure ≤ 5 * p.measure + 1) ∧
    (callsFactor k p ≤ 5 * p.measure + 1 ∧
      ∀ t p', Factor k p = .ok (t, p') → callsFactor k p + 5 * p'.measure + 4 ≤ 5 * p.measure) := by
  intro k
  induction k with
  | zero =>
    intro p _
    simp [Expression_zero, Expression1_zero, Term_zero, Term1_zero, Factor_zero,
      callsExpression, callsExpression1, callsTerm, callsTerm1, callsFactor]
  | succ k ih =>
    intro p hin
    refine ⟨?_, ?_, ?_, ?_, ?_⟩
    · -- Expression
      rw [callsExpression_succ]
      have hT := (ih p hin).2.2.1
      cases hr : Term k p with
      | error e =>
        refine ⟨by simp only; omega, ?_⟩
        intro t p' h
        obtain ⟨tn, p1, e1, h1, -, -⟩ := (Expression_ok_iff k p p' t).1 h
        rw [hr] at h1; cases h1
      | ok r =>
        obtain ⟨tn, p1⟩ := r
        obtain ⟨i1, -⟩ := (procs_measure k p p1 tn hin).2.2.1 hr
        have hT2 := hT.2 tn p1 hr
        have hE1 := (ih p1 i1).2.1
        refine ⟨by simp only; omega, ?_⟩
        intro t p' h
        obtain ⟨tn', p1', e1, h1, h2, -⟩ := (Expression_ok_iff k p p' t).1 h
        rw [hr] at h1; cases h1
        have := hE1.2 e1 p' h2
        simp only
        omega
    · -- Expression1
      by_cases hop : p.m_crtToken.Kind = .Plus ∨ p.m_crtToken.Kind = .Minus
      · have hne : p.m_crtToken.Kind ≠ .EndOfText := by
          rcases hop with h | h <;> rw [h] <;> simp
        cases h0 : GetNextToken p with
        | error e =>
          rw [callsExpression1_op_error k p e hop h0]
          refine ⟨by omega, ?_⟩
          intro t p' h
          rcases (Expression1_ok_iff k p p' t).1 h with
            ⟨-, p1, tn, p2, e1, h0', -⟩ | ⟨-, p1, tn, p2, e1, h0', -⟩ | ⟨h1, h2, -⟩
          · rw [h0] at h0'; cases h0'
          · rw [h0] at h0'; cases h0'
          · rcases hop with h | h
            · exact absurd h h1
            · exact absurd h h2
        | ok p1 =>
          obtain ⟨i0, m0⟩ := GetNextToken_measure_token p p1 h0 hin hne
          have hT := (ih p1 i0).2.2.1
          rw [callsExpression1_op_ok k p p1 hop h0]
          cases hr : Term k p1 with
          | error e =>
            refine ⟨by simp only; omega, ?_⟩
            intro t p' h
            rcases (Expression1_ok_iff k p p' t).1 h with
              ⟨-, p1', tn, p2, e1, h0', h1, -⟩ | ⟨-, p1', tn, p2, e1, h0', h1, -⟩ | ⟨h1, h2, -⟩
            · rw [h0] at h0'; cases h0'; rw [hr] at h1; cases h1
            · rw [h0] at h0'; cases h0'; rw [hr] at h1; cases h1
            · rcases hop with h | h
              · exact absurd h h1
              · exact absurd h h2
          | ok r =>
            obtain ⟨tn, p2⟩ := r
            obtain ⟨i1, -⟩ := (procs_measure k p1 p2 tn i0).2.2.1 hr
            have hT2 := hT.2 tn p2 hr
            have hE1 := (ih p2 i1).2.1
            refine ⟨by simp only; omega, ?_⟩
            intro t p' h
            rcases (Expression1_ok_iff k p p' t).1 h with
              ⟨-, p1', tn', p2', e1, h0', h1, h2, -⟩ | ⟨-, p1', tn', p2', e1, h0', h1, h2, -⟩ |
              ⟨h1, h2, -⟩
            · rw [h0] at h0'; cases h0'; rw [hr] at h1; cases h1
              have := hE1.2 e1 p' h2
              simp only
              omega
            · rw [h0] at h0'; cases h0'; rw [hr] at h1; cases h1
              have := hE1.2 e1 p' h2
              simp only
              omega
            · rcases hop with h | h
              · exact absurd h h1
              · exact absurd h h2
      · push_neg at hop
        rw [callsExpression1_other k p hop.1 hop.2]
        refine ⟨by omega, ?_⟩
        intro t p' h
        rw [Expression1_other k p hop.1 hop.2] at h
        cases h
        omega
    · -- Term
      rw [callsTerm_succ]
      have hF := (ih p hin).2.2.2.2
      cases hr : Factor k p with
      | error e =>
        refine ⟨by simp only; omega, ?_⟩
        intro t p' h
        obtain ⟨fn, p1, t1, h1, -, -⟩ := (Term_ok_iff k p p' t).1 h
        rw [hr] at h1; cases h1
      | ok r =>
        obtain ⟨fn, p1⟩ := r
        obtain ⟨i1, -⟩ := (procs_measure k p p1 fn hin).2.2.2.2 hr
        have hF2 := hF.2 fn p1 hr
        have hT1 := (ih p1 i1).2.2.2.1
        refine ⟨by simp only; omega, ?_⟩
        intro t p' h
        obtain ⟨fn', p1', t1, h1, h2, -⟩ := (Term_ok_iff k p p' t).1 h
        rw [hr] at h1; cases h1
        have := hT1.2 t1 p' h2
        simp only
        omega
    · -- Term1
      by_cases hop : p.m_crtToken.Kind = .Mul ∨ p.m_crtToken.Kind = .Div
      · have hne : p.m_crtToken.Kind ≠ .EndOfText := by
          rcases hop with h | h <;> rw [h] <;> simp
        cases h0 : GetNextToken p with
        | error e =>
          rw [callsTerm1_op_error k p e hop h0]
          refine ⟨by omega, ?_⟩
          intro t p' h
          rcases (Term1_ok_iff k p p' t).1 h with
            ⟨-, p1, fn, p2, t1, h0', -⟩ | ⟨-, p1, fn, p2, t1, h0', -⟩ | ⟨h1, h2, -⟩
          · rw [h0] at h0'; cases h0'
          · rw [h0] at h0'; cases h0'
          · rcases hop with h | h
            · exact absurd h h1
            · exact absurd h h2
        | ok p1 =>
          obtain ⟨i0, m0⟩ := GetNextToken_measure_token p p1 h0 hin hne
          have hF := (ih p1 i0).2.2.2.2
          rw [callsTerm1_op_ok k p p1 hop h0]
          cases hr : Factor k p1 with
          | error e =>
            refine ⟨by simp only; omega, ?_⟩
            intro t p' h
            rcases (Term1_ok_iff k p p' t).1 h with
              ⟨-, p1', fn, p2, t1, h0', h1, -⟩ | ⟨-, p1', fn, p2, t1, h0', h1, -⟩ | ⟨h1, h2, -⟩
            · rw [h0] at h0'; cases h0'; rw [hr] at h1; cases h1
            · rw [h0] at h0'; cases h0'; rw [hr] at h1; cases h1
            · rcases hop with h | h
              · exact absurd h h1
              · exact absurd h h2
          | ok r =>
            obtain ⟨fn, p2⟩ := r
            obtain ⟨i1, -⟩ := (procs_measure k p1 p2 fn i0).2.2.2.2 hr
            have hF2 := hF.2 fn p2 hr
            have hT1 := (ih p2 i1).2.2.2.1
            refine ⟨by simp only; omega, ?_⟩
            intro t p' h
            rcases (Term1_ok_iff k p p' t).1 h with
              ⟨-, p1', fn', p2', t1, h0', h1, h2, -⟩ | ⟨-, p1', fn', p2', t1, h0', h1, h2, -⟩ |
              ⟨h1, h2, -⟩
            · rw [h0] at h0'; cases h0'; rw [hr] at h1; cases h1
              have := hT1.2 t1 p' h2
              simp only
              omega
            · rw [h0] at h0'; cases h0'; rw [hr] at h1; cases h1
              have := hT1.2 t1 p' h2
              simp only
              omega
            · rcases hop with h | h
              · exact absurd h h1
              · exact absurd h h2
      · push_neg at hop
        rw [callsTerm1_other k p hop.1 hop.2]
        refine ⟨by omega, ?_⟩
        intro t p' h
        rw [Term1_other k p hop.1 hop.2] at h
        cases h
        omega
    · -- Factor
      by_cases hO : p.m_crtToken.Kind = .OpenParenthesis
      · cases h0 : GetNextToken p with
        | error e =>
          rw [(callsFactor_nested k p).2.2 e h0]
          refine ⟨by omega, ?_⟩
          intro t p' h
          rcases (Factor_ok_iff k p p' t).1 h with
            ⟨-, p1, p2, h0', -⟩ | ⟨hk, -⟩ | ⟨hk, -⟩
          · rw [h0] at h0'; cases h0'
          · rw [hO] at hk; cases hk
          · rw [hO] at hk; cases hk
        | ok p1 =>
          obtain ⟨i0, m0⟩ := GetNextToken_measure_token p p1 h0 hin (by rw [hO]; simp)
          have hE := (ih p1 i0).1
          rw [(callsFactor_nested k p).1 p1 hO h0]
          refine ⟨by omega, ?_⟩
          intro t p' h
          rcases (Factor_ok_iff k p p' t).1 h with
            ⟨-, p1', p2, h0', h1, h2⟩ | ⟨hk, -⟩ | ⟨hk, -⟩
          · rw [h0] at h0'; cases h0'
            obtain ⟨i1, -⟩ := (procs_measure k p1 p2 t i0).1 h1
            obtain ⟨-, m2⟩ := Match_measure_le ')' p2 p' h2 i1
            have := hE.2 t p2 h1
            omega
          · rw [hO] at hk; cases hk
          · rw [hO] at hk; cases hk
      · by_cases hM : p.m_crtToken.Kind = .Minus
        · cases h0 : GetNextToken p with
          | error e =>
            rw [(callsFactor_nested k p).2.2 e h0]
            refine ⟨by omega, ?_⟩
            intro t p' h
            rcases (Factor_ok_iff k p p' t).1 h with
              ⟨hk, -⟩ | ⟨-, p1, node, h0', -⟩ | ⟨hk, -⟩
            · rw [hM] at hk; cases hk
            · rw [h0] at h0'; cases h0'
            · rw [hM] at hk; cases hk
          | ok p1 =>
            obtain ⟨i0, m0⟩ := GetNextToken_measure_token p p1 h0 hin (by rw [hM]; simp)
            have hF := (ih p1 i0).2.2.2.2
            rw [(callsFactor_nested k p).2.1 p1 hM h0]
            refine ⟨by omega, ?_⟩
            intro t p' h
            rcases (Factor_ok_iff k p p' t).1 h with
              ⟨hk, -⟩ | ⟨-, p1', node, h0', h1, -⟩ | ⟨hk, -⟩
            · rw [hM] at hk; cases hk
            · rw [h0] at h0'; cases h0'
              have := hF.2 node p' h1
              omega
            · rw [hM] at hk; cases hk
        · rw [callsFactor_other k p hO hM]
          refine ⟨by omega, ?_⟩
          intro t p' h
          obtain ⟨-, m1⟩ := (procs_measure (k + 1) p p' t hin).2.2.2.2 h
          omega

theorem Invokes_calls {c d : Call} (h : Invokes c d) : d.calls < c.calls := by
  cases h with
  | expression_term k p =>
    simp only [Call.calls, callsExpression_succ]
    omega
  | expression_expression1 k p p1 tnode h =>
    simp only [Call.calls, callsExpression_succ, h]
    omega
  | expression1_term k p p1 hk h =>
    simp only [Call.calls, callsExpression1_op_ok k p p1 hk h]
    omega
  | expression1_expression1 k p p1 p2 tnode hk h h1 =>
    simp only [Call.calls, callsExpression1_op_ok k p p1 hk h, h1]
    omega
  | term_factor k p =>
    simp only [Call.calls, callsTerm_succ]
    omega
  | term_term1 k p p1 fnode h =>
    simp only [Call.calls, callsTerm_succ, h]
    omega
  | term1_factor k p p1 hk h =>
    simp only [Call.calls, callsTerm1_op_ok k p p1 hk h]
    omega
  | term1_term1 k p p1 p2 fnode hk h h1 =>
    simp only [Call.calls, callsTerm1_op_ok k p p1 hk h, h1]
    omega
  | factor_expression k p p1 hk h =>
    simp only [Call.calls, (callsFactor_nested k p).1 p1 hk h]
    omega
  | factor_factor k p p1 hk h =>
    simp only [Call.calls, (callsFactor_nested k p).2.1 p1 hk h]
    omega

/-- C19: `Parse` terminates on every text. The recursion budget `Parse` gives
to `Expression` is never used up, and every larger budget gives the same
result, so the five procedures define a total function. The rank of a call,
three times what is left to read plus the level of the procedure, decreases
along every call one procedure makes of another: a call is made after a token
has been consumed, or by a procedure of higher level in the same state.
`Factor` returns only after consuming a token, and it rejects the end of
input. The first call has rank at most `3 * length + 3`, every call the parse
reaches has budget left, every call a procedure makes is counted in the
number of its calls, and the whole parse makes at most `5 * length + 3` calls
of grammar procedures. -/
theorem C19_parse_terminates :
    (∀ (p : Parser) (text : List Char), Parse p text ≠ .error .outOfFuel)
    ∧ (∀ (p : Parser) (text : List Char) (n : Nat),
        (GetNextToken { p with m_Text := text, m_Index := 0 } >>=
          Expression (3 * text.length + 8 + n)) = Parse p text)
    ∧ (∀ c d : Call, Invokes c d → c.state.inText →
        d.state.inText ∧ d.rank < c.rank ∧ d.calls < c.calls)
    ∧ (∀ (k : Nat) (p p' : Parser) (t : ASTNode), p.inText → Factor k p = .ok (t, p') →
        p'.inText ∧ p'.measure + 1 ≤ p.measure)
    ∧ (∀ (k : Nat) (p : Parser), p.m_crtToken.Kind = .EndOfText →
        Factor (k + 1) p = .error (.thrown ⟨.UnexpectedToken p.m_crtToken.Symbol, p.m_Index⟩))
    ∧ (∀ (p0 q0 : Parser) (text : List Char),
        GetNextToken { p0 with m_Text := text, m_Index := 0 } = .ok q0 →
        q0.inText ∧ (entry text q0).rank ≤ 3 * text.length + 3
        ∧ (∀ c : Call, Reaches text q0 c → c.state.inText ∧ c.rank + 5 ≤ c.fuel)
        ∧ (entry text q0).calls ≤ 5 * text.length + 3) := by
  refine ⟨?_, ?_, ?_, ?_, ?_, ?_⟩
  · intro p text
    rw [Parse_eq]
    exact Parse_ne_outOfFuel text 0
  · intro p text n
    rw [Parse_eq]
    show (lex text 0 >>= Expression (3 * text.length + 8 + n))
      = (lex text 0 >>= Expression (3 * text.length + 8))
    cases h0 : lex text 0 with
    | error e => rfl
    | ok q0 =>
      rw [ok_bind, ok_bind]
      obtain ⟨hin, hm⟩ := lex_inText text q0 h0
      exact Expression_fuel_stable _ n q0 ((procs_fuel_enough _ q0 hin).1 (by omega))
  · intro c d h hin
    obtain ⟨h1, h2, -⟩ := Invokes_rank h hin
    exact ⟨h1, h2, Invokes_calls h⟩
  · intro k p p' t hin h
    exact (procs_measure k p p' t hin).2.2.2.2 h
  · intro k p hk
    exact Factor_other k p (by rw [hk]; simp) (by rw [hk]; simp) (by rw [hk]; simp)
  · intro p0 q0 text h0
    have h0' : lex text 0 = .ok q0 := h0
    obtain ⟨hin, hm⟩ := lex_inText text q0 h0'
    refine ⟨hin, ?_, fun c hc => Reaches_rank hc h0', ?_⟩
    · simp only [entry, Call.rank, Proc.level]
      omega
    · have := (calls_bound (3 * text.length + 8) q0 hin).1.1
      simp only [entry, Call.calls]
      omega

/-- C19 at the text `1`: after the first token has been read, the parse makes
at most 8 calls of grammar procedures. -/
theorem C19_parse_terminates_witness :
    (entry ['1'] ⟨⟨.Number, 1, Char.ofNat 0⟩, ['1'], 1⟩).calls ≤ 5 * ['1'].length + 3 :=
  (C19_parse_terminates.2.2.2.2.2 Parser.fresh ⟨⟨.Number, 1, Char.ofNat 0⟩, ['1'], 1⟩ ['1']
    (by simp [Parser.fresh, GetNextToken, SkipWhitespaces, scanWhile, isspace, isdigit, charAt,
      GetNumber, atof, digitsValue])).2.2.2

/-! ## Whitespace -/

theorem Boundary_ws {ws : List Char} {c : Char} {r : List Char} (hws : ws.all isspace = true)
    (hc : c ∈ ['+', '-', '*', '/', '(', ')']) : Boundary (ws ++ c :: r) := by
  cases ws with
  | nil => exact Boundary_of_symbol hc
  | cons w ws =>
    intro c' r' h
    simp only [List.cons_append, List.cons.injEq] at h
    simp only [List.all_cons, Bool.and_eq_true] at hws
    rw [← h.1]
    have hw := hws.1
    constructor
    · cases hd : isdigit w with
      | false => rfl
      | true => rw [isdigit_not_isspace hd] at hw; cases hw
    · rintro rfl
      revert hw
      decide

theorem Boundary_ws_nil {ws : List Char} (hws : ws.all isspace = true) : Boundary ws := by
  cases ws with
  | nil => exact Boundary_nil
  | cons w ws =>
    intro c' r' h
    cases h
    simp only [List.all_cons, Bool.and_eq_true] at hws
    have hw := hws.1
    constructor
    · cases hd : isdigit w with
      | false => rfl
      | true => rw [isdigit_not_isspace hd] at hw; cases hw
    · rintro rfl
      revert hw
      decide

theorem Exp1_boundary_ws (g : Nat → List Char) (hg : ∀ m, (g m).all isspace = true) (e1 : Exp1)
    (n : Nat) {rest : List Char} (h : Boundary rest) : Boundary (e1.spell g n ++ rest) := by
  cases e1 with
  | plus t e =>
    simp only [Exp1.spell, List.append_assoc, List.cons_append]
    exact Boundary_ws (hg n) (by simp)
  | minus t e =>
    simp only [Exp1.spell, List.append_assoc, List.cons_append]
    exact Boundary_ws (hg n) (by simp)
  | eps => simpa [Exp1.spell] using h

theorem Trm1_boundary_ws (g : Nat → List Char) (hg : ∀ m, (g m).all isspace = true) (t1 : Trm1)
    (n : Nat) {rest : List Char} (h : Boundary rest) : Boundary (t1.spell g n ++ rest) := by
  cases t1 with
  | mul t e =>
    simp only [Trm1.spell, List.append_assoc, List.cons_append]
    exact Boundary_ws (hg n) (by simp)
  | div t e =>
    simp only [Trm1.spell, List.append_assoc, List.cons_append]
    exact Boundary_ws (hg n) (by simp)
  | eps => simpa [Trm1.spell] using h

theorem StopE_of_symbol_ws {T : List Char} {j : Nat} {ws : List Char} {c : Char} {r : List Char}
    (h : T.drop j = ws ++ c :: r) (hws : ws.all isspace = true) (hc : c ∈ ['(', ')']) :
    StopE T j := by
  intro p' hp
  simp only [List.mem_cons, List.mem_singleton, List.not_mem_nil, or_false] at hc
  rw [lex_symbol_ws h hws (by rcases hc with rfl | rfl <;> simp)] at hp
  cases hp
  rcases hc with rfl | rfl <;> simp [symbolType]

theorem StopE_of_ws {T : List Char} {j : Nat} {ws : List Char} (h : T.drop j = ws)
    (hws : ws.all isspace = true) : StopE T j := by
  intro p' hp
  rw [lex_nil_ws h hws] at hp
  cases hp
  simp

theorem Exp1_stopT_ws (g : Nat → List Char) (hg : ∀ m, (g m).all isspace = true) (e1 : Exp1)
    (n : Nat) {T : List Char} {j : Nat} {rest : List Char}
    (hT : T.drop j = e1.spell g n ++ rest) (h : StopE T (j + (e1.spell g n).length)) :
    StopT T j := by
  cases e1 with
  | plus t e =>
    intro p' hp
    rw [lex_symbol_ws (c := '+') (by simpa [Exp1.spell] using hT) (hg n) (by simp)] at hp
    cases hp
    simp [symbolType]
  | minus t e =>
    intro p' hp
    rw [lex_symbol_ws (c := '-') (by simpa [Exp1.spell] using hT) (hg n) (by simp)] at hp
    cases hp
    simp [symbolType]
  | eps => simpa [Exp1.spell] using StopE_toT h

theorem drop_shift_symbol {T : List Char} {i : Nat} {ws : List Char} {c : Char} {r : List Char}
    (h : T.drop i = ws ++ c :: r) : T.drop (i + ws.length + 1) = r := by
  have h' : T.drop i = (ws ++ [c]) ++ r := by simpa using h
  have := drop_shift h'
  simpa [Nat.add_assoc] using this

mutual

theorem Expression_runs_ws (g : Nat → List Char) (hg : ∀ m, (g m).all isspace = true) :
    ∀ (e : Exp) (n : Nat) (T : List Char) (i : Nat) (rest : List Char) (fuel : Nat),
    e.litsOk → T.drop i = e.spell g n ++ rest → Boundary rest →
    StopE T (i + (e.spell g n).length) →
    e.depth ≤ fuel → Runs (Expression fuel) T i (e.spell g n).length e.tree
  | .mk t e1, n, T, i, rest, fuel, hok, hT, hB, hS, hfuel => by
    simp only [Exp.depth] at hfuel
    obtain ⟨k, rfl⟩ : ∃ k, fuel = k + 1 := ⟨fuel - 1, by omega⟩
    simp only [Exp.litsOk] at hok
    simp only [Exp.spell, List.append_assoc] at hT
    have hlen : i + ((Exp.mk t e1).spell g n).length
        = i + (t.spell g n).length + (e1.spell g (n + t.size)).length := by
      simp [Exp.spell]; omega
    rw [hlen] at hS
    have h1 := Term_runs_ws g hg t n T i (e1.spell g (n + t.size) ++ rest) k hok.1 hT
      (Exp1_boundary_ws g hg e1 _ hB) (Exp1_stopT_ws g hg e1 _ (drop_shift hT) hS) (by omega)
    have h2 := Expression1_runs_ws g hg e1 (n + t.size) T (i + (t.spell g n).length) rest k hok.2
      (drop_shift hT) hB hS (by omega)
    have := Runs_seq (fun a b => CreateNode .OperatorPlus a b) h1 h2
    unfold Runs
    rw [hlen]
    simpa only [Expression_succ, Exp.tree] using this

theorem Expression1_runs_ws (g : Nat → List Char) (hg : ∀ m, (g m).all isspace = true) :
    ∀ (e1 : Exp1) (n : Nat) (T : List Char) (i : Nat) (rest : List Char) (fuel : Nat),
    e1.litsOk → T.drop i = e1.spell g n ++ rest → Boundary rest →
    StopE T (i + (e1.spell g n).length) →
    e1.depth ≤ fuel → Runs (Expression1 fuel) T i (e1.spell g n).length e1.tree
  | .plus t e1, n, T, i, rest, fuel, hok, hT, hB, hS, hfuel => by
    simp only [Exp1.depth] at hfuel
    obtain ⟨k, rfl⟩ : ∃ k, fuel = k + 1 := ⟨fuel - 1, by omega⟩
    simp only [Exp1.litsOk] at hok
    simp only [Exp1.spell, List.cons_append, List.append_assoc] at hT
    have hlen : i + ((Exp1.plus t e1).spell g n).length
        = i + (g n).length + 1 + (t.spell g (n + 1)).length
          + (e1.spell g (n + 1 + t.size)).length := by
      simp [Exp1.spell]; omega
    rw [hlen] at hS
    have h0 := lex_symbol_ws hT (hg n) (by simp)
    have hT1 : T.drop (i + (g n).length + 1)
        = t.spell g (n + 1) ++ (e1.spell g (n + 1 + t.size) ++ rest) := drop_shift_symbol hT
    have h1 := Term_runs_ws g hg t (n + 1) T (i + (g n).length + 1)
      (e1.spell g (n + 1 + t.size) ++ rest) k hok.1 hT1
      (Exp1_boundary_ws g hg e1 _ hB) (Exp1_stopT_ws g hg e1 _ (drop_shift hT1) hS) (by omega)
    have h2 := Expression1_runs_ws g hg e1 (n + 1 + t.size) T
      (i + (g n).length + 1 + (t.spell g (n + 1)).length) rest k hok.2 (drop_shift hT1) hB hS
      (by omega)
    have := Runs_seq (fun a b => CreateNode .OperatorPlus b a) h1 h2
    unfold Runs
    rw [hlen, h0, ok_bind, Expression1_Plus k _ rfl, GetNextToken_eq_lex]
    simpa only [Exp1.tree] using this
  | .minus t e1, n, T, i, rest, fuel, hok, hT, hB, hS, hfuel => by
    simp only [Exp1.depth] at hfuel
    obtain ⟨k, rfl⟩ : ∃ k, fuel = k + 1 := ⟨fuel - 1, by omega⟩
    simp only [Exp1.litsOk] at hok
    simp only [Exp1.spell, List.cons_append, List.append_assoc] at hT
    have hlen : i + ((Exp1.minus t e1).spell g n).length
        = i + (g n).length + 1 + (t.spell g (n + 1)).length
          + (e1.spell g (n + 1 + t.size)).length := by
      simp [Exp1.spell]; omega
    rw [hlen] at hS
    have h0 := lex_symbol_ws hT (hg n) (by simp)
    have hT1 : T.drop (i + (g n).length + 1)
        = t.spell g (n + 1) ++ (e1.spell g (n + 1 + t.size) ++ rest) := drop_shift_symbol hT
    have h1 := Term_runs_ws g hg t (n + 1) T (i + (g n).length + 1)
      (e1.spell g (n + 1 + t.size) ++ rest) k hok.1 hT1
      (Exp1_boundary_ws g hg e1 _ hB) (Exp1_stopT_ws g hg e1 _ (drop_shift hT1) hS) (by omega)
    have h2 := Expression1_runs_ws g hg e1 (n + 1 + t.size) T
      (i + (g n).length + 1 + (t.spell g (n + 1)).length) rest k hok.2 (drop_shift hT1) hB hS
      (by omega)
    have := Runs_seq (fun a b => CreateNode .OperatorMinus b a) h1 h2
    unfold Runs
    rw [hlen, h0, ok_bind, Expression1_Minus k _ rfl, GetNextToken_eq_lex]
    simpa only [Exp1.tree] using this
  | .eps, n, T, i, rest, fuel, hok, hT, hB, hS, hfuel => by
    simp only [Exp1.depth] at hfuel
    obtain ⟨k, rfl⟩ : ∃ k, fuel = k + 1 := ⟨fuel - 1, by omega⟩
    simp only [Exp1.spell, List.length_nil, Nat.add_zero] at hS
    unfold Runs
    simp only [Exp1.spell, List.length_nil, Nat.add_zero, Exp1.tree]
    cases h : lex T i with
    | error e => rfl
    | ok p0 =>
      obtain ⟨⟨h1, h2⟩, -⟩ := hS p0 h
      rw [ok_bind, Expression1_other k p0 h1 h2]
      rfl

theorem Term_runs_ws (g : Nat → List Char) (hg : ∀ m, (g m).all isspace = true) :
    ∀ (t : Trm) (n : Nat) (T : List Char) (i : Nat) (rest : List Char) (fuel : Nat),
    t.litsOk → T.drop i = t.spell g n ++ rest → Boundary rest →
    StopT T (i + (t.spell g n).length) →
    t.depth ≤ fuel → Runs (Term fuel) T i (t.spell g n).length t.tree
  | .mk f t1, n, T, i, rest, fuel, hok, hT, hB, hS, hfuel => by
    simp only [Trm.depth] at hfuel
    obtain ⟨k, rfl⟩ : ∃ k, fuel = k + 1 := ⟨fuel - 1, by omega⟩
    simp only [Trm.litsOk] at hok
    simp only [Trm.spell, List.append_assoc] at hT
    have hlen : i + ((Trm.mk f t1).spell g n).length
        = i + (f.spell g n).length + (t1.spell g (n + f.size)).length := by
      simp [Trm.spell]; omega
    rw [hlen] at hS
    have h1 := Factor_runs_ws g hg f n T i (t1.spell g (n + f.size) ++ rest) k hok.1 hT
      (Trm1_boundary_ws g hg t1 _ hB) (by omega)
    have h2 := Term1_runs_ws g hg t1 (n + f.size) T (i + (f.spell g n).length) rest k hok.2
      (drop_shift hT) hB hS (by omega)
    have := Runs_seq (fun a b => CreateNode .OperatorMul a b) h1 h2
    unfold Runs
    rw [hlen]
    simpa only [Term_succ, Trm.tree] using this

theorem Term1_runs_ws (g : Nat → List Char) (hg : ∀ m, (g m).all isspace = true) :
    ∀ (t1 : Trm1) (n : Nat) (T : List Char) (i : Nat) (rest : List Char) (fuel : Nat),
    t1.litsOk → T.drop i = t1.spell g n ++ rest → Boundary rest →
    StopT T (i + (t1.spell g n).length) →
    t1.depth ≤ fuel → Runs (Term1 fuel) T i (t1.spell g n).length t1.tree
  | .mul f t1, n, T, i, rest, fuel, hok, hT, hB, hS, hfuel => by
    simp only [Trm1.depth] at hfuel
    obtain ⟨k, rfl⟩ : ∃ k, fuel = k + 1 := ⟨fuel - 1, by omega⟩
    simp only [Trm1.litsOk] at hok
    simp only [Trm1.spell, List.cons_append, List.append_assoc] at hT
    have hlen : i + ((Trm1.mul f t1).spell g n).length
        = i + (g n).length + 1 + (f.spell g (n + 1)).length
          + (t1.spell g (n + 1 + f.size)).length := by
      simp [Trm1.spell]; omega
    rw [hlen] at hS
    have h0 := lex_symbol_ws hT (hg n) (by simp)
    have hT1 : T.drop (i + (g n).length + 1)
        = f.spell g (n + 1) ++ (t1.spell g (n + 1 + f.size) ++ rest) := drop_shift_symbol hT
    have h1 := Factor_runs_ws g hg f (n + 1) T (i + (g n).length + 1)
      (t1.spell g (n + 1 + f.size) ++ rest) k hok.1 hT1 (Trm1_boundary_ws g hg t1 _ hB)
      (by omega)
    have h2 := Term1_runs_ws g hg t1 (n + 1 + f.size) T
      (i + (g n).length + 1 + (f.spell g (n + 1)).length) rest k hok.2 (drop_shift hT1) hB hS
      (by omega)
    have := Runs_seq (fun a b => CreateNode .OperatorMul b a) h1 h2
    unfold Runs
    rw [hlen, h0, ok_bind, Term1_Mul k _ rfl, GetNextToken_eq_lex]
    simpa only [Trm1.tree] using this
  | .div f t1, n, T, i, rest, fuel, hok, hT, hB, hS, hfuel => by
    simp only [Trm1.depth] at hfuel
    obtain ⟨k, rfl⟩ : ∃ k, fuel = k + 1 := ⟨fuel - 1, by omega⟩
    simp only [Trm1.litsOk] at hok
    simp only [Trm1.spell, List.cons_append, List.append_assoc] at hT
    have hlen : i + ((Trm1.div f t1).spell g n).length
        = i + (g n).length + 1 + (f.spell g (n + 1)).length
          + (t1.spell g (n + 1 + f.size)).length := by
      simp [Trm1.spell]; omega
    rw [hlen] at hS
    have h0 := lex_symbol_ws hT (hg n) (by simp)
    have hT1 : T.drop (i + (g n).length + 1)
        = f.spell g (n + 1) ++ (t1.spell g (n + 1 + f.size) ++ rest) := drop_shift_symbol hT
    have h1 := Factor_runs_ws g hg f (n + 1) T (i + (g n).length + 1)
      (t1.spell g (n + 1 + f.size) ++ rest) k hok.1 hT1 (Trm1_boundary_ws g hg t1 _ hB)
      (by omega)
    have h2 := Term1_runs_ws g hg t1 (n + 1 + f.size) T
      (i + (g n).length + 1 + (f.spell g (n + 1)).length) rest k hok.2 (drop_shift hT1) hB hS
      (by omega)
    have := Runs_seq (fun a b => CreateNode .OperatorDiv b a) h1 h2
    unfold Runs
    rw [hlen, h0, ok_bind, Term1_Div k _ rfl, GetNextToken_eq_lex]
    simpa only [Trm1.tree] using this
  | .eps, n, T, i, rest, fuel, hok, hT, hB, hS, hfuel => by
    simp only [Trm1.depth] at hfuel
    obtain ⟨k, rfl⟩ : ∃ k, fuel = k + 1 := ⟨fuel - 1, by omega⟩
    simp only [Trm1.spell, List.length_nil, Nat.add_zero] at hS
    unfold Runs
    simp only [Trm1.spell, List.length_nil, Nat.add_zero, Trm1.tree]
    cases h : lex T i with
    | error e => rfl
    | ok p0 =>
      obtain ⟨h1, h2⟩ := hS p0 h
      rw [ok_bind, Term1_other k p0 h1 h2]
      rfl

theorem Factor_runs_ws (g : Nat → List Char) (hg : ∀ m, (g m).all isspace = true) :
    ∀ (f : Fac) (n : Nat) (T : List Char) (i : Nat) (rest : List Char) (fuel : Nat),
    f.litsOk → T.drop i = f.spell g n ++ rest → Boundary rest →
    f.depth ≤ fuel → Runs (Factor fuel) T i (f.spell g n).length f.tree
  | .paren e, n, T, i, rest, fuel, hok, hT, hB, hfuel => by
    simp only [Fac.depth] at hfuel
    obtain ⟨k, rfl⟩ : ∃ k, fuel = k + 1 := ⟨fuel - 1, by omega⟩
    simp only [Fac.litsOk] at hok
    simp only [Fac.spell, List.cons_append, List.append_assoc, List.singleton_append] at hT
    have hlen : i + ((Fac.paren e).spell g n).length
        = i + (g n).length + 1 + (e.spell g (n + 1)).length + (g (n + 1 + e.size)).length + 1 := by
      simp [Fac.spell]; omega
    have h0 := lex_symbol_ws hT (hg n) (by simp)
    have hT1 : T.drop (i + (g n).length + 1)
        = e.spell g (n + 1) ++ (g (n + 1 + e.size) ++ ')' :: rest) := drop_shift_symbol hT
    have hT2 : T.drop (i + (g n).length + 1 + (e.spell g (n + 1)).length)
        = g (n + 1 + e.size) ++ ')' :: rest := drop_shift hT1
    have hT3 : T.drop (i + (g n).length + 1 + (e.spell g (n + 1)).length
        + (g (n + 1 + e.size)).length) = ')' :: rest := drop_shift hT2
    have h1 := Expression_runs_ws g hg e (n + 1) T (i + (g n).length + 1)
      (g (n + 1 + e.size) ++ ')' :: rest) k hok hT1 (Boundary_ws (hg _) (by simp))
      (StopE_of_symbol_ws hT2 (hg _) (by simp)) (by omega)
    have h2 := lex_symbol_ws hT2 (hg _) (by simp)
    unfold Runs at h1 ⊢
    rw [hlen, h0, ok_bind, Factor_OpenParenthesis k _ rfl, GetNextToken_eq_lex, ← bind_assoc,
      h1, bind_map_left, h2, ok_bind]
    simp only [Match, charAt_of_drop_cons hT3, Nat.add_sub_cancel, if_true, GetNextToken_eq_lex,
      Fac.tree]
    simp [bind_pure_comp]
  | .neg f, n, T, i, rest, fuel, hok, hT, hB, hfuel => by
    simp only [Fac.depth] at hfuel
    obtain ⟨k, rfl⟩ : ∃ k, fuel = k + 1 := ⟨fuel - 1, by omega⟩
    simp only [Fac.litsOk] at hok
    simp only [Fac.spell, List.cons_append, List.append_assoc] at hT
    have hlen : i + ((Fac.neg f).spell g n).length
        = i + (g n).length + 1 + (f.spell g (n + 1)).length := by
      simp [Fac.spell]; omega
    have h0 := lex_symbol_ws hT (hg n) (by simp)
    have hT1 : T.drop (i + (g n).length + 1) = f.spell g (n + 1) ++ rest := drop_shift_symbol hT
    have h1 := Factor_runs_ws g hg f (n + 1) T (i + (g n).length + 1) rest k hok hT1 hB (by omega)
    unfold Runs at h1 ⊢
    rw [hlen, h0, ok_bind, Factor_Minus k _ rfl, GetNextToken_eq_lex, ← bind_assoc, h1,
      bind_map_left]
    simp [bind_pure_comp, Fac.tree]
  | .num l, n, T, i, rest, fuel, hok, hT, hB, hfuel => by
    simp only [Fac.depth] at hfuel
    obtain ⟨k, rfl⟩ : ∃ k, fuel = k + 1 := ⟨fuel - 1, by omega⟩
    simp only [Fac.litsOk] at hok
    simp only [Fac.spell, List.append_assoc] at hT
    have hmax : l.maximal rest := fun c r h => ⟨(hB c r h).1, fun _ => (hB c r h).2⟩
    have h0 := lex_scan hT (hg n) hok.1 hmax
    have h32 : ¬ 32 ≤ l.text.length := by have := hok.2; unfold Literal.fits at this; omega
    simp only [h32, if_false] at h0
    unfold Runs
    rw [h0, ok_bind, Factor_Number k _ rfl, GetNextToken_eq_lex]
    simp [bind_pure_comp, Fac.tree, Fac.spell, Nat.add_assoc]

end

theorem Parse_fuel_stable (p : Parser) (text : List Char) (n : Nat) :
    (lex text 0 >>= Expression (3 * text.length + 8 + n)) = Parse p text := by
  rw [Parse_eq]
  cases h0 : lex text 0 with
  | error e => rfl
  | ok q0 =>
    rw [ok_bind, ok_bind]
    obtain ⟨hin, hm⟩ := lex_inText text q0 h0
    exact Expression_fuel_stable _ n q0 ((procs_fuel_enough _ q0 hin).1 (by omega))

theorem Parse_spell (p : Parser) (e : Exp) (g : Nat → List Char) (tail : List Char)
    (hok : e.litsOk) (hg : ∀ m, (g m).all isspace = true) (htail : tail.all isspace = true) :
    Parse p (e.spell g 0 ++ tail)
      = .ok (e.tree, ⟨⟨.EndOfText, 0, Char.ofNat 0⟩, e.spell g 0 ++ tail,
          (e.spell g 0 ++ tail).length⟩) := by
  have hend : (e.spell g 0 ++ tail).drop (0 + (e.spell g 0).length) = tail := by simp
  have h := Expression_runs_ws g hg e 0 (e.spell g 0 ++ tail) 0 tail
    (3 * (e.spell g 0 ++ tail).length + 8 + e.depth) hok (by simp) (Boundary_ws_nil htail)
    (StopE_of_ws hend htail) (by omega)
  unfold Runs at h
  rw [← Parse_fuel_stable p _ e.depth, h, lex_nil_ws hend htail]
  simp

mutual

theorem Exp_spell_nil : ∀ (e : Exp) (n : Nat), e.spell (fun _ => []) n = e.print
  | .mk t e1, n => by
    simp only [Exp.spell, Exp.print, Trm_spell_nil t, Exp1_spell_nil e1]

theorem Exp1_spell_nil : ∀ (e1 : Exp1) (n : Nat), e1.spell (fun _ => []) n = e1.print
  | .plus t e1, n => by
    simp only [Exp1.spell, Exp1.print, Trm_spell_nil t, Exp1_spell_nil e1, List.nil_append]
  | .minus t e1, n => by
    simp only [Exp1.spell, Exp1.print, Trm_spell_nil t, Exp1_spell_nil e1, List.nil_append]
  | .eps, n => by
    simp only [Exp1.spell, Exp1.print]

theorem Trm_spell_nil : ∀ (t : Trm) (n : Nat), t.spell (fun _ => []) n = t.print
  | .mk f t1, n => by
    simp only [Trm.spell, Trm.print, Fac_spell_nil f, Trm1_spell_nil t1]

theorem Trm1_spell_nil : ∀ (t1 : Trm1) (n : Nat), t1.spell (fun _ => []) n = t1.print
  | .mul f t1, n => by
    simp only [Trm1.spell, Trm1.print, Fac_spell_nil f, Trm1_spell_nil t1, List.nil_append]
  | .div f t1, n => by
    simp only [Trm1.spell, Trm1.print, Fac_spell_nil f, Trm1_spell_nil t1, List.nil_append]
  | .eps, n => by
    simp only [Trm1.spell, Trm1.print]

theorem Fac_spell_nil : ∀ (f : Fac) (n : Nat), f.spell (fun _ => []) n = f.print
  | .paren e, n => by
    simp only [Fac.spell, Fac.print, Exp_spell_nil e, List.nil_append]
  | .neg f, n => by
    simp only [Fac.spell, Fac.print, Fac_spell_nil f, List.nil_append]
  | .num l, n => by
    simp only [Fac.spell, Fac.print, List.nil_append]

end

set_option maxRecDepth 8000 in
/-- C15: whitespace after the last token can change whether `parse` succeeds:
`((1)` is parsed to a tree, and `((1) `, with a blank at the end, is rejected
with `ExpectedToken(')')` at position 5, because `Match` tests the character
before the cursor. The test `1 + 2.5` gives the tree of `1+2.5`. On the text
of a derivation of the grammar whose literals are well formed and at most 31
characters long, whitespace is insignificant: with any whitespace `g m` in
front of token number `m` and any whitespace at the end, `parse` returns the
tree of the derivation, as it does without whitespace. -/
theorem C15_whitespace_between_tokens :
    parse "((1)".toList = .ok (.Binary .OperatorPlus
        (.Binary .OperatorMul
          (.Binary .OperatorPlus
            (.Binary .OperatorMul
              (.Binary .OperatorPlus (.Binary .OperatorMul (.NumberValue 1) (.NumberValue 1))
                (.NumberValue 0))
              (.NumberValue 1))
            (.NumberValue 0))
          (.NumberValue 1))
        (.NumberValue 0))
    ∧ parse "((1) ".toList = .error (.thrown ⟨.ExpectedToken ')', 5⟩)
    ∧ parse "1 + 2.5".toList = parse "1+2.5".toList
    ∧ parse "1+2.5".toList = .ok (.Binary .OperatorPlus
        (.Binary .OperatorMul (.NumberValue 1) (.NumberValue 1))
        (.Binary .OperatorPlus (.NumberValue 0)
          (.Binary .OperatorMul (.NumberValue (5 / 2)) (.NumberValue 1))))
    ∧ (∀ (e : Exp) (g : Nat → List Char) (tail : List Char), e.litsOk →
        (∀ m, (g m).all isspace = true) → tail.all isspace = true →
        parse (e.spell g 0 ++ tail) = .ok e.tree
        ∧ parse (e.spell g 0 ++ tail) = parse e.print)
    ∧ (∀ e : Exp, e.spell (fun _ => []) 0 = e.print)
    ∧ (Exp.mk (litTerm lit1) (.plus (litTerm ⟨['2'], some ['5']⟩) .eps)).spell oneBlank 0
        = "1 + 2.5".toList := by
  refine ⟨?_, ?_, ?_, ?_, ?_, fun e => Exp_spell_nil e 0, ?_⟩
  · simp [parse, Parse, Parser.fresh, GetNextToken, SkipWhitespaces, scanWhile, isspace, isdigit,
      charAt, GetNumber, atof, digitsValue, symbolType, Expression, Expression1, Term, Term1,
      Factor, Match, CreateNode, CreateNodeNumber, CreateUnaryNode, bind, Except.bind, pure,
      Except.pure, Except.map]
  · simp [parse, Parse, Parser.fresh, GetNextToken, SkipWhitespaces, scanWhile, isspace, isdigit,
      charAt, GetNumber, atof, digitsValue, symbolType, Expression, Expression1, Term, Term1,
      Factor, Match, CreateNode, CreateNodeNumber, CreateUnaryNode, bind, Except.bind, pure,
      Except.pure, Except.map]
  · simp [parse, Parse, Parser.fresh, GetNextToken, SkipWhitespaces, scanWhile, isspace, isdigit,
      charAt, GetNumber, atof, digitsValue, symbolType, Expression, Expression1, Term, Term1,
      Factor, Match, CreateNode, CreateNodeNumber, CreateUnaryNode, bind, Except.bind, pure,
      Except.pure, Except.map]
  · simp [parse, Parse, Parser.fresh, GetNextToken, SkipWhitespaces, scanWhile, isspace, isdigit,
      charAt, GetNumber, atof, digitsValue, symbolType, Expression, Expression1, Term, Term1,
      Factor, Match, CreateNode, CreateNodeNumber, CreateUnaryNode, bind, Except.bind, pure,
      Except.pure, Except.map]
    norm_num
  · intro e g tail hok hg htail
    have h : parse (e.spell g 0 ++ tail) = .ok e.tree := by
      simp [parse, Parse_spell Parser.fresh e g tail hok hg htail, Except.map]
    exact ⟨h, by rw [h, parse_print e hok]⟩
  · simp [Exp.spell, Exp1.spell, Trm.spell, Trm1.spell, Fac.spell, Exp.size, Exp1.size, Trm.size,
      Trm1.size, Fac.size, litTerm, lit1, Literal.text, oneBlank]

/-! ## The operand of unary minus -/

set_option maxRecDepth 8000 in
/-- C20, as stated, fails: `parse` of `-1+2` does not return a `UnaryMinus`
node, and the tree it returns evaluates to 1, not to `-(1+2)`. -/
theorem C20_counterexample :
    (∀ t : ASTNode, parse "-1+2".toList ≠ .ok (.UnaryMinus t))
    ∧ parse "-1+2".toList = .ok (.Binary .OperatorPlus
          (.Binary .OperatorMul (.UnaryMinus (.NumberValue 1)) (.NumberValue 1))
          (.Binary .OperatorPlus (.NumberValue 0)
            (.Binary .OperatorMul (.NumberValue 2) (.NumberValue 1))))
    ∧ (parse "-1+2".toList).map evaluate = .ok 1
    ∧ (parse "-1+2".toList).map evaluate ≠ .ok (-(1 + 2)) := by
  refine ⟨?_, ?_, ?_, ?_⟩
  all_goals
    simp [parse, Parse, Parser.fresh, GetNextToken, SkipWhitespaces, scanWhile, isspace, isdigit,
      charAt, GetNumber, atof, digitsValue, symbolType, Expression, Expression1, Term, Term1,
      Factor, Match, CreateNode, CreateNodeNumber, CreateUnaryNode, bind, Except.bind, pure,
      Except.pure, Except.map, evaluate]
  all_goals norm_num

/-- C20, amended: after a unary `-` the parser parses a `Factor`, not a whole
expression, and negates that factor only. For all number literals `a` and
`b` that are well formed and at most 31 characters long, `parse` of `-a+b`
returns `Add(Mul(UnaryMinus(a), 1), Add(0, Mul(b, 1)))`, which is not a
`UnaryMinus` node; it evaluates to `(-a) + b`, in exact arithmetic and in
every arithmetic that obeys the laws of the neutral elements. -/
theorem C20_unary_minus_operand (a b : Literal) (ha : a.wf ∧ a.fits) (hb : b.wf ∧ b.fits) :
    parse ('-' :: a.text ++ '+' :: b.text) = .ok (.Binary .OperatorPlus
        (.Binary .OperatorMul (.UnaryMinus (.NumberValue a.value)) (.NumberValue 1))
        (.Binary .OperatorPlus (.NumberValue 0)
          (.Binary .OperatorMul (.NumberValue b.value) (.NumberValue 1))))
    ∧ (∀ t : ASTNode, parse ('-' :: a.text ++ '+' :: b.text) ≠ .ok (.UnaryMinus t))
    ∧ evaluate (.Binary .OperatorPlus
        (.Binary .OperatorMul (.UnaryMinus (.NumberValue a.value)) (.NumberValue 1))
        (.Binary .OperatorPlus (.NumberValue 0)
          (.Binary .OperatorMul (.NumberValue b.value) (.NumberValue 1))))
      = -a.value + b.value
    ∧ ∀ (α : Type) (A : Arithmetic α), A.Neutral →
      evaluateIn A (.Binary .OperatorPlus
        (.Binary .OperatorMul (.UnaryMinus (.NumberValue a.value)) (.NumberValue 1))
        (.Binary .OperatorPlus (.NumberValue 0)
          (.Binary .OperatorMul (.NumberValue b.value) (.NumberValue 1))))
      = A.add (A.neg (A.num a.value)) (A.num b.value) := by
  have hgen : parse ('-' :: a.text ++ '+' :: b.text) = .ok (.Binary .OperatorPlus
        (.Binary .OperatorMul (.UnaryMinus (.NumberValue a.value)) (.NumberValue 1))
        (.Binary .OperatorPlus (.NumberValue 0)
          (.Binary .OperatorMul (.NumberValue b.value) (.NumberValue 1)))) := by
    have h := parse_print
      (.mk (.mk (.neg (.num a)) .eps) (.plus (litTerm b) .eps))
      (by simp [Exp.litsOk, Exp1.litsOk, Trm.litsOk, Trm1.litsOk, Fac.litsOk, litTerm, ha, hb])
    simpa [Exp.print, Exp1.print, Trm.print, Trm1.print, Fac.print, litTerm, Exp.tree,
      Exp1.tree, Trm.tree, Trm1.tree, Fac.tree, CreateNode, CreateNodeNumber, CreateUnaryNode]
      using h
  refine ⟨hgen, ?_, ?_, ?_⟩
  · intro t h
    rw [hgen] at h
    cases h
  · simp only [evaluate]
    ring
  · intro α A hA
    simp only [evaluateIn]
    rw [hA.mul_one, hA.mul_one, hA.zero_add _ (Literal_value_nonneg b)]

/-- The amended C20 at the literals `1` and `2`, the text `-1+2`. -/
theorem C20_unary_minus_operand_witness :
    (lit1.wf ∧ lit1.fits) ∧ (lit2.wf ∧ lit2.fits) ∧
    (parse ('-' :: lit1.text ++ '+' :: lit2.text) = .ok (.Binary .OperatorPlus
        (.Binary .OperatorMul (.UnaryMinus (.NumberValue lit1.value)) (.NumberValue 1))
        (.Binary .OperatorPlus (.NumberValue 0)
          (.Binary .OperatorMul (.NumberValue lit2.value) (.NumberValue 1))))
    ∧ (∀ t : ASTNode, parse ('-' :: lit1.text ++ '+' :: lit2.text) ≠ .ok (.UnaryMinus t))
    ∧ evaluate (.Binary .OperatorPlus
        (.Binary .OperatorMul (.UnaryMinus (.NumberValue lit1.value)) (.NumberValue 1))
        (.Binary .OperatorPlus (.NumberValue 0)
          (.Binary .OperatorMul (.NumberValue lit2.value) (.NumberValue 1))))
      = -lit1.value + lit2.value
    ∧ ∀ (α : Type) (A : Arithmetic α), A.Neutral →
      evaluateIn A (.Binary .OperatorPlus
        (.Binary .OperatorMul (.UnaryMinus (.NumberValue lit1.value)) (.NumberValue 1))
        (.Binary .OperatorPlus (.NumberValue 0)
          (.Binary .OperatorMul (.NumberValue lit2.value) (.NumberValue 1))))
      = A.add (A.neg (A.num lit1.value)) (A.num lit2.value)) :=
  ⟨by decide, by decide, C20_unary_minus_operand lit1 lit2 (by decide) (by decide)⟩

/-! ## The failures a parse can return -/

theorem copyLength_eq (p : Parser) (j k k' n : Nat)
    (hj : j = scanWhile isspace (p.m_Text.drop p.m_Index) p.m_Index)
    (hk : k = scanWhile isdigit (p.m_Text.drop j) j)
    (hk' : k' = if charAt p.m_Text k = '.' then k + 1 else k)
    (hn : n = scanWhile isdigit (p.m_Text.drop k') k') :
    copyLength p = n - j := by
  subst hj hk
  by_cases hdot : charAt p.m_Text
      (scanWhile isdigit (p.m_Text.drop (scanWhile isspace (p.m_Text.drop p.m_Index) p.m_Index))
        (scanWhile isspace (p.m_Text.drop p.m_Index) p.m_Index)) = '.'
  · simp only [hdot, if_true] at hk'
    subst hk' hn
    simp [copyLength, SkipWhitespaces, hdot]
  · simp only [hdot, if_false] at hk'
    subst hk' hn
    simp [copyLength, SkipWhitespaces, hdot]

theorem GetNumber_copyLength (p : Parser) :
    ∃ n, GetNumber p =
      if copyLength p = 0 then .error (.thrown ⟨.NumberExpected, n⟩)
      else if 32 ≤ copyLength p then .error .bufferOverrun
      else .ok (atof ((p.m_Text.drop (SkipWhitespaces p).m_Index).take (copyLength p)),
        ⟨p.m_crtToken, p.m_Text, n⟩) := by
  obtain ⟨j, hj⟩ : ∃ j, j = scanWhile isspace (p.m_Text.drop p.m_Index) p.m_Index := ⟨_, rfl⟩
  obtain ⟨k, hk⟩ : ∃ k, k = scanWhile isdigit (p.m_Text.drop j) j := ⟨_, rfl⟩
  obtain ⟨k', hk'⟩ : ∃ k', k' = if charAt p.m_Text k = '.' then k + 1 else k := ⟨_, rfl⟩
  obtain ⟨n, hn⟩ : ∃ n, n = scanWhile isdigit (p.m_Text.drop k') k' := ⟨_, rfl⟩
  refine ⟨n, ?_⟩
  rw [GetNumber_eq p j k k' n hj hk hk' hn, copyLength_eq p j k k' n hj hk hk' hn]
  have hs : (SkipWhitespaces p).m_Index = j := by rw [hj]; rfl
  rw [hs]

theorem scanWhile_ge (pred : Char → Bool) (s : List Char) (i : Nat) : i ≤ scanWhile pred s i := by
  rw [scanWhile_eq_takeWhile]
  omega

theorem copyLength_digit (p : Parser) (hd : isdigit (charAt p.m_Text p.m_Index) = true) :
    1 ≤ copyLength p := by
  obtain ⟨j, hj⟩ : ∃ j, j = scanWhile isspace (p.m_Text.drop p.m_Index) p.m_Index := ⟨_, rfl⟩
  obtain ⟨k, hk⟩ : ∃ k, k = scanWhile isdigit (p.m_Text.drop j) j := ⟨_, rfl⟩
  obtain ⟨k', hk'⟩ : ∃ k', k' = if charAt p.m_Text k = '.' then k + 1 else k := ⟨_, rfl⟩
  obtain ⟨n, hn⟩ : ∃ n, n = scanWhile isdigit (p.m_Text.drop k') k' := ⟨_, rfl⟩
  rw [copyLength_eq p j k k' n hj hk hk' hn]
  have hji : j = p.m_Index := by
    rw [hj]
    exact SkipWhitespaces_stay p (isdigit_not_isspace hd)
  obtain ⟨c, r, hcr⟩ : ∃ c r, p.m_Text.drop j = c :: r := by
    cases h : p.m_Text.drop j with
    | nil => rw [← hji, charAt_of_drop_nil h] at hd; cases hd
    | cons c r => exact ⟨c, r, rfl⟩
  have hc : isdigit c = true := by rw [← hji, charAt_of_drop_cons hcr] at hd; exact hd
  have h1 : j + 1 ≤ k := by
    rw [hk, hcr]
    simp only [scanWhile, hc, if_true]
    exact scanWhile_ge _ _ _
  have h2 : k ≤ k' := by rw [hk']; split <;> omega
  have h3 : k' ≤ n := by rw [hn]; exact scanWhile_ge _ _ _
  omega

theorem GetNumber_digit (p : Parser) (hd : isdigit (charAt p.m_Text p.m_Index) = true) (i : Nat) :
    GetNumber p ≠ .error (.thrown ⟨.NumberExpected, i⟩) := by
  obtain ⟨n, hn⟩ := GetNumber_copyLength p
  have h1 := copyLength_digit p hd
  rw [hn]
  intro h
  split_ifs at h with h0 h32
  · omega
  · cases h

theorem GetNextToken_thrown (p : Parser) (e : ParserException)
    (h : GetNextToken p = .error (.thrown e)) :
    e = ⟨.UnexpectedToken (charAt p.m_Text (SkipWhitespaces p).m_Index),
      (SkipWhitespaces p).m_Index⟩ ∧ charAt p.m_Text (SkipWhitespaces p).m_Index ≠ Char.ofNat 0 := by
  unfold GetNextToken at h
  simp only at h
  split_ifs at h with hnul hdig hsym
  · split at h
    · cases h
    · rename_i f hf
      cases h
      rcases GetNumber_error _ _ hf with h1 | ⟨i, h1⟩
      · cases h1
      · rw [h1] at hf
        exact absurd hf (GetNumber_digit
          ⟨⟨.Number, 0, Char.ofNat 0⟩, (SkipWhitespaces p).m_Text, (SkipWhitespaces p).m_Index⟩
          hdig i)
  · cases h
    exact ⟨rfl, hnul⟩

theorem bind_eq_error {α β : Type} (x : Except Failure α) (f : α → Except Failure β)
    (e : Failure) :
    (x >>= f) = .error e ↔ x = .error e ∨ ∃ a, x = .ok a ∧ f a = .error e := by
  cases x with
  | error e' => simp [error_bind]
  | ok a => simp [ok_bind]

theorem pure_ne_error {α : Type} (a : α) (e : Failure) :
    (pure a : Except Failure α) ≠ .error e := by
  intro h
  cases h

theorem GetNextToken_within (T : List Char) (p p1 : Parser) (hT : p.m_Text = T)
    (hin : p.m_Index ≤ T.length) (h : GetNextToken p = .ok p1) :
    p1.within T ∧ p.m_Index ≤ p1.m_Index := by
  subst hT
  obtain ⟨h1, h2, h3, h4⟩ := GetNextToken_advance p p1 h hin
  refine ⟨⟨h1, by rw [← h1]; exact h3, fun hk => ?_⟩, h2⟩
  have := h4 hk
  omega

theorem Match_within (T : List Char) (c : Char) (p p1 : Parser) (hp : p.within T)
    (h : Match c p = .ok p1) : p1.within T ∧ p.m_Index ≤ p1.m_Index := by
  unfold Match at h
  split_ifs at h
  exact GetNextToken_within T p p1 hp.1 hp.2.1 h

theorem procs_within (T : List Char) : ∀ (k : Nat) (p p' : Parser) (t : ASTNode), p.within T →
    (Expression k p = .ok (t, p') → p'.within T ∧ p.m_Index ≤ p'.m_Index) ∧
    (Expression1 k p = .ok (t, p') → p'.within T ∧ p.m_Index ≤ p'.m_Index) ∧
    (Term k p = .ok (t, p') → p'.within T ∧ p.m_Index ≤ p'.m_Index) ∧
    (Term1 k p = .ok (t, p') → p'.within T ∧ p.m_Index ≤ p'.m_Index) ∧
    (Factor k p = .ok (t, p') → p'.within T ∧ p.m_Index ≤ p'.m_Index) := by
  intro k
  induction k with
  | zero =>
    intro p p' t _
    simp [Expression_zero, Expression1_zero, Term_zero, Term1_zero, Factor_zero]
  | succ k ih =>
    intro p p' t hp
    refine ⟨?_, ?_, ?_, ?_, ?_⟩
    · intro h
      obtain ⟨tnode, p1, e1node, h1, h2, -⟩ := (Expression_ok_iff k p p' t).1 h
      obtain ⟨w1, m1⟩ := (ih p p1 tnode hp).2.2.1 h1
      obtain ⟨w2, m2⟩ := (ih p1 p' e1node w1).2.1 h2
      exact ⟨w2, by omega⟩
    · intro h
      rcases (Expression1_ok_iff k p p' t).1 h with
        ⟨-, p1, tnode, p2, e1node, h0, h1, h2, -⟩ | ⟨-, p1, tnode, p2, e1node, h0, h1, h2, -⟩ |
        ⟨-, -, -, rfl⟩
      · obtain ⟨w0, m0⟩ := GetNextToken_within T p p1 hp.1 hp.2.1 h0
        obtain ⟨w1, m1⟩ := (ih p1 p2 tnode w0).2.2.1 h1
        obtain ⟨w2, m2⟩ := (ih p2 p' e1node w1).2.1 h2
        exact ⟨w2, by omega⟩
      · obtain ⟨w0, m0⟩ := GetNextToken_within T p p1 hp.1 hp.2.1 h0
        obtain ⟨w1, m1⟩ := (ih p1 p2 tnode w0).2.2.1 h1
        obtain ⟨w2, m2⟩ := (ih p2 p' e1node w1).2.1 h2
        exact ⟨w2, by omega⟩
      · exact ⟨hp, le_refl _⟩
    · intro h
      obtain ⟨fnode, p1, t1node, h1, h2, -⟩ := (Term_ok_iff k p p' t).1 h
      obtain ⟨w1, m1⟩ := (ih p p1 fnode hp).2.2.2.2 h1
      obtain ⟨w2, m2⟩ := (ih p1 p' t1node w1).2.2.2.1 h2
      exact ⟨w2, by omega⟩
    · intro h
      rcases (Term1_ok_iff k p p' t).1 h with
        ⟨-, p1, fnode, p2, t1node, h0, h1, h2, -⟩ | ⟨-, p1, fnode, p2, t1node, h0, h1, h2, -⟩ |
        ⟨-, -, -, rfl⟩
      · obtain ⟨w0, m0⟩ := GetNextToken_within T p p1 hp.1 hp.2.1 h0
        obtain ⟨w1, m1⟩ := (ih p1 p2 fnode w0).2.2.2.2 h1
        obtain ⟨w2, m2⟩ := (ih p2 p' t1node w1).2.2.2.1 h2
        exact ⟨w2, by omega⟩
      · obtain ⟨w0, m0⟩ := GetNextToken_within T p p1 hp.1 hp.2.1 h0
        obtain ⟨w1, m1⟩ := (ih p1 p2 fnode w0).2.2.2.2 h1
        obtain ⟨w2, m2⟩ := (ih p2 p' t1node w1).2.2.2.1 h2
        exact ⟨w2, by omega⟩
      · exact ⟨hp, le_refl _⟩
    · intro h
      rcases (Factor_ok_iff k p p' t).1 h with
        ⟨-, p1, p2, h0, h1, h2⟩ | ⟨-, p1, node, h0, h1, -⟩ | ⟨-, h0, -⟩
      · obtain ⟨w0, m0⟩ := GetNextToken_within T p p1 hp.1 hp.2.1 h0
        obtain ⟨w1, m1⟩ := (ih p1 p2 t w0).1 h1
        obtain ⟨w2, m2⟩ := Match_within T ')' p2 p' w1 h2
        exact ⟨w2, by omega⟩
      · obtain ⟨w0, m0⟩ := GetNextToken_within T p p1 hp.1 hp.2.1 h0
        obtain ⟨w1, m1⟩ := (ih p1 p' node w0).2.2.2.2 h1
        exact ⟨w1, by omega⟩
      · exact GetNextToken_within T p p' hp.1 hp.2.1 h0

theorem procs_origin (T : List Char) : ∀ (k : Nat) (p : Parser) (f : Failure), p.within T →
    (Expression k p = .error f → f.origin T) ∧
    (Expression1 k p = .error f → f.origin T) ∧
    (Term k p = .error f → f.origin T) ∧
    (Term1 k p = .error f → f.origin T) ∧
    (Factor k p = .error f → f.origin T) := by
  intro k
  induction k with
  | zero =>
    intro p f _
    refine ⟨?_, ?_, ?_, ?_, ?_⟩ <;> intro h
    · rw [Expression_zero] at h; cases h; exact Or.inl rfl
    · rw [Expression1_zero] at h; cases h; exact Or.inl rfl
    · rw [Term_zero] at h; cases h; exact Or.inl rfl
    · rw [Term1_zero] at h; cases h; exact Or.inl rfl
    · rw [Factor_zero] at h; cases h; exact Or.inl rfl
  | succ k ih =>
    intro p f hp
    have hlex : ∀ q : Parser, q.within T → GetNextToken q = .error f → f.origin T :=
      fun q hq h => Or.inr ⟨q, hq.1, hq.2.1, Or.inl h⟩
    refine ⟨?_, ?_, ?_, ?_, ?_⟩
    · intro h
      rw [Expression_succ, bind_eq_error] at h
      rcases h with h | ⟨⟨tnode, p1⟩, h1, h⟩
      · exact (ih p f hp).2.2.1 h
      · obtain ⟨w1, -⟩ := (procs_within T k p p1 tnode hp).2.2.1 h1
        rw [bind_eq_error] at h
        rcases h with h | ⟨r, -, h⟩
        · exact (ih p1 f w1).2.1 h
        · exact absurd h (pure_ne_error _ _)
    · intro h
      have hstep : ∀ (op : ASTNodeType),
          (GetNextToken p >>= fun p => Term k p >>= fun r =>
            Expression1 k r.2 >>= fun r' => pure (CreateNode op r'.1 r.1, r'.2)) = .error f →
          f.origin T := by
        intro op h
        rw [bind_eq_error] at h
        rcases h with h | ⟨p1, h0, h⟩
        · exact hlex p hp h
        · obtain ⟨w0, -⟩ := GetNextToken_within T p p1 hp.1 hp.2.1 h0
          rw [bind_eq_error] at h
          rcases h with h | ⟨⟨tnode, p2⟩, h1, h⟩
          · exact (ih p1 f w0).2.2.1 h
          · obtain ⟨w1, -⟩ := (procs_within T k p1 p2 tnode w0).2.2.1 h1
            rw [bind_eq_error] at h
            rcases h with h | ⟨r, -, h⟩
            · exact (ih p2 f w1).2.1 h
            · exact absurd h (pure_ne_error _ _)
      by_cases hP : p.m_crtToken.Kind = .Plus
      · rw [Expression1_Plus k p hP] at h
        exact hstep _ h
      · by_cases hM : p.m_crtToken.Kind = .Minus
        · rw [Expression1_Minus k p hM] at h
          exact hstep _ h
        · rw [Expression1_other k p hP hM] at h
          cases h
    · intro h
      rw [Term_succ, bind_eq_error] at h
      rcases h with h | ⟨⟨fnode, p1⟩, h1, h⟩
      · exact (ih p f hp).2.2.2.2 h
      · obtain ⟨w1, -⟩ := (procs_within T k p p1 fnode hp).2.2.2.2 h1
        rw [bind_eq_error] at h
        rcases h with h | ⟨r, -, h⟩
        · exact (ih p1 f w1).2.2.2.1 h
        · exact absurd h (pure_ne_error _ _)
    · intro h
      have hstep : ∀ (op : ASTNodeType),
          (GetNextToken p >>= fun p => Factor k p >>= fun r =>
            Term1 k r.2 >>= fun r' => pure (CreateNode op r'.1 r.1, r'.2)) = .error f →
          f.origin T := by
        intro op h
        rw [bind_eq_error] at h
        rcases h with h | ⟨p1, h0, h⟩
        · exact hlex p hp h
        · obtain ⟨w0, -⟩ := GetNextToken_within T p p1 hp.1 hp.2.1 h0
          rw [bind_eq_error] at h
          rcases h with h | ⟨⟨fnode, p2⟩, h1, h⟩
          · exact (ih p1 f w0).2.2.2.2 h
          · obtain ⟨w1, -⟩ := (procs_within T k p1 p2 fnode w0).2.2.2.2 h1
            rw [bind_eq_error] at h
            rcases h with h | ⟨r, -, h⟩
            · exact (ih p2 f w1).2.2.2.1 h
            · exact absurd h (pure_ne_error _ _)
      by_cases hP : p.m_crtToken.Kind = .Mul
      · rw [Term1_Mul k p hP] at h
        exact hstep _ h
      · by_cases hM : p.m_crtToken.Kind = .Div
        · rw [Term1_Div k p hM] at h
          exact hstep _ h
        · rw [Term1_other k p hP hM] at h
          cases h
    · intro h
      by_cases hO : p.m_crtToken.Kind = .OpenParenthesis
      · rw [Factor_OpenParenthesis k p hO, bind_eq_error] at h
        rcases h with h | ⟨p1, h0, h⟩
        · exact hlex p hp h
        · obtain ⟨w0, m0⟩ := GetNextToken_within T p p1 hp.1 hp.2.1 h0
          rw [bind_eq_error] at h
          rcases h with h | ⟨⟨node, p2⟩, h1, h⟩
          · exact (ih p1 f w0).1 h
          · obtain ⟨w1, m1⟩ := (procs_within T k p1 p2 node w0).1 h1
            rw [bind_eq_error] at h
            rcases h with h | ⟨r, -, h⟩
            · have hpos : 1 ≤ p2.m_Index := by
                have := hp.2.2 (by rw [hO]; simp)
                have m1' : p1.m_Index ≤ p2.m_Index := m1
                omega
              unfold Match at h
              split_ifs at h
              · exact hlex p2 w1 h
              · cases h
                exact Or.inr ⟨p2, w1.1, w1.2.1, Or.inr (Or.inr ⟨hpos, rfl⟩)⟩
            · exact absurd h (pure_ne_error _ _)
      · by_cases hM : p.m_crtToken.Kind = .Minus
        · rw [Factor_Minus k p hM, bind_eq_error] at h
          rcases h with h | ⟨p1, h0, h⟩
          · exact hlex p hp h
          · obtain ⟨w0, -⟩ := GetNextToken_within T p p1 hp.1 hp.2.1 h0
            rw [bind_eq_error] at h
            rcases h with h | ⟨r, -, h⟩
            · exact (ih p1 f w0).2.2.2.2 h
            · exact absurd h (pure_ne_error _ _)
        · by_cases hN : p.m_crtToken.Kind = .Number
          · rw [Factor_Number k p hN, bind_eq_error] at h
            rcases h with h | ⟨r, -, h⟩
            · exact hlex p hp h
            · exact absurd h (pure_ne_error _ _)
          · rw [Factor_other k p hO hM hN] at h
            cases h
            exact Or.inr ⟨p, hp.1, hp.2.1, Or.inr (Or.inl rfl)⟩

theorem Parse_origin (p : Parser) (text : List Char) (f : Failure)
    (h : Parse p text = .error f) : f.origin text := by
  rw [Parse_eq, bind_eq_error] at h
  rcases h with h | ⟨q0, h0, h⟩
  · exact Or.inr ⟨⟨⟨.Error, 0, Char.ofNat 0⟩, text, 0⟩, rfl, Nat.zero_le _, Or.inl h⟩
  · obtain ⟨w0, -⟩ := GetNextToken_within text ⟨⟨.Error, 0, Char.ofNat 0⟩, text, 0⟩ q0 rfl
      (Nat.zero_le _) h0
    exact (procs_origin text _ q0 f w0).1 h

theorem Parse_thrown (p : Parser) (text : List Char) (e : ParserException)
    (h : Parse p text = .error (.thrown e)) :
    ((∃ c, e.message = .UnexpectedToken c) ∨ e.message = .ExpectedToken ')')
      ∧ e.m_Pos ≤ text.length := by
  rcases Parse_origin p text _ h with h1 | ⟨q, hT, hin, h1 | h1 | ⟨-, h1⟩⟩
  · cases h1
  · obtain ⟨he, hnul⟩ := GetNextToken_thrown q e h1
    have hs := scanWhile_inText isspace q.m_Text q.m_Index (by rw [hT]; exact hin)
    rw [he]
    refine ⟨Or.inl ⟨_, rfl⟩, ?_⟩
    rw [← hT]
    exact hs.2
  · cases h1
    exact ⟨Or.inl ⟨_, rfl⟩, hin⟩
  · cases h1
    exact ⟨Or.inr rfl, hin⟩

set_option maxRecDepth 8000 in
/-- C21: `GetNumber`, called with the cursor on a digit, copies at least one
character and does not raise `NumberExpected`; called elsewhere it does, as on
the text `+`. `GetNextToken` calls it on a digit only, so every `ParseError`
`GetNextToken` raises is `UnexpectedToken`, and every `ParseError` that `Parse`
and `parse` return, on every text, is `UnexpectedToken` or
`ExpectedToken(')')`, never `NumberExpected`. -/
theorem C21_NumberExpected_unreachable :
    (∀ p : Parser, isdigit (charAt p.m_Text p.m_Index) = true →
      1 ≤ copyLength p ∧ ∀ i : Nat, GetNumber p ≠ .error (.thrown ⟨.NumberExpected, i⟩))
    ∧ (∀ (p : Parser) (e : ParserException), GetNextToken p = .error (.thrown e) →
        ∃ c, e.message = .UnexpectedToken c)
    ∧ (∀ (p : Parser) (text : List Char) (e : ParserException),
        Parse p text = .error (.thrown e) →
        (∃ c, e.message = .UnexpectedToken c) ∨ e.message = .ExpectedToken ')')
    ∧ (∀ (text : List Char) (e : ParserException), parse text = .error (.thrown e) →
        (∃ c, e.message = .UnexpectedToken c) ∨ e.message = .ExpectedToken ')')
    ∧ (∀ (text : List Char) (i : Nat), parse text ≠ .error (.thrown ⟨.NumberExpected, i⟩))
    ∧ GetNumber ⟨⟨.Error, 0, Char.ofNat 0⟩, ['+'], 0⟩ = .error (.thrown ⟨.NumberExpected, 0⟩)
    ∧ copyLength ⟨⟨.Error, 0, Char.ofNat 0⟩, ['+'], 0⟩ = 0 := by
  have hparse : ∀ (text : List Char) (e : ParserException), parse text = .error (.thrown e) →
      (∃ c, e.message = .UnexpectedToken c) ∨ e.message = .ExpectedToken ')' := by
    intro text e h
    have h' : Parse Parser.fresh text = .error (.thrown e) := by
      unfold parse at h
      cases hP : Parse Parser.fresh text with
      | error f => rw [hP] at h; cases h; rfl
      | ok r => rw [hP] at h; cases h
    exact (Parse_thrown _ _ _ h').1
  refine ⟨?_, ?_, ?_, hparse, ?_, ?_, ?_⟩
  · intro p hd
    exact ⟨copyLength_digit p hd, GetNumber_digit p hd⟩
  · intro p e h
    exact ⟨_, congrArg ParserException.message (GetNextToken_thrown p e h).1⟩
  · intro p text e h
    exact (Parse_thrown p text e h).1
  · intro text i h
    rcases hparse text _ h with ⟨c, hc⟩ | hc <;> cases hc
  · simp [GetNumber, SkipWhitespaces, scanWhile, isspace, isdigit, charAt]
  · simp [copyLength, SkipWhitespaces, scanWhile, isspace, isdigit, charAt]

set_option maxRecDepth 8000 in
/-- C21 at the text `(1 2`: the error `Parse` returns is `ExpectedToken(')')`. -/
theorem C21_NumberExpected_unreachable_witness :
    Parse Parser.fresh ['(', '1', ' ', '2'] = .error (.thrown ⟨.ExpectedToken ')', 4⟩)
    ∧ ((∃ c, (⟨.ExpectedToken ')', 4⟩ : ParserException).message = .UnexpectedToken c)
      ∨ (⟨.ExpectedToken ')', 4⟩ : ParserException).message = .ExpectedToken ')') := by
  have h : Parse Parser.fresh ['(', '1', ' ', '2']
      = .error (.thrown ⟨.ExpectedToken ')', 4⟩) := by
    simp [Parse, Parser.fresh, GetNextToken, SkipWhitespaces, scanWhile, isspace, isdigit,
      charAt, GetNumber, atof, digitsValue, symbolType, Expression, Expression1, Term, Term1,
      Factor, Match, CreateNode, CreateNodeNumber, CreateUnaryNode, bind, Except.bind, pure,
      Except.pure]
  exact ⟨h, C21_NumberExpected_unreachable.2.2.1 Parser.fresh _ _ h⟩

/-! ## The cursor -/

theorem GetNumber_cursors (p : Parser) (j k k' n : Nat) (hin : p.m_Index ≤ p.m_Text.length)
    (hj : j = scanWhile isspace (p.m_Text.drop p.m_Index) p.m_Index)
    (hk : k = scanWhile isdigit (p.m_Text.drop j) j)
    (hk' : k' = if charAt p.m_Text k = '.' then k + 1 else k)
    (hn : n = scanWhile isdigit (p.m_Text.drop k') k') :
    p.m_Index ≤ j ∧ j ≤ k ∧ k ≤ k' ∧ k' ≤ n ∧ n ≤ p.m_Text.length := by
  have b1 := scanWhile_inText isspace p.m_Text p.m_Index hin
  rw [← hj] at b1
  have b2 := scanWhile_inText isdigit p.m_Text j b1.2
  rw [← hk] at b2
  have b3 : k ≤ k' ∧ k' ≤ p.m_Text.length := by
    rw [hk']
    split
    · rename_i hdot
      have := charAt_lt p.m_Text k (by rw [hdot]; decide)
      omega
    · exact ⟨le_refl _, b2.2⟩
  have b4 := scanWhile_inText isdigit p.m_Text k' b3.2
  rw [← hn] at b4
  exact ⟨b1.1, b2.1, b3.1, b4.1, b4.2⟩

theorem Invokes_within (T : List Char) {c d : Call} (h : Invokes c d) (hc : c.state.within T) :
    d.state.within T ∧ c.state.m_Index ≤ d.state.m_Index := by
  cases h with
  | expression_term k p => exact ⟨hc, le_refl _⟩
  | expression_expression1 k p p1 tnode h => exact (procs_within T k p p1 tnode hc).2.2.1 h
  | expression1_term k p p1 hk h => exact GetNextToken_within T p p1 hc.1 hc.2.1 h
  | expression1_expression1 k p p1 p2 tnode hk h h1 =>
    obtain ⟨w0, m0⟩ := GetNextToken_within T p p1 hc.1 hc.2.1 h
    obtain ⟨w1, m1⟩ := (procs_within T k p1 p2 tnode w0).2.2.1 h1
    exact ⟨w1, le_trans m0 m1⟩
  | term_factor k p => exact ⟨hc, le_refl _⟩
  | term_term1 k p p1 fnode h => exact (procs_within T k p p1 fnode hc).2.2.2.2 h
  | term1_factor k p p1 hk h => exact GetNextToken_within T p p1 hc.1 hc.2.1 h
  | term1_term1 k p p1 p2 fnode hk h h1 =>
    obtain ⟨w0, m0⟩ := GetNextToken_within T p p1 hc.1 hc.2.1 h
    obtain ⟨w1, m1⟩ := (procs_within T k p1 p2 fnode w0).2.2.2.2 h1
    exact ⟨w1, le_trans m0 m1⟩
  | factor_expression k p p1 hk h => exact GetNextToken_within T p p1 hc.1 hc.2.1 h
  | factor_factor k p p1 hk h => exact GetNextToken_within T p p1 hc.1 hc.2.1 h

theorem Reaches_within {text : List Char} {q0 : Parser} {c : Call} (h : Reaches text q0 c)
    (h0 : q0.within text) : c.state.within text ∧ q0.m_Index ≤ c.state.m_Index := by
  unfold Reaches at h
  induction h with
  | refl => exact ⟨h0, le_refl _⟩
  | tail _ hstep ih =>
    obtain ⟨w, m⟩ := Invokes_within text hstep ih.1
    exact ⟨w, le_trans ih.2 m⟩

theorem Call_result_within (T : List Char) (c : Call) (t : ASTNode) (p' : Parser)
    (hc : c.state.within T) (h : c.result = .ok (t, p')) :
    p'.within T ∧ c.state.m_Index ≤ p'.m_Index := by
  obtain ⟨proc, k, p⟩ := c
  cases proc
  · exact (procs_within T k p p' t hc).1 h
  · exact (procs_within T k p p' t hc).2.1 h
  · exact (procs_within T k p p' t hc).2.2.1 h
  · exact (procs_within T k p p' t hc).2.2.2.1 h
  · exact (procs_within T k p p' t hc).2.2.2.2 h

set_option maxRecDepth 8000 in
/-- C22: the cursor invariant. Inside `GetNextToken` and `GetNumber` every
position the scan reaches lies between the cursor it started from and the
length of the text, so the cursor never moves past the terminating NUL, and a
successful `GetNextToken` keeps the text and does not move the cursor back.
Along every call one grammar procedure makes of another, and from every call
to its return, the state stays within the text and the cursor does not
decrease. In a parse of `text`, the state after the first token and the state
of every call the parse reaches are within `text`, and where `Factor` calls
`Match`, behind `(` and an expression, the cursor is at least 1 and at most
the length, so `m_Text[m_Index-1]` lies inside the text. The state `Parse`
returns is within `text`, and every error position `Parse` reports is at most
the length of `text`. -/
theorem C22_cursor_invariant :
    (∀ (p : Parser) (j k k' n : Nat), p.m_Index ≤ p.m_Text.length →
      j = scanWhile isspace (p.m_Text.drop p.m_Index) p.m_Index →
      k = scanWhile isdigit (p.m_Text.drop j) j →
      k' = (if charAt p.m_Text k = '.' then k + 1 else k) →
      n = scanWhile isdigit (p.m_Text.drop k') k' →
      p.m_Index ≤ j ∧ j ≤ k ∧ k ≤ k' ∧ k' ≤ n ∧ n ≤ p.m_Text.length)
    ∧ (∀ p p1 : Parser, p.m_Index ≤ p.m_Text.length → GetNextToken p = .ok p1 →
        p1.m_Text = p.m_Text ∧ p.m_Index ≤ p1.m_Index ∧ p1.m_Index ≤ p1.m_Text.length)
    ∧ (∀ (T : List Char) (c d : Call), Invokes c d → c.state.within T →
        d.state.within T ∧ c.state.m_Index ≤ d.state.m_Index)
    ∧ (∀ (T : List Char) (c : Call) (t : ASTNode) (p' : Parser), c.state.within T →
        c.result = .ok (t, p') → p'.within T ∧ c.state.m_Index ≤ p'.m_Index)
    ∧ (∀ (p0 q0 : Parser) (text : List Char),
        GetNextToken { p0 with m_Text := text, m_Index := 0 } = .ok q0 →
        q0.within text
        ∧ (∀ c : Call, Reaches text q0 c → c.state.within text)
        ∧ (∀ (k : Nat) (p p1 p2 : Parser) (node : ASTNode),
            Reaches text q0 ⟨.factor, k + 1, p⟩ → p.m_crtToken.Kind = .OpenParenthesis →
            GetNextToken p = .ok p1 → Expression k p1 = .ok (node, p2) →
            p2.m_Text = text ∧ 1 ≤ p2.m_Index ∧ p2.m_Index ≤ text.length
              ∧ p2.m_Index - 1 < text.length))
    ∧ (∀ (p : Parser) (text : List Char) (t : ASTNode) (p' : Parser),
        Parse p text = .ok (t, p') → p'.m_Text = text ∧ p'.m_Index ≤ text.length)
    ∧ (∀ (p : Parser) (text : List Char) (e : ParserException),
        Parse p text = .error (.thrown e) → e.m_Pos ≤ text.length) := by
  refine ⟨?_, ?_, ?_, ?_, ?_, ?_, ?_⟩
  · intro p j k k' n hin hj hk hk' hn
    exact GetNumber_cursors p j k k' n hin hj hk hk' hn
  · intro p p1 hin h
    obtain ⟨h1, h2, h3, -⟩ := GetNextToken_advance p p1 h hin
    exact ⟨h1, h2, h3⟩
  · intro T c d h hc
    exact Invokes_within T h hc
  · intro T c t p' hc h
    exact Call_result_within T c t p' hc h
  · intro p0 q0 text h0
    obtain ⟨w0, -⟩ := GetNextToken_within text { p0 with m_Text := text, m_Index := 0 } q0 rfl
      (Nat.zero_le _) h0
    refine ⟨w0, fun c hc => (Reaches_within hc w0).1, ?_⟩
    intro k p p1 p2 node hreach hk h1 h2
    obtain ⟨wp, -⟩ := Reaches_within hreach w0
    obtain ⟨w1, m1⟩ := GetNextToken_within text p p1 wp.1 wp.2.1 h1
    obtain ⟨w2, m2⟩ := (procs_within text k p1 p2 node w1).1 h2
    have hpos : 1 ≤ p.m_Index := wp.2.2 (by rw [hk]; simp)
    have hle : p2.m_Index ≤ text.length := w2.2.1
    have m2' : p1.m_Index ≤ p2.m_Index := m2
    refine ⟨w2.1, by omega, hle, by omega⟩
  · intro p text t p' h
    rw [Parse_eq, bind_eq_ok] at h
    obtain ⟨q0, h0, h1⟩ := h
    obtain ⟨w0, -⟩ := GetNextToken_within text ⟨⟨.Error, 0, Char.ofNat 0⟩, text, 0⟩ q0 rfl
      (Nat.zero_le _) h0
    obtain ⟨w1, -⟩ := (procs_within text _ q0 p' t w0).1 h1
    exact ⟨w1.1, w1.2.1⟩
  · intro p text e h
    exact (Parse_thrown p text e h).2

set_option maxRecDepth 8000 in
/-- C22 at the text `1+`: the error position 2 is the length of the text. -/
theorem C22_cursor_invariant_witness :
    Parse Parser.fresh ['1', '+'] = .error (.thrown ⟨.UnexpectedToken (Char.ofNat 0), 2⟩)
    ∧ (⟨.UnexpectedToken (Char.ofNat 0), 2⟩ : ParserException).m_Pos ≤ ['1', '+'].length := by
  have h : Parse Parser.fresh ['1', '+']
      = .error (.thrown ⟨.UnexpectedToken (Char.ofNat 0), 2⟩) := by
    simp [Parse, Parser.fresh, GetNextToken, SkipWhitespaces, scanWhile, isspace, isdigit,
      charAt, GetNumber, atof, digitsValue, symbolType, Expression, Expression1, Term, Term1,
      Factor, Match, CreateNode, CreateNodeNumber, CreateUnaryNode, bind, Except.bind, pure,
      Except.pure]
  exact ⟨h, C22_cursor_invariant.2.2.2.2.2.2 Parser.fresh _ _ h⟩

/-! ## The buffer of `GetNumber` -/

theorem copyLength_literal {T : List Char} {i : Nat} {ws : List Char} {l : Literal}
    {rest : List Char} (tok : Token) (h : T.drop i = ws ++ (l.text ++ rest))
    (hws : ws.all isspace = true) (hwf : l.wf) (hmax : l.maximal rest) :
    copyLength ⟨tok, T, i⟩ = l.text.length := by
  obtain ⟨hne, hip, hfp⟩ := hwf
  have hip' : ∀ a ∈ l.intPart, isdigit a = true := by simpa using hip
  have hrd : ∀ c r, rest = c :: r → isdigit c = false := fun c r hcr => (hmax c r hcr).1
  have hj0 : T.drop (i + ws.length) = l.text ++ rest := drop_shift h
  obtain ⟨d, r', hd, hdr⟩ : ∃ d r', isdigit d = true ∧ l.text ++ rest = d :: r' := by
    cases hl : l.intPart with
    | nil => exact absurd hl hne
    | cons d ds =>
      refine ⟨d, (l.text ++ rest).tail, hip' d (by simp [hl]), ?_⟩
      unfold Literal.text
      rw [hl]
      cases l.fracPart <;> simp
  have hj : scanWhile isspace (T.drop i) i = i + ws.length := by
    rw [h, hdr]
    exact scanWhile_append isspace ws (d :: r') i hws
      (by intro c' r'' h'; cases h'; exact isdigit_not_isspace hd)
  cases hf : l.fracPart with
  | none =>
    have htext : l.text = l.intPart := by simp [Literal.text, hf]
    rw [htext] at hj0 ⊢
    have hk : scanWhile isdigit (T.drop (i + ws.length)) (i + ws.length)
        = i + ws.length + l.intPart.length := by
      rw [hj0]; exact scanWhile_append _ _ _ _ hip hrd
    have hdrop : T.drop (i + ws.length + l.intPart.length) = rest := drop_shift hj0
    have hdot : ¬ charAt T (i + ws.length + l.intPart.length) = '.' := by
      cases hr : rest with
      | nil => rw [charAt_of_drop_nil (hdrop.trans hr)]; decide
      | cons c r => rw [charAt_of_drop_cons (hdrop.trans hr)]; exact (hmax c r hr).2 hf
    have hn : scanWhile isdigit (T.drop (i + ws.length + l.intPart.length))
        (i + ws.length + l.intPart.length) = i + ws.length + l.intPart.length := by
      rw [hdrop]; exact scanWhile_stop _ _ _ hrd
    rw [copyLength_eq ⟨tok, T, i⟩ (i + ws.length) (i + ws.length + l.intPart.length)
      (i + ws.length + l.intPart.length) (i + ws.length + l.intPart.length) hj.symm hk.symm
      (by simp [hdot]) hn.symm]
    omega
  | some fs =>
    rw [hf] at hfp
    have htext : l.text = l.intPart ++ '.' :: fs := by simp [Literal.text, hf]
    rw [htext] at hj0 ⊢
    have h' : T.drop (i + ws.length) = l.intPart ++ ('.' :: fs ++ rest) := by simpa using hj0
    have hk : scanWhile isdigit (T.drop (i + ws.length)) (i + ws.length)
        = i + ws.length + l.intPart.length := by
      rw [h']
      apply scanWhile_append _ _ _ _ hip
      intro c r hcr
      simp at hcr
      rw [← hcr.1]; decide
    have hdrop : T.drop (i + ws.length + l.intPart.length) = '.' :: (fs ++ rest) := by
      simpa using drop_shift h'
    have hdot : charAt T (i + ws.length + l.intPart.length) = '.' := charAt_of_drop_cons hdrop
    have hdrop2 : T.drop (i + ws.length + l.intPart.length + 1) = fs ++ rest := by
      have := drop_shift (a := ['.']) (b := fs ++ rest) hdrop
      simpa using this
    have hn : scanWhile isdigit (T.drop (i + ws.length + l.intPart.length + 1))
        (i + ws.length + l.intPart.length + 1)
        = i + ws.length + l.intPart.length + 1 + fs.length := by
      rw [hdrop2]; exact scanWhile_append _ _ _ _ hfp hrd
    rw [copyLength_eq ⟨tok, T, i⟩ (i + ws.length) (i + ws.length + l.intPart.length)
      (i + ws.length + l.intPart.length + 1) (i + ws.length + l.intPart.length + 1 + fs.length)
      hj.symm hk.symm (by simp [hdot]) hn.symm]
    simp
    omega

theorem parse_literal (l : Literal) (hwf : l.wf) :
    parse l.text =
      if 32 ≤ l.text.length then .error .bufferOverrun
      else .ok (.Binary .OperatorPlus
        (.Binary .OperatorMul (.NumberValue l.value) (.NumberValue 1)) (.NumberValue 0)) := by
  by_cases h32 : 32 ≤ l.text.length
  · have hlex := lex_scan (by simp : l.text.drop 0 = [] ++ (l.text ++ [])) (by simp) hwf
      (by intro c r h; cases h)
    simp only [h32, if_true] at hlex ⊢
    rw [parse, Parse_eq, hlex]
    rfl
  · have hfit : l.fits := by unfold Literal.fits; omega
    have h := parse_print (.mk (litTerm l) .eps)
      (by simp [Exp.litsOk, Exp1.litsOk, Trm.litsOk, Trm1.litsOk, Fac.litsOk, litTerm, hwf, hfit])
    simp only [h32, if_false]
    simpa [Exp.print, Exp1.print, Trm.print, Trm1.print, Fac.print, litTerm, Exp.tree,
      Exp1.tree, Trm.tree, Trm1.tree, Fac.tree, CreateNode, CreateNodeNumber] using h

set_option maxRecDepth 8000 in
/-- C23: `GetNumber` puts no bound on the literal it scans. It copies
`copyLength` characters into its buffer of 32 bytes, which holds them with a
terminating NUL only when there are at most 31; with 32 or more the buffer is
overrun. On a well-formed literal that cannot be made longer, `copyLength` is
the length of the literal, so a run of `m` digits is scanned in full for every
`m`. `parse` of a well-formed literal returns its tree when the literal has at
most 31 characters and overruns the buffer when it has 32 or more: so it does
on 32 digits and on the literal `longLiteral` of 37 characters, while 31
digits are parsed. -/
theorem C23_literal_buffer :
    (∀ p : Parser, ∃ n : Nat, GetNumber p =
      if copyLength p = 0 then .error (.thrown ⟨.NumberExpected, n⟩)
      else if 32 ≤ copyLength p then .error .bufferOverrun
      else .ok (atof ((p.m_Text.drop (SkipWhitespaces p).m_Index).take (copyLength p)),
        ⟨p.m_crtToken, p.m_Text, n⟩))
    ∧ (∀ (tok : Token) (T : List Char) (i : Nat) (ws : List Char) (l : Literal)
        (rest : List Char), T.drop i = ws ++ (l.text ++ rest) → ws.all isspace = true →
        l.wf → l.maximal rest → copyLength ⟨tok, T, i⟩ = l.text.length)
    ∧ (∀ (tok : Token) (m : Nat), 1 ≤ m → copyLength ⟨tok, List.replicate m '1', 0⟩ = m)
    ∧ (∀ l : Literal, l.wf → parse l.text =
        if 32 ≤ l.text.length then .error .bufferOverrun
        else .ok (.Binary .OperatorPlus
          (.Binary .OperatorMul (.NumberValue l.value) (.NumberValue 1)) (.NumberValue 0)))
    ∧ parse (List.replicate 32 '1') = .error .bufferOverrun
    ∧ (∃ tree, parse (List.replicate 31 '1') = .ok tree)
    ∧ (longLiteral.wf ∧ longLiteral.text.length = 37
        ∧ copyLength ⟨⟨.Number, 0, Char.ofNat 0⟩, longLiteral.text, 0⟩ = 37
        ∧ GetNumber ⟨⟨.Number, 0, Char.ofNat 0⟩, longLiteral.text, 0⟩ = .error .bufferOverrun
        ∧ parse longLiteral.text = .error .bufferOverrun) := by
  have hrep : ∀ m : Nat, 1 ≤ m → (⟨List.replicate m '1', none⟩ : Literal).wf := by
    intro m hm
    refine ⟨?_, ?_, trivial⟩
    · intro h
      have := congrArg List.length h
      simp at this
      omega
    · simp only [List.all_eq_true, List.mem_replicate]
      rintro c ⟨-, rfl⟩
      decide
  have hlong : longLiteral.wf := by decide
  have hlen : longLiteral.text.length = 37 := by simp [longLiteral, Literal.text]
  refine ⟨GetNumber_copyLength, ?_, ?_, parse_literal, ?_, ?_, hlong, hlen, ?_, ?_, ?_⟩
  · intro tok T i ws l rest h hws hwf hmax
    exact copyLength_literal tok h hws hwf hmax
  · intro tok m hm
    have := copyLength_literal (T := List.replicate m '1') (i := 0) (l := ⟨List.replicate m '1', none⟩)
      tok (by simp [Literal.text] : (List.replicate m '1').drop 0
        = [] ++ ((⟨List.replicate m '1', none⟩ : Literal).text ++ [])) (by simp) (hrep m hm)
      (by intro c r h; cases h)
    simpa [Literal.text] using this
  · have := parse_literal ⟨List.replicate 32 '1', none⟩ (hrep 32 (by omega))
    simpa [Literal.text] using this
  · have := parse_literal ⟨List.replicate 31 '1', none⟩ (hrep 31 (by omega))
    simp only [Literal.text, List.length_replicate] at this
    exact ⟨_, this⟩
  · rw [copyLength_literal (T := longLiteral.text) (i := 0) (l := longLiteral) _
      (by simp : longLiteral.text.drop 0 = [] ++ (longLiteral.text ++ [])) (by simp) hlong
      (by intro c r h; cases h), hlen]
  · have := GetNumber_scan (T := longLiteral.text) (i := 0) (l := longLiteral)
      ⟨.Number, 0, Char.ofNat 0⟩ (by simp : longLiteral.text.drop 0 = longLiteral.text ++ [])
      hlong (by intro c r h; cases h)
    rw [this, hlen]
    rfl
  · rw [parse_literal longLiteral hlong, hlen]
    rfl

end ExpEval
